import Mathlib

/-!
Framebuffer access-pattern benchmark (`perf.c`).

A shallow embedding of the benchmark harness of `perf.c`: the eight access
patterns, the tiled coordinate decomposition, and the calibration step of `run`.

Conventions of the embedding.

* C `unsigned` values are natural numbers and every `unsigned` operation is
  reduced modulo `2 ^ 32` with `u32`.
* The mapped surface is a byte memory `Mem`, addressed by the byte offset from
  the base `fb` of the mapping.  A `__u32` access is four consecutive bytes,
  least significant first.
* A pattern runs on a `State` that holds the surface, the accumulator `sum` of
  the read variants, the scratch line of the bulk-copy variants, and a ghost
  log of every surface access in program order.
* Behaviour the C standard leaves undefined (modulo by zero, an out-of-range
  conversion from `double`) is the value `none`.
* `double` is IEEE 754 binary64 with round-to-nearest-even, evaluated without
  excess precision.
* The fields of the geometry are `__u32` values; a theorem that needs the range
  of one says so in a hypothesis.
-/

namespace Perf

/-! ## Machine arithmetic and memory -/

/-- C `unsigned` (32-bit) wrap-around. -/
def u32 (n : Nat) : Nat := n % 2 ^ 32

/-- Conversion to `unsigned char`. -/
def u8 (n : Nat) : Nat := n % 256

/-- The geometry the patterns read from the globals `var`, `fix` and `bytespp`. -/
structure Geometry where
  /-- `var.xres_virtual` -/
  xres_virtual : Nat
  /-- `var.yres_virtual` -/
  yres_virtual : Nat
  /-- `fix.line_length`, the stride in bytes -/
  line_length : Nat
  /-- `bytespp = var.bits_per_pixel / 8` -/
  bytespp : Nat

/-- Bytes of the mapping, indexed by the byte offset from `fb`. -/
abbrev Mem := Nat → Nat

/-- Load through a `__u32*` at byte offset `a`. -/
def load32 (m : Mem) (a : Nat) : Nat :=
  m a + 256 * m (a + 1) + 65536 * m (a + 2) + 16777216 * m (a + 3)

/-- Store of the 32-bit value `v` through a `__u32*` at byte offset `a`. -/
def store32 (m : Mem) (a v : Nat) : Mem := fun b =>
  if b = a then v % 256
  else if b = a + 1 then v / 256 % 256
  else if b = a + 2 then v / 65536 % 256
  else if b = a + 3 then v / 16777216 % 256
  else m b

/-- One surface access: whether it stores, the pixel coordinates it is made
for, the byte offset from `fb` and the number of bytes. -/
structure Access where
  store : Bool
  x : Nat
  y : Nat
  off : Nat
  len : Nat
deriving DecidableEq

/-- What a running pattern can change. -/
structure State where
  /-- the mapped surface -/
  mem : Mem
  /-- the local `sum` of the read variants -/
  sum : Nat
  /-- the heap line `linebuf` of the bulk-copy variants -/
  linebuf : Nat → Nat
  /-- ghost: the surface accesses made so far, oldest first -/
  log : List Access

/-- What a pattern hands back: the final state, the value stored through
`pixels`, and whether the `bad luck` null write was reached. -/
structure Result where
  st : State
  pixels : Nat
  fault : Bool

/-! ## Loops -/

/-- The loop `for (i = 0; i < n; ++i) body`. -/
def for_lt {σ : Type} (n : Nat) (body : Nat → σ → σ) (s : σ) : σ :=
  match n with
  | 0 => s
  | k + 1 => body k (for_lt k body s)

/-- The loop `while (l--) body`; the body sees `l` already decremented. -/
def while_dec {σ : Type} (l : Nat) (body : Nat → σ → σ) (s : σ) : σ :=
  match l with
  | 0 => s
  | k + 1 => while_dec k body (body k s)

/-- The loop `for (i = 0; i < n; ++i) body` with a body that can be undefined. -/
def for_lt_opt {σ : Type} (n : Nat) (body : Nat → σ → Option σ) (s : σ) : Option σ :=
  match n with
  | 0 => some s
  | k + 1 => (for_lt_opt k body s).bind (body k)

/-- The loop `while (l--) body` with a body that can be undefined. -/
def while_dec_opt {σ : Type} (l : Nat) (body : Nat → σ → Option σ) (s : σ) : Option σ :=
  match l with
  | 0 => some s
  | k + 1 => (body k s).bind (while_dec_opt k body)

/-- The state a pattern starts from: the surface as found, `sum = 0`, nothing
logged.  `linebuf` is the content of the block `malloc` returns; only the
bulk-copy patterns allocate and use it. -/
def init (fb : Mem) (linebuf : Nat → Nat) : State :=
  { mem := fb, sum := 0, linebuf := linebuf, log := [] }

/-- The value every pattern stores through `pixels`: `xres * yres * loops` in
`unsigned` arithmetic, widened afterwards. -/
def pixels_out (g : Geometry) (loops : Nat) : Nat :=
  u32 (u32 (g.xres_virtual * g.yres_virtual) * loops)

/-- The check `sum == 0xffffffff` guarding the null write. -/
def bad_luck (s : State) : Bool := decide (s.sum = 0xffffffff)

/-- A `__u32` load at byte offset `off`, added into `sum`: `sum += p32[x]`
or `sum += *p32`.  The coordinates `(x, y)` are those of the loop variables. -/
def read_word (off x y : Nat) (s : State) : State :=
  { s with sum := u32 (s.sum + load32 s.mem off),
           log := s.log ++ [⟨false, x, y, off, 4⟩] }

/-- The value `x * y * (loops - l)` of the write variants, in `unsigned` arithmetic. -/
def pixel_value (loops l x y : Nat) : Nat := u32 (u32 (x * y) * u32 (loops - l))

/-- A `__u32` store of `v` at byte offset `off`: `p32[x] = v` or `*p32 = v`. -/
def write_word (off v x y : Nat) (s : State) : State :=
  { s with mem := store32 s.mem off v,
           log := s.log ++ [⟨true, x, y, off, 4⟩] }

/-- The pointer step `p32 += (fix.line_length / sizeof(*p32))`, in bytes. -/
def next_row (g : Geometry) (p : Nat) : Nat := p + 4 * (g.line_length / 4)

/-! ## Sequential per-pixel patterns -/

/-- The body of the row loop of `sequential_horiz_singlepixel_read`: the column
loop `sum += p32[x]`, then the pointer step.  The state of the row loop is the
byte offset of `p32` and the pattern state. -/
def horiz_read_row (g : Geometry) (y : Nat) (ps : Nat × State) : Nat × State :=
  (next_row g ps.1, for_lt g.xres_virtual (fun x s => read_word (ps.1 + 4 * x) x y s) ps.2)

/-- One pass of `sequential_horiz_singlepixel_read`: `p32 = fb`, then the row loop. -/
def horiz_read_pass (g : Geometry) (s : State) : State :=
  (for_lt g.yres_virtual (horiz_read_row g) (0, s)).2

/-- The pattern `sequential_horiz_singlepixel_read`. -/
def sequential_horiz_singlepixel_read (g : Geometry) (loops : Nat) (fb : Mem)
    (linebuf : Nat → Nat) : Result :=
  let s := while_dec loops (fun _ s => horiz_read_pass g s) (init fb linebuf)
  { st := s, pixels := pixels_out g loops, fault := bad_luck s }

/-- The body of the row loop of `sequential_horiz_singlepixel_write`, with `l`
already decremented: the column loop `p32[x] = x * y * (loops - l)`, then the
pointer step. -/
def horiz_write_row (g : Geometry) (loops l y : Nat) (ps : Nat × State) : Nat × State :=
  (next_row g ps.1,
    for_lt g.xres_virtual
      (fun x s => write_word (ps.1 + 4 * x) (pixel_value loops l x y) x y s) ps.2)

/-- One pass of `sequential_horiz_singlepixel_write`. -/
def horiz_write_pass (g : Geometry) (loops l : Nat) (s : State) : State :=
  (for_lt g.yres_virtual (horiz_write_row g loops l) (0, s)).2

/-- The pattern `sequential_horiz_singlepixel_write`. -/
def sequential_horiz_singlepixel_write (g : Geometry) (loops : Nat) (fb : Mem)
    (linebuf : Nat → Nat) : Result :=
  let s := while_dec loops (fun l s => horiz_write_pass g loops l s) (init fb linebuf)
  { st := s, pixels := pixels_out g loops, fault := false }

/-- The body of the row loop of `sequential_vert_singlepixel_read` for column
`x`: `sum += *p32`, then the pointer step. -/
def vert_read_cell (g : Geometry) (x y : Nat) (ps : Nat × State) : Nat × State :=
  (next_row g ps.1, read_word ps.1 x y ps.2)

/-- The body of the column loop of `sequential_vert_singlepixel_read`: the
pointer starts at `((__u32*)fb) + x`, then the row loop. -/
def vert_read_col (g : Geometry) (x : Nat) (s : State) : State :=
  (for_lt g.yres_virtual (vert_read_cell g x) (4 * x, s)).2

/-- One pass of `sequential_vert_singlepixel_read`: columns outside, rows inside. -/
def vert_read_pass (g : Geometry) (s : State) : State :=
  for_lt g.xres_virtual (vert_read_col g) s

/-- The pattern `sequential_vert_singlepixel_read`. -/
def sequential_vert_singlepixel_read (g : Geometry) (loops : Nat) (fb : Mem)
    (linebuf : Nat → Nat) : Result :=
  let s := while_dec loops (fun _ s => vert_read_pass g s) (init fb linebuf)
  { st := s, pixels := pixels_out g loops, fault := bad_luck s }

/-- The body of the row loop of `sequential_vert_singlepixel_write` for column
`x`, with `l` already decremented: `*p32 = x * y * (loops - l)`, then the
pointer step. -/
def vert_write_cell (g : Geometry) (loops l x y : Nat) (ps : Nat × State) : Nat × State :=
  (next_row g ps.1, write_word ps.1 (pixel_value loops l x y) x y ps.2)

/-- The body of the column loop of `sequential_vert_singlepixel_write`. -/
def vert_write_col (g : Geometry) (loops l x : Nat) (s : State) : State :=
  (for_lt g.yres_virtual (vert_write_cell g loops l x) (4 * x, s)).2

/-- One pass of `sequential_vert_singlepixel_write`. -/
def vert_write_pass (g : Geometry) (loops l : Nat) (s : State) : State :=
  for_lt g.xres_virtual (vert_write_col g loops l) s

/-- The pattern `sequential_vert_singlepixel_write`. -/
def sequential_vert_singlepixel_write (g : Geometry) (loops : Nat) (fb : Mem)
    (linebuf : Nat → Nat) : Result :=
  let s := while_dec loops (fun l s => vert_write_pass g loops l s) (init fb linebuf)
  { st := s, pixels := pixels_out g loops, fault := false }

/-! ## Bulk-copy patterns -/

/-- The size argument `var.xres_virtual * bytespp` of `malloc` and `memcpy`. -/
def line_bytes (g : Geometry) : Nat := u32 (g.xres_virtual * g.bytespp)

/-- The call `memcpy(linebuf, p, n)` with `p` at byte offset `p` of the surface. -/
def copy_out (p n y : Nat) (s : State) : State :=
  { s with linebuf := fun j => if j < n then s.mem (p + j) else s.linebuf j,
           log := s.log ++ [⟨false, 0, y, p, n⟩] }

/-- The call `memcpy(p, linebuf, n)` with `p` at byte offset `p` of the surface. -/
def copy_in (p n y : Nat) (s : State) : State :=
  { s with mem := fun a => if p ≤ a ∧ a < p + n then s.linebuf (a - p) else s.mem a,
           log := s.log ++ [⟨true, 0, y, p, n⟩] }

/-- The body of the row loop of `sequential_line_read`: the copy, then
`p += fix.line_length`, a step in bytes. -/
def line_read_row (g : Geometry) (y : Nat) (ps : Nat × State) : Nat × State :=
  (ps.1 + g.line_length, copy_out ps.1 (line_bytes g) y ps.2)

/-- One pass of `sequential_line_read`. -/
def line_read_pass (g : Geometry) (s : State) : State :=
  (for_lt g.yres_virtual (line_read_row g) (0, s)).2

/-- The pattern `sequential_line_read`; `linebuf` is what `malloc` returned. -/
def sequential_line_read (g : Geometry) (loops : Nat) (fb : Mem)
    (linebuf : Nat → Nat) : Result :=
  let s := while_dec loops (fun _ s => line_read_pass g s) (init fb linebuf)
  { st := s, pixels := pixels_out g loops, fault := false }

/-- The body of the fill loop: `((unsigned char*)linebuf)[y] = y`. -/
def fill_byte (y : Nat) (s : State) : State :=
  { s with linebuf := fun j => if j = y then u8 y else s.linebuf j }

/-- The fill loop `for (y = 0; y < n; ++y) ((unsigned char*)linebuf)[y] = y`. -/
def fill_ramp (n : Nat) (s : State) : State := for_lt n fill_byte s

/-- The body of the row loop of `sequential_line_write`. -/
def line_write_row (g : Geometry) (y : Nat) (ps : Nat × State) : Nat × State :=
  (ps.1 + g.line_length, copy_in ps.1 (line_bytes g) y ps.2)

/-- One pass of `sequential_line_write`. -/
def line_write_pass (g : Geometry) (s : State) : State :=
  (for_lt g.yres_virtual (line_write_row g) (0, s)).2

/-- The pattern `sequential_line_write`; `linebuf` is what `malloc` returned. -/
def sequential_line_write (g : Geometry) (loops : Nat) (fb : Mem)
    (linebuf : Nat → Nat) : Result :=
  let s := while_dec loops (fun _ s => line_write_pass g s)
    (fill_ramp (line_bytes g) (init fb linebuf))
  { st := s, pixels := pixels_out g loops, fault := false }

/-! ## Tiled patterns -/

/-- The shape shared by both coordinates of the tiled patterns:
`(n % parts) * size + (n / parts) % size`, the tile index taken from the low
part of `n` and the offset inside the tile from the high part. -/
def tile_coord (parts size n : Nat) : Nat := (n % parts) * size + (n / parts) % size

/-- The counter part a coordinate comes from: tile index `c / size` in the low
part, offset `c % size` in the high part. -/
def tile_counter (parts size c : Nat) : Nat := c / size + parts * (c % size)

/-- Every counter below `W * H` yields a pixel of the surface, and every pixel
of the surface comes from exactly one such counter. -/
def visits_each_pixel_once (f : Nat → Option (Nat × Nat)) (W H : Nat) : Prop :=
  (∀ i, i < W * H → ∃ x y, f i = some (x, y) ∧ x < W ∧ y < H) ∧
  (∀ x y, x < W → y < H → ∃! i, i < W * H ∧ f i = some (x, y))

/-- The coordinates the loop body of the tiled patterns computes from the
counter `i`:
`y = (i % yparts) * (yres / yparts); y += (i / yparts) % (yres / yparts);`
`x = ((i / yres) % xparts) * (xres / xparts);`
`x += ((i / yres) / xparts) % (xres / xparts);`
A modulo by zero is undefined; `yres = 0` makes `yres / yparts` zero first. -/
def tile_xy (yparts xparts xres yres i : Nat) : Option (Nat × Nat) :=
  if yres / yparts = 0 ∨ xres / xparts = 0 then none
  else
    let y := u32 ((i % yparts) * (yres / yparts))
    let y := u32 (y + (i / yparts) % (yres / yparts))
    let x := u32 (((i / yres) % xparts) * (xres / xparts))
    let x := u32 (x + ((i / yres) / xparts) % (xres / xparts))
    some (x, y)

/-- The byte offset of `p32[x]` for `__u32* p32 = fb + y * fix.line_length`:
the product is an `unsigned` one, the pointer steps are not reduced. -/
def tile_off (g : Geometry) (x y : Nat) : Nat := u32 (y * g.line_length) + 4 * x

/-- The body of the counter loop of `nonsequential_singlepixel_write`. -/
def nonseq_write_body (g : Geometry) (loops l i : Nat) (s : State) : Option State :=
  (tile_xy 4 4 g.xres_virtual g.yres_virtual i).map
    (fun c => write_word (tile_off g c.1 c.2) (pixel_value loops l c.1 c.2) c.1 c.2 s)

/-- One pass of `nonsequential_singlepixel_write`, with `l` already decremented:
the counter loop `for (i = 0; i < yres * xres; ++i)`. -/
def nonseq_write_pass (g : Geometry) (loops l : Nat) (s : State) : Option State :=
  for_lt_opt (u32 (g.yres_virtual * g.xres_virtual)) (nonseq_write_body g loops l) s

/-- The pattern `nonsequential_singlepixel_write`. -/
def nonsequential_singlepixel_write (g : Geometry) (loops : Nat) (fb : Mem)
    (linebuf : Nat → Nat) : Option Result :=
  (while_dec_opt loops (nonseq_write_pass g loops) (init fb linebuf)).map
    (fun s => { st := s, pixels := pixels_out g loops, fault := false })

/-- The body of the counter loop of `nonsequential_singlepixel_read`. -/
def nonseq_read_body (g : Geometry) (i : Nat) (s : State) : Option State :=
  (tile_xy 16 8 g.xres_virtual g.yres_virtual i).map
    (fun c => read_word (tile_off g c.1 c.2) c.1 c.2 s)

/-- One pass of `nonsequential_singlepixel_read`. -/
def nonseq_read_pass (g : Geometry) (s : State) : Option State :=
  for_lt_opt (u32 (g.yres_virtual * g.xres_virtual)) (nonseq_read_body g) s

/-- The pattern `nonsequential_singlepixel_read`. -/
def nonsequential_singlepixel_read (g : Geometry) (loops : Nat) (fb : Mem)
    (linebuf : Nat → Nat) : Option Result :=
  (while_dec_opt loops (fun _ s => nonseq_read_pass g s) (init fb linebuf)).map
    (fun s => { st := s, pixels := pixels_out g loops, fault := bad_luck s })

/-! ## What a surface looks like after a pass of stores -/

/-- Byte `i` of a 32-bit value, least significant first. -/
def byte_of (v i : Nat) : Nat := v / 256 ^ i % 256

/-- The byte offset at which the sequential patterns access pixel `(x, y)`:
`y` pointer steps of `fix.line_length / 4` words, then `x` words. -/
def seq_addr (g : Geometry) (x y : Nat) : Nat := y * (4 * (g.line_length / 4)) + 4 * x

/-- The pixels of the surface. -/
def in_surface (g : Geometry) (x y : Nat) : Prop := x < g.xres_virtual ∧ y < g.yres_virtual

/-- The words at `addr x y`, for the pixels of `R`, share no byte. -/
def disjoint_words (addr : Nat → Nat → Nat) (R : Nat → Nat → Prop) : Prop :=
  ∀ x y x' y' i i', R x y → R x' y' → i < 4 → i' < 4 →
    addr x y + i = addr x' y' + i' → x = x' ∧ y = y' ∧ i = i'

/-- The surface `m` holds the value `v x y` in the word of every pixel of `C`,
and agrees with `m0` on every byte that belongs to no pixel of `R`. -/
def painted (addr v : Nat → Nat → Nat) (R C : Nat → Nat → Prop) (m0 m : Mem) : Prop :=
  (∀ x y, C x y → ∀ i, i < 4 → m (addr x y + i) = byte_of (v x y) i) ∧
  (∀ a, (∀ x y, R x y → ∀ i, i < 4 → a ≠ addr x y + i) → m a = m0 a)

/-- Every access logged so far is made for a pixel of the surface. -/
def log_in_surface (g : Geometry) (s : State) : Prop :=
  ∀ a ∈ s.log, a.x < g.xres_virtual ∧ a.y < g.yres_virtual

/-- Every access logged so far is at the byte offset `addr` gives for its pixel. -/
def log_at (addr : Nat → Nat → Nat) (s : State) : Prop :=
  ∀ a ∈ s.log, a.off = addr a.x a.y

/-- A call that touched nothing: zero pixels reported, the surface as it was
found, no access made, the null write not reached. -/
def untouched (fb : Mem) (r : Result) : Prop :=
  r.pixels = 0 ∧ r.st.mem = fb ∧ r.st.log = [] ∧ r.fault = false

/-! ## binary64 arithmetic

`run` computes in `double`.  A finite `double` is the rational number it
denotes; `none` is an infinity or a NaN.  In this program a value that is not
finite is only ever converted to an integer, which is undefined. -/

/-- Round to the nearest integer, ties to the even one. -/
def rne (x : ℚ) : ℤ :=
  if 2 * Int.fract x < 1 then ⌊x⌋
  else if 1 < 2 * Int.fract x then ⌊x⌋ + 1
  else ⌊x⌋ + ⌊x⌋ % 2

/-- The exponent of the unit in the last place of the binary64 values around
`x`: 53 significant bits, and the fixed spacing `2 ^ (-1074)` below `2 ^ (-1022)`. -/
def ulp_exp (x : ℚ) : ℤ := max (Int.log 2 |x|) (-1022) - 52

/-- Rounding to binary64, to nearest and ties to even; a result of magnitude
`2 ^ 1024` or more is an infinity. -/
def fl (x : ℚ) : Option ℚ :=
  if |(rne (x / 2 ^ ulp_exp x) : ℚ) * 2 ^ ulp_exp x| < 2 ^ 1024 then
    some ((rne (x / 2 ^ ulp_exp x) : ℚ) * 2 ^ ulp_exp x)
  else none

/-- Conversion of an integer operand to `double`. -/
def of_int (n : ℤ) : Option ℚ := fl (n : ℚ)

/-- The `double` product. -/
def dmul (a b : Option ℚ) : Option ℚ := a.bind fun x => b.bind fun y => fl (x * y)

/-- The `double` quotient; a zero divisor gives an infinity or a NaN. -/
def ddiv (a b : Option ℚ) : Option ℚ :=
  a.bind fun x => b.bind fun y => if y = 0 then none else fl (x / y)

/-- The integral part of a `double`, truncated toward zero. -/
def trunc (x : ℚ) : ℤ := if 0 ≤ x then ⌊x⌋ else ⌈x⌉

/-- Conversion of a `double` to an integer type with the range `lo .. hi`:
undefined when the integral part is not in the range. -/
def to_integer (lo hi : ℤ) (a : Option ℚ) : Option ℤ :=
  a.bind fun x => if lo ≤ trunc x ∧ trunc x ≤ hi then some (trunc x) else none

/-! ## The calibration step of `run` -/

/-- The constant `calib_loops` of `run`. -/
def calib_loops : Nat := 5

/-- The constant `runtime_secs` of `run`. -/
def runtime_secs : Nat := 5

/-- The statement `loops = runtime_secs * 1e9 * calib_loops / usecs;` with
`int loops`: the product and the quotient are `double` ones, and the result is
converted to `int`. -/
def calibrated_loops (usecs : Nat) : Option ℤ :=
  to_integer (-2 ^ 31) (2 ^ 31 - 1)
    (ddiv (dmul (dmul (of_int runtime_secs) (fl 1e9)) (of_int calib_loops)) (of_int usecs))

/-- What a `test_func` stores through its out-parameters `usecs` and `pixels`. -/
structure Measurement where
  usecs : Nat
  pixels : Nat

/-- The line `run` prints to the console and to the log file. -/
structure Report where
  pixels : Nat
  usecs : Nat
  pix_per_sec : Nat

/-- Conversion of the `int` argument `loops` to the `unsigned` parameter. -/
def int_to_unsigned (z : ℤ) : Nat := (z % 2 ^ 32).toNat

/-- The statement `pix_per_sec = pixels * 1e9 / usecs;` with an
`unsigned long long` result. -/
def throughput (m : Measurement) : Option Nat :=
  (to_integer 0 (2 ^ 64 - 1)
    (ddiv (dmul (of_int m.pixels) (fl 1e9)) (of_int m.usecs))).map Int.toNat

/-- The function `run`: a calibration call with `calib_loops` loops, the loop
count for the production call, the production call, and the line printed.
`W` is everything a `test_func` can read and change: the surface and the clock. -/
def run {W : Type} (func : Nat → W → Measurement × W) (w : W) : Option (Report × W) :=
  let c := func calib_loops w
  (calibrated_loops c.1.usecs).bind fun loops =>
    let r := func (int_to_unsigned loops) c.2
    (throughput r.1).map fun pps =>
      ({ pixels := r.1.pixels, usecs := r.1.usecs, pix_per_sec := pps }, r.2)

/-- The geometry of the scenario: 800 x 480 at 32 bits per pixel, no row padding. -/
def scenario : Geometry :=
  { xres_virtual := 800, yres_virtual := 480, line_length := 3200, bytespp := 4 }

/-- A simulated pattern on a simulated clock: every loop costs `c`
nanoseconds, and the pixel count is the one every pattern reports. -/
def constant_cost (c : Nat) (g : Geometry) (loops : Nat) (w : Unit) : Measurement × Unit :=
  ({ usecs := c * loops, pixels := pixels_out g loops }, w)

/-! ## `rect.c`: random rectangles -/

/-- Conversion of an `int` to `short`; a value out of range wraps modulo `2 ^ 16`. -/
def to_short (z : ℤ) : ℤ := (z + 2 ^ 15) % 2 ^ 16 - 2 ^ 15

/-- The operator `%` on `int`: the remainder has the sign of the dividend, and a
zero divisor is undefined. -/
def c_mod (a b : ℤ) : Option ℤ := if b = 0 then none else some (Int.tmod a b)

/-- The macro `MIN(x,y)`: `((x) < (y)) ? (x) : (y)`. -/
def MIN (x y : ℤ) : ℤ := if x < y then x else y

/-- The type `struct rect`; the four fields are `short`. -/
structure rect where
  x : ℤ
  y : ℤ
  w : ℤ
  h : ℤ

/-- The function `get_rand_rect` of `rect.c`.  The outcomes of the calls of
`rand()` are `rand 0, rand 1, ...`; `n` counts the calls made so far. -/
def get_rand_rect (rand : Nat → ℤ) (n : Nat) (max_x max_y min_w min_h max_w max_h : ℤ) :
    Option (rect × Nat) :=
  let max_width := to_short (MIN max_w max_x + 1)
  let max_height := to_short (MIN max_h max_y + 1)
  (if min_w = max_x then some ((0 : ℤ), n)
    else (c_mod (rand n) (max_x - min_w)).map fun v => (to_short v, n + 1)).bind fun xn =>
  (if min_h = max_y then some ((0 : ℤ), xn.2)
    else (c_mod (rand xn.2) (max_y - min_h)).map fun v => (to_short v, xn.2 + 1)).bind fun yn =>
  (c_mod (rand yn.2) (MIN max_width (1 + max_x - xn.1 - min_w))).bind fun dw =>
  (c_mod (rand (yn.2 + 1)) (MIN max_height (1 + max_y - yn.1 - min_h))).bind fun dh =>
  some ({ x := xn.1, y := yn.1, w := to_short (min_w + dw), h := to_short (min_h + dh) },
    yn.2 + 2)

/-! ## `main` of `perf.c` -/

/-- What the system answers to the setup calls of `main`. -/
structure Env where
  /-- the result of `open(str, O_RDWR)`, `-1` when the device cannot be opened -/
  fd : ℤ
  /-- the result of `ioctl(fd, FBIOGET_VSCREENINFO, &var)` on an open descriptor -/
  vscreeninfo : ℤ
  /-- the result of `ioctl(fd, FBIOGET_FSCREENINFO, &fix)` on an open descriptor -/
  fscreeninfo : ℤ
  /-- whether `mmap` returns `MAP_FAILED` -/
  map_failed : Bool
  /-- whether `fopen(argv[2], "a")` returns `NULL` -/
  logfile_null : Bool

/-- The steps of `main` that can be observed from outside the process. -/
inductive Event where
  | usage
  | open_device
  | get_vscreeninfo
  | get_fscreeninfo
  | map_surface
  | open_logfile
  | log_launch
  | run_pattern (name : String)
  | log_finish
  | close_all
deriving DecidableEq

/-- The call `ioctl(fd, ...)`: on a descriptor that is not open it fails with
`EBADF` and returns `-1`; otherwise the system answers. -/
def ioctl (fd answer : ℤ) : ℤ := if fd < 0 then -1 else answer

/-- The eight `RUN(...)` lines of `main`, in order. -/
def catalog : List String :=
  ["sequential_horiz_singlepixel_read", "sequential_horiz_singlepixel_write",
   "sequential_vert_singlepixel_read", "sequential_vert_singlepixel_write",
   "sequential_line_read", "sequential_line_write",
   "nonsequential_singlepixel_write", "nonsequential_singlepixel_read"]

/-- The function `main` of `perf.c` as far as setup goes: the value it returns
and the steps it takes, in order.  The result of `open` is stored in `fd` and
not examined. -/
def main (argc : Nat) (env : Env) : ℤ × List Event :=
  if argc ≠ 3 then (0, [Event.usage])
  else if ioctl env.fd env.vscreeninfo ≠ 0 then
    (-1, [Event.open_device, Event.get_vscreeninfo])
  else if ioctl env.fd env.fscreeninfo ≠ 0 then
    (-1, [Event.open_device, Event.get_vscreeninfo, Event.get_fscreeninfo])
  else if env.map_failed then
    (-1, [Event.open_device, Event.get_vscreeninfo, Event.get_fscreeninfo, Event.map_surface])
  else if env.logfile_null then
    (-1, [Event.open_device, Event.get_vscreeninfo, Event.get_fscreeninfo, Event.map_surface,
      Event.open_logfile])
  else
    (0, [Event.open_device, Event.get_vscreeninfo, Event.get_fscreeninfo, Event.map_surface,
      Event.open_logfile, Event.log_launch] ++ catalog.map Event.run_pattern ++
      [Event.log_finish, Event.close_all])

/-- A setup step failed: the device, a geometry query, the mapping or the log file. -/
def setup_fails (env : Env) : Prop :=
  env.fd < 0 ∨ env.vscreeninfo ≠ 0 ∨ env.fscreeninfo ≠ 0 ∨ env.map_failed = true ∨
    env.logfile_null = true

/-- The device node cannot be opened; every other step would succeed. -/
def device_missing : Env :=
  { fd := -1
    vscreeninfo := 0
    fscreeninfo := 0
    map_failed := false
    logfile_null := false }

/-- The values the logged accesses find on the surface `fb`, added up. -/
def read_sum (fb : Mem) (log : List Access) : Nat := (log.map fun a => load32 fb a.off).sum

/-- The surface is still `fb` and `sum` holds, modulo `2 ^ 32`, the values read
by the accesses logged so far. -/
def accumulates (fb : Mem) (s : State) : Prop :=
  s.mem = fb ∧ s.sum = u32 (read_sum fb s.log)

/-- The `double` sum. -/
def dadd (a b : Option ℚ) : Option ℚ := a.bind fun x => b.bind fun y => fl (x + y)

/-! ## Timing -/

/-- The type `struct timespec`; both fields are `long`. -/
structure timespec where
  tv_sec : ℤ
  tv_nsec : ℤ

/-- The value `stop_timing` returns, from the two timestamps `clock_gettime`
stored in `time_start` and `time_end`:
`(time_end.tv_nsec - time_start.tv_nsec) + (time_end.tv_sec - time_start.tv_sec) * 1e9`,
a `double` converted to `unsigned long long`.  The two differences are `long`
ones and do not overflow for timestamps of a monotonic clock. -/
def stop_timing (time_start time_end : timespec) : Option Nat :=
  (to_integer 0 (2 ^ 64 - 1)
    (dadd (of_int (time_end.tv_nsec - time_start.tv_nsec))
      (dmul (of_int (time_end.tv_sec - time_start.tv_sec)) (fl 1e9)))).map Int.toNat

/-- The nanoseconds from `s` to `e`. -/
def elapsed (s e : timespec) : ℤ :=
  (e.tv_sec - s.tv_sec) * 10 ^ 9 + (e.tv_nsec - s.tv_nsec)

/-- The 32-bit words of all pixels of the surface, added up. -/
def surface_sum (g : Geometry) (fb : Mem) : Nat :=
  Finset.sum (Finset.range g.yres_virtual) fun y =>
    Finset.sum (Finset.range g.xres_virtual) fun x => load32 fb (y * g.line_length + x * 4)

/-! ## Facts about machine arithmetic -/

theorem u32_of_lt {n : Nat} (h : n < 2 ^ 32) : u32 n = n := Nat.mod_eq_of_lt h

theorem u32_le (n : Nat) : u32 n ≤ n := Nat.mod_le _ _

theorem u32_lt (n : Nat) : u32 n < 2 ^ 32 := Nat.mod_lt _ (by norm_num)

/-! ## The tiled coordinate decomposition -/

theorem tile_coord_lt (a h n : Nat) (ha : 0 < a) (hh : 0 < h) : tile_coord a h n < a * h := by
  unfold tile_coord
  have h1 : n % a + 1 ≤ a := Nat.mod_lt _ ha
  have h2 : n / a % h < h := Nat.mod_lt _ hh
  have : (n % a + 1) * h ≤ a * h := Nat.mul_le_mul_right h h1
  nlinarith

theorem tile_coord_mod (a h n : Nat) : tile_coord a h (n % (a * h)) = tile_coord a h n := by
  unfold tile_coord
  rw [Nat.mod_mul_right_mod n a h, Nat.mod_mul_right_div_self]
  simp

theorem tile_counter_coord (a h n : Nat) (ha : 0 < a) (hh : 0 < h) (hn : n < a * h) :
    tile_counter a h (tile_coord a h n) = n := by
  unfold tile_counter tile_coord
  have h2 : n / a < h := by
    rw [Nat.div_lt_iff_lt_mul ha, Nat.mul_comm]; exact hn
  rw [Nat.mod_eq_of_lt h2]
  have e1 : (n % a * h + n / a) / h = n % a := by
    rw [Nat.mul_comm, Nat.mul_add_div hh, Nat.div_eq_of_lt h2]; simp
  have e2 : (n % a * h + n / a) % h = n / a := by
    rw [Nat.mul_comm, Nat.mul_add_mod, Nat.mod_eq_of_lt h2]
  rw [e1, e2]
  exact Nat.mod_add_div n a

theorem tile_coord_counter (a h c : Nat) (ha : 0 < a) (hh : 0 < h) (hc : c < a * h) :
    tile_counter a h c < a * h ∧ tile_coord a h (tile_counter a h c) = c := by
  unfold tile_counter tile_coord
  have h1 : c / h < a := by
    rw [Nat.div_lt_iff_lt_mul hh]; exact hc
  have h2 : c % h < h := Nat.mod_lt _ hh
  have e1 : (c / h + a * (c % h)) % a = c / h := by
    rw [Nat.add_mul_mod_self_left, Nat.mod_eq_of_lt h1]
  have e2 : (c / h + a * (c % h)) / a = c % h := by
    rw [Nat.add_mul_div_left _ _ ha, Nat.div_eq_of_lt h1]; simp
  refine ⟨?_, ?_⟩
  · have h3 : c % h + 1 ≤ h := h2
    have : a * (c % h + 1) ≤ a * h := Nat.mul_le_mul_left a h3
    nlinarith
  · rw [e1, e2, Nat.mod_eq_of_lt h2, Nat.mul_comm]
    exact Nat.div_add_mod c h

/-- When neither tile size is zero the body computes both coordinates without
wrap-around, whatever the counter. -/
theorem tile_xy_eq (yparts xparts W H i : Nat) (hW : W ≤ 2 ^ 32) (hH : H ≤ 2 ^ 32)
    (hy : 0 < H / yparts) (hx : 0 < W / xparts) :
    tile_xy yparts xparts W H i =
      some (tile_coord xparts (W / xparts) (i / H), tile_coord yparts (H / yparts) i) := by
  have hyp : 0 < yparts := by
    rcases Nat.eq_zero_or_pos yparts with h | h
    · rw [h, Nat.div_zero] at hy; exact absurd hy (lt_irrefl _)
    · exact h
  have hxp : 0 < xparts := by
    rcases Nat.eq_zero_or_pos xparts with h | h
    · rw [h, Nat.div_zero] at hx; exact absurd hx (lt_irrefl _)
    · exact h
  have by1 : tile_coord yparts (H / yparts) i < 2 ^ 32 :=
    lt_of_lt_of_le (tile_coord_lt _ _ i hyp hy) (le_trans (Nat.mul_div_le H yparts) hH)
  have bx1 : tile_coord xparts (W / xparts) (i / H) < 2 ^ 32 :=
    lt_of_lt_of_le (tile_coord_lt _ _ _ hxp hx) (le_trans (Nat.mul_div_le W xparts) hW)
  have by0 : i % yparts * (H / yparts) < 2 ^ 32 :=
    lt_of_le_of_lt (Nat.le_add_right _ _) by1
  have bx0 : i / H % xparts * (W / xparts) < 2 ^ 32 :=
    lt_of_le_of_lt (Nat.le_add_right _ _) bx1
  unfold tile_xy
  rw [if_neg (by omega)]
  simp only [u32_of_lt by0, u32_of_lt bx0]
  unfold tile_coord at by1 bx1 ⊢
  rw [u32_of_lt by1, u32_of_lt bx1]

/-- The decomposition is a bijection for every tile grid that divides the surface. -/
theorem tile_xy_bijection (yparts xparts W H : Nat) (hyp : 0 < yparts) (hxp : 0 < xparts)
    (hW : W ≤ 2 ^ 32) (hH : H ≤ 2 ^ 32) (hx : xparts ∣ W) (hy : yparts ∣ H) :
    visits_each_pixel_once (tile_xy yparts xparts W H) W H := by
  rcases Nat.eq_zero_or_pos W with hW0 | hWpos
  · subst hW0
    exact ⟨fun i hi => by simp at hi, fun x y hx0 _ => absurd hx0 (Nat.not_lt_zero _)⟩
  rcases Nat.eq_zero_or_pos H with hH0 | hHpos
  · subst hH0
    exact ⟨fun i hi => by simp at hi, fun x y _ hy0 => absurd hy0 (Nat.not_lt_zero _)⟩
  have eH : yparts * (H / yparts) = H := Nat.mul_div_cancel' hy
  have eW : xparts * (W / xparts) = W := Nat.mul_div_cancel' hx
  have hh : 0 < H / yparts := Nat.div_pos (Nat.le_of_dvd hHpos hy) hyp
  have hw : 0 < W / xparts := Nat.div_pos (Nat.le_of_dvd hWpos hx) hxp
  have key := fun i => tile_xy_eq yparts xparts W H i hW hH hh hw
  have cy : ∀ n, tile_coord yparts (H / yparts) n < H := fun n => by
    have := tile_coord_lt yparts (H / yparts) n hyp hh
    rwa [eH] at this
  have cx : ∀ n, tile_coord xparts (W / xparts) n < W := fun n => by
    have := tile_coord_lt xparts (W / xparts) n hxp hw
    rwa [eW] at this
  have cymod : ∀ n, tile_coord yparts (H / yparts) (n % H) = tile_coord yparts (H / yparts) n :=
    fun n => by
      have := tile_coord_mod yparts (H / yparts) n
      rwa [eH] at this
  refine ⟨fun i _ => ⟨_, _, key i, cx _, cy _⟩, fun x y hxW hyH => ?_⟩
  obtain ⟨qlt, qeq⟩ := tile_coord_counter xparts (W / xparts) x hxp hw (by rwa [eW])
  obtain ⟨rlt, req⟩ := tile_coord_counter yparts (H / yparts) y hyp hh (by rwa [eH])
  rw [eW] at qlt
  rw [eH] at rlt
  set q := tile_counter xparts (W / xparts) x with hq
  set r := tile_counter yparts (H / yparts) y with hr
  have hdiv : (q * H + r) / H = q := by
    rw [Nat.add_comm, Nat.add_mul_div_right _ _ hHpos, Nat.div_eq_of_lt rlt, Nat.zero_add]
  have hmod : (q * H + r) % H = r := by
    rw [Nat.add_comm, Nat.add_mul_mod_self_right, Nat.mod_eq_of_lt rlt]
  refine ⟨q * H + r, ⟨?_, ?_⟩, ?_⟩
  · have : (q + 1) * H ≤ W * H := Nat.mul_le_mul_right H qlt
    nlinarith
  · rw [key, hdiv, qeq, ← cymod, hmod, req]
  · rintro j ⟨_, hj⟩
    rw [key] at hj
    simp only [Option.some.injEq, Prod.mk.injEq] at hj
    obtain ⟨hjx, hjy⟩ := hj
    have hjq : j / H < W := by
      rw [Nat.div_lt_iff_lt_mul hHpos]; assumption
    have e1 : j / H = q := by
      rw [hq, ← hjx]
      exact (tile_counter_coord xparts (W / xparts) (j / H) hxp hw (by rwa [eW])).symm
    have e2 : j % H = r := by
      rw [hr, ← hjy, ← cymod]
      exact (tile_counter_coord yparts (H / yparts) (j % H) hyp hh
        (by rw [eH]; exact Nat.mod_lt _ hHpos)).symm
    rw [← e1, ← e2, Nat.mul_comm]
    exact (Nat.div_add_mod j H).symm

/-! ## Facts about binary64 rounding -/

theorem rne_intCast (n : ℤ) : rne (n : ℚ) = n := by
  unfold rne
  simp

theorem le_rne (x : ℚ) (n : ℤ) (h : (n : ℚ) ≤ x) : n ≤ rne x := by
  have hf : n ≤ ⌊x⌋ := Int.le_floor.mpr h
  unfold rne
  split_ifs
  · exact hf
  · omega
  · have : 0 ≤ ⌊x⌋ % 2 := Int.emod_nonneg _ (by norm_num)
    omega

theorem rne_le (x : ℚ) (n : ℤ) (h : x ≤ (n : ℚ)) : rne x ≤ n := by
  have hfl : (⌊x⌋ : ℚ) + Int.fract x = x := Int.floor_add_fract x
  have hf0 : 0 ≤ Int.fract x := Int.fract_nonneg x
  unfold rne
  split_ifs with h1 h2
  · exact_mod_cast le_trans (Int.floor_le x) h
  · have : (⌊x⌋ : ℚ) < n := by linarith
    have : ⌊x⌋ < n := by exact_mod_cast this
    omega
  · have hhalf : 2 * Int.fract x = 1 := le_antisymm (not_lt.mp h2) (not_lt.mp h1)
    have : (⌊x⌋ : ℚ) < n := by linarith
    have : ⌊x⌋ < n := by exact_mod_cast this
    have : ⌊x⌋ % 2 < 2 := Int.emod_lt_of_pos _ (by norm_num)
    omega

theorem rne_err (x : ℚ) : |(rne x : ℚ) - x| ≤ 1 / 2 := by
  have hfl : (⌊x⌋ : ℚ) + Int.fract x = x := Int.floor_add_fract x
  have hf0 : 0 ≤ Int.fract x := Int.fract_nonneg x
  have hf1 : Int.fract x < 1 := Int.fract_lt_one x
  unfold rne
  rw [abs_le]
  split_ifs with h1 h2
  · constructor <;> linarith
  · push_cast; constructor <;> linarith
  · have hhalf : 2 * Int.fract x = 1 := le_antisymm (not_lt.mp h2) (not_lt.mp h1)
    have a0 : 0 ≤ ⌊x⌋ % 2 := Int.emod_nonneg _ (by norm_num)
    have a1 : ⌊x⌋ % 2 < 2 := Int.emod_lt_of_pos _ (by norm_num)
    have a2 : ⌊x⌋ % 2 ≤ 1 := by omega
    have b0 : (0 : ℚ) ≤ ((⌊x⌋ % 2 : ℤ) : ℚ) := by exact_mod_cast a0
    have b1 : ((⌊x⌋ % 2 : ℤ) : ℚ) ≤ 1 := by exact_mod_cast a2
    push_cast at b0 b1 ⊢
    constructor <;> linarith

theorem ulp_exp_spec (x : ℚ) (h : (2 : ℚ) ^ (-1022 : ℤ) ≤ |x|) :
    (2 : ℚ) ^ ulp_exp x * 2 ^ 52 ≤ |x| ∧ |x| < (2 : ℚ) ^ ulp_exp x * 2 ^ 53 := by
  have hpos : 0 < |x| := lt_of_lt_of_le (by positivity) h
  have hL : (-1022 : ℤ) ≤ Int.log 2 |x| := by
    have := (Int.zpow_le_iff_le_log (b := 2) (by norm_num) (x := -1022) hpos).mp
      (by exact_mod_cast h)
    exact this
  have e : ulp_exp x = Int.log 2 |x| - 52 := by
    unfold ulp_exp; rw [max_eq_left hL]
  have lo : ((2 : ℕ) : ℚ) ^ Int.log 2 |x| ≤ |x| := Int.zpow_log_le_self (by norm_num) hpos
  have hi : |x| < ((2 : ℕ) : ℚ) ^ (Int.log 2 |x| + 1) := Int.lt_zpow_succ_log_self (by norm_num) _
  have two : (2 : ℚ) ≠ 0 := by norm_num
  rw [e]
  constructor
  · have : (2 : ℚ) ^ (Int.log 2 |x| - 52) * 2 ^ 52 = (2 : ℚ) ^ Int.log 2 |x| := by
      rw [← zpow_natCast, ← zpow_add₀ two]; congr 1; simp
    rw [this]; exact_mod_cast lo
  · have : (2 : ℚ) ^ (Int.log 2 |x| - 52) * 2 ^ 53 = (2 : ℚ) ^ (Int.log 2 |x| + 1) := by
      rw [← zpow_natCast, ← zpow_add₀ two]; congr 1; push_cast; ring
    rw [this]; exact_mod_cast hi

theorem ulp_exp_nonpos (x : ℚ) (h : (2 : ℚ) ^ (-1022 : ℤ) ≤ |x|) (hx : |x| < 2 ^ 53) :
    ulp_exp x ≤ 0 := by
  by_contra hc
  push_neg at hc
  have h1 := (ulp_exp_spec x h).1
  have h4 : (2 : ℚ) ^ (1 : ℤ) ≤ (2 : ℚ) ^ ulp_exp x :=
    zpow_le_zpow_right₀ (by norm_num) (by omega)
  rw [zpow_one] at h4
  generalize (2 : ℚ) ^ ulp_exp x = u at h1 h4
  norm_num at h1 hx
  linarith

/-- The rounding error is at most half a unit in the last place. -/
theorem fl_err (x : ℚ) (h : (2 : ℚ) ^ (-1022 : ℤ) ≤ |x|) (hx : |x| < 2 ^ 1023) :
    ∃ y, fl x = some y ∧ |y - x| * 2 ^ 53 ≤ |x| := by
  obtain ⟨h1, -⟩ := ulp_exp_spec x h
  have hu : (0 : ℚ) < 2 ^ ulp_exp x := by positivity
  have herr := rne_err (x / 2 ^ ulp_exp x)
  have key : |(rne (x / 2 ^ ulp_exp x) : ℚ) * 2 ^ ulp_exp x - x| * 2 ^ 53 ≤ |x| := by
    have e : (rne (x / 2 ^ ulp_exp x) : ℚ) * 2 ^ ulp_exp x - x =
        ((rne (x / 2 ^ ulp_exp x) : ℚ) - x / 2 ^ ulp_exp x) * 2 ^ ulp_exp x := by
      field_simp
    rw [e, abs_mul, abs_of_pos hu]
    have : |(rne (x / 2 ^ ulp_exp x) : ℚ) - x / 2 ^ ulp_exp x| * 2 ^ ulp_exp x
        ≤ 1 / 2 * 2 ^ ulp_exp x := mul_le_mul_of_nonneg_right herr hu.le
    generalize (2 : ℚ) ^ ulp_exp x = u at h1 this
    generalize |(rne (x / u) : ℚ) - x / u| * u = d at this
    norm_num at h1 ⊢
    linarith
  refine ⟨_, ?_, key⟩
  unfold fl
  rw [if_pos]
  have t := abs_sub_abs_le_abs_sub ((rne (x / 2 ^ ulp_exp x) : ℚ) * 2 ^ ulp_exp x) x
  have hx0 : 0 ≤ |x| := abs_nonneg x
  have p1 : (2 : ℚ) ^ 1024 = 2 * 2 ^ 1023 := by norm_num
  have p2 : (0 : ℚ) < 2 ^ 53 := by positivity
  have : |(rne (x / 2 ^ ulp_exp x) : ℚ) * 2 ^ ulp_exp x - x| ≤ |x| := by
    by_contra hc
    push_neg at hc
    have := mul_lt_mul_of_pos_right hc p2
    have : |x| * 1 ≤ |x| * 2 ^ 53 := mul_le_mul_of_nonneg_left (by norm_num) hx0
    linarith
  rw [p1]
  linarith

/-- A value that is a whole number of units in its last place is not changed. -/
theorem fl_exact (x : ℚ) (m : ℤ) (hm : x = (m : ℚ) * 2 ^ ulp_exp x) (hx : |x| < 2 ^ 1024) :
    fl x = some x := by
  have hu : (2 : ℚ) ^ ulp_exp x ≠ 0 := by positivity
  have e : x / 2 ^ ulp_exp x = (m : ℚ) := by
    rw [div_eq_iff hu]; exact hm
  unfold fl
  rw [e, rne_intCast, ← hm, if_pos hx]

/-- Integers of magnitude below `2 ^ 53` are binary64 values. -/
theorem fl_intCast (n : ℤ) (hn : |(n : ℚ)| < 2 ^ 53) : fl (n : ℚ) = some (n : ℚ) := by
  rcases eq_or_ne n 0 with h0 | h0
  · subst h0
    apply fl_exact _ 0 <;> simp
  have h1 : (1 : ℚ) ≤ |(n : ℚ)| := by
    have : (1 : ℤ) ≤ |n| := Int.one_le_abs h0
    exact_mod_cast this
  have hlow : (2 : ℚ) ^ (-1022 : ℤ) ≤ |(n : ℚ)| :=
    le_trans (zpow_le_one_of_nonpos₀ (by norm_num) (by norm_num)) h1
  have he := ulp_exp_nonpos _ hlow hn
  obtain ⟨k, hk⟩ := Int.exists_eq_neg_ofNat he
  refine fl_exact _ (n * 2 ^ k) ?_ (lt_trans hn (by norm_num))
  rw [hk]
  push_cast
  rw [zpow_neg, zpow_natCast, mul_assoc, mul_inv_cancel₀ (by positivity), mul_one]

theorem fl_value (x y : ℚ) (h : fl x = some y) :
    y = (rne (x / 2 ^ ulp_exp x) : ℚ) * 2 ^ ulp_exp x := by
  unfold fl at h
  split_ifs at h
  exact (Option.some.inj h).symm

/-- Rounding does not cross an integer that the exact value stays clear of. -/
theorem fl_floor (x : ℚ) (k : ℤ) (hlow : (2 : ℚ) ^ (-1022 : ℤ) ≤ x) (hx : x < 2 ^ 53)
    (hk : (k : ℚ) ≤ x) (hgap : x < ((k : ℚ) + 1 - x) * 2 ^ 53) :
    ∃ y, fl x = some y ∧ (k : ℚ) ≤ y ∧ y < (k : ℚ) + 1 := by
  have hpos : 0 < x := lt_of_lt_of_le (by positivity) hlow
  have habs : |x| = x := abs_of_pos hpos
  obtain ⟨y, hy, herr⟩ := fl_err x (by rwa [habs]) (by rw [habs]; exact lt_trans hx (by norm_num))
  refine ⟨y, hy, ?_, ?_⟩
  · have he := ulp_exp_nonpos x (by rwa [habs]) (by rwa [habs])
    obtain ⟨j, hj⟩ := Int.exists_eq_neg_ofNat he
    have hyv := fl_value x y hy
    have hu : (0 : ℚ) < 2 ^ ulp_exp x := by positivity
    have hinv : (2 : ℚ) ^ ulp_exp x * 2 ^ j = 1 := by
      rw [hj, zpow_neg, zpow_natCast, inv_mul_cancel₀ (by positivity)]
    have hle : ((k * 2 ^ j : ℤ) : ℚ) ≤ x / 2 ^ ulp_exp x := by
      rw [le_div_iff₀ hu]; push_cast
      rw [mul_assoc, mul_comm ((2 : ℚ) ^ j), hinv, mul_one]; exact hk
    have := le_rne _ _ hle
    have h2 : ((k * 2 ^ j : ℤ) : ℚ) ≤ (rne (x / 2 ^ ulp_exp x) : ℚ) := by exact_mod_cast this
    have h3 := mul_le_mul_of_nonneg_right h2 hu.le
    rw [← hyv] at h3
    push_cast at h3
    rw [mul_assoc, mul_comm ((2 : ℚ) ^ j), hinv, mul_one] at h3
    exact h3
  · rw [habs] at herr
    have h1 : |y - x| * 2 ^ 53 < ((k : ℚ) + 1 - x) * 2 ^ 53 := lt_of_le_of_lt herr hgap
    have h2 : |y - x| < (k : ℚ) + 1 - x := lt_of_mul_lt_mul_right h1 (by positivity)
    have := le_abs_self (y - x)
    linarith

theorem fl_natCast (n : ℕ) (hn : n < 2 ^ 53) : fl (n : ℚ) = some (n : ℚ) := by
  have h := fl_intCast (n : ℤ) (by
    rw [Int.cast_natCast, abs_of_nonneg (Nat.cast_nonneg n)]; exact_mod_cast hn)
  rwa [Int.cast_natCast] at h

theorem tiny_le (q : ℚ) (h : (1 : ℚ) / 2 ^ 70 ≤ q) : (2 : ℚ) ^ (-1022 : ℤ) ≤ q := by
  refine le_trans ?_ h
  rw [one_div, ← zpow_natCast, ← zpow_neg]
  exact zpow_le_zpow_right₀ (by norm_num) (by norm_num)

/-- The binary64 quotient of a natural number below `2 ^ 52` by an
`unsigned long long` has the integer part of the exact quotient. -/
theorem fl_div_floor (N T : ℕ) (hN1 : 1 ≤ N) (hN : N < 2 ^ 52) (hT1 : 1 ≤ T) (hT : T < 2 ^ 64) :
    ∃ t y, fl (T : ℚ) = some t ∧ t ≠ 0 ∧ fl ((N : ℚ) / t) = some y ∧
      ((N / T : ℕ) : ℚ) ≤ y ∧ y < ((N / T : ℕ) : ℚ) + 1 := by
  have hNq : (1 : ℚ) ≤ N := by exact_mod_cast hN1
  have hNq2 : (N : ℚ) < 2 ^ 52 := by exact_mod_cast hN
  have hTq : (1 : ℚ) ≤ T := by exact_mod_cast hT1
  have hTq2 : (T : ℚ) < 2 ^ 64 := by exact_mod_cast hT
  rcases lt_or_le T (2 ^ 53) with hs | hb
  · have hTpos : (0 : ℚ) < T := by linarith
    have hsq : (T : ℚ) < 2 ^ 53 := by exact_mod_cast hs
    have hlt : N < (N / T + 1) * T := by
      rw [Nat.mul_comm]; exact Nat.lt_mul_div_succ N (by omega)
    have hltq : (N : ℚ) + 1 ≤ ((N / T : ℕ) + 1) * T := by exact_mod_cast hlt
    have hq1 : (N : ℚ) / T ≤ N := div_le_self (by linarith) hTq
    have hq0 : (N : ℚ) / 2 ^ 53 ≤ (N : ℚ) / T :=
      div_le_div_of_nonneg_left (by linarith) hTpos hsq.le
    obtain ⟨y, hy, h1, h2⟩ := fl_floor ((N : ℚ) / T) ((N / T : ℕ) : ℤ)
      (tiny_le _ (le_trans (by rw [div_le_div_iff₀ (by positivity) (by positivity)]; nlinarith) hq0))
      (by linarith [show (2 : ℚ) ^ 52 < 2 ^ 53 by norm_num])
      (by rw [Int.cast_natCast]; exact Nat.cast_div_le)
      (by
        rw [Int.cast_natCast]
        have e : ((N / T : ℕ) : ℚ) + 1 - N / T = (((N / T : ℕ) + 1) * T - N) / T := by
          field_simp
        rw [e, div_mul_eq_mul_div, div_lt_div_iff_of_pos_right hTpos]
        have : (1 : ℚ) ≤ ((N / T : ℕ) + 1) * T - N := by linarith
        nlinarith)
    rw [Int.cast_natCast] at h1 h2
    exact ⟨T, y, fl_natCast T hs, by positivity, hy, h1, h2⟩
  · have hbq : (2 : ℚ) ^ 53 ≤ T := by exact_mod_cast hb
    have hTabs : |(T : ℚ)| = T := abs_of_nonneg (by linarith)
    obtain ⟨t, ht, herr⟩ := fl_err (T : ℚ) (tiny_le _ (by rw [hTabs]; linarith [show (1:ℚ) / 2 ^ 70 ≤ 1 by norm_num]))
      (by rw [hTabs]; linarith [show (2 : ℚ) ^ 64 < 2 ^ 1023 by norm_num])
    rw [hTabs] at herr
    have hd : |t - (T : ℚ)| ≤ 2 ^ 11 := by
      by_contra hc
      push_neg at hc
      have := mul_lt_mul_of_pos_right hc (show (0 : ℚ) < 2 ^ 53 by positivity)
      rw [show (2 : ℚ) ^ 11 * 2 ^ 53 = 2 ^ 64 by norm_num] at this
      linarith
    obtain ⟨hd1, hd2⟩ := abs_le.mp hd
    have ht52 : (2 : ℚ) ^ 53 - 2 ^ 11 ≤ t := by linarith
    have ht65 : t ≤ 2 ^ 65 := by linarith [show (2 : ℚ) ^ 64 + 2 ^ 11 ≤ 2 ^ 65 by norm_num]
    have htpos : 0 < t := by linarith [show (0 : ℚ) < 2 ^ 53 - 2 ^ 11 by norm_num]
    have hk : N / T = 0 := Nat.div_eq_of_lt (by
      have : 2 ^ 52 < 2 ^ 53 := by norm_num
      omega)
    have hxhalf : (N : ℚ) / t ≤ 2 ^ 52 / (2 ^ 53 - 2 ^ 11) :=
      div_le_div₀ (by positivity) hNq2.le (by norm_num) ht52
    have hxlow : (1 : ℚ) / 2 ^ 65 ≤ (N : ℚ) / t :=
      div_le_div₀ (by linarith) hNq htpos ht65
    obtain ⟨y, hy, h1, h2⟩ := fl_floor ((N : ℚ) / t) 0
      (tiny_le _ (le_trans (by norm_num) hxlow))
      (lt_of_le_of_lt hxhalf (by norm_num))
      (by simp only [Int.cast_zero]; positivity)
      (by
        have : (2 : ℚ) ^ 52 / (2 ^ 53 - 2 ^ 11) ≤ 3 / 4 := by norm_num
        simp only [Int.cast_zero, zero_add]
        have h53 : (4 : ℚ) ≤ 2 ^ 53 := by norm_num
        nlinarith)
    rw [hk]
    simp only [Int.cast_zero, zero_add, Nat.cast_zero] at h1 h2 ⊢
    exact ⟨t, y, ht, ne_of_gt htpos, hy, h1, h2⟩

theorem trunc_of_floor (y : ℚ) (k : ℕ) (h1 : (k : ℚ) ≤ y) (h2 : y < (k : ℚ) + 1) :
    trunc y = (k : ℤ) := by
  have h0 : (0 : ℚ) ≤ y := le_trans (Nat.cast_nonneg k) h1
  unfold trunc
  rw [if_pos h0, Int.floor_eq_iff]
  exact ⟨by simpa using h1, by simpa using h2⟩

theorem of_int_runtime_secs : of_int runtime_secs = some 5 := by
  have := fl_natCast 5 (by norm_num)
  simpa [of_int, runtime_secs] using this

theorem of_int_calib_loops : of_int calib_loops = some 5 := by
  have := fl_natCast 5 (by norm_num)
  simpa [of_int, calib_loops] using this

theorem fl_1e9 : fl 1e9 = some 1000000000 := by
  have := fl_natCast 1000000000 (by norm_num)
  rw [show (1e9 : ℚ) = ((1000000000 : ℕ) : ℚ) by norm_num]
  simpa using this

theorem fl_5e9 : fl ((5 : ℚ) * 1000000000) = some 5000000000 := by
  have := fl_natCast 5000000000 (by norm_num)
  rw [show (5 : ℚ) * 1000000000 = ((5000000000 : ℕ) : ℚ) by norm_num]
  simpa using this

theorem fl_25e9 : fl ((5000000000 : ℚ) * 5) = some 25000000000 := by
  have := fl_natCast 25000000000 (by norm_num)
  rw [show (5000000000 : ℚ) * 5 = ((25000000000 : ℕ) : ℚ) by norm_num]
  simpa using this

theorem dmul_some (x y : ℚ) : dmul (some x) (some y) = fl (x * y) := rfl

theorem ddiv_some (x y : ℚ) : ddiv (some x) (some y) = if y = 0 then none else fl (x / y) := rfl

/-- The dividend `runtime_secs * 1e9 * calib_loops` is exactly `25000000000`. -/
theorem dividend_eq :
    dmul (dmul (of_int runtime_secs) (fl 1e9)) (of_int calib_loops) = some 25000000000 := by
  rw [of_int_runtime_secs, fl_1e9, of_int_calib_loops, dmul_some, fl_5e9, dmul_some, fl_25e9]

theorem calibrated_loops_zero : calibrated_loops 0 = none := by
  have z : of_int ((0 : ℕ) : ℤ) = some 0 := by
    have := fl_natCast 0 (by norm_num)
    simpa [of_int] using this
  unfold calibrated_loops
  rw [dividend_eq, z]
  simp [ddiv, to_integer]

theorem calibrated_loops_eq (T : ℕ) (hT1 : 1 ≤ T) (hT : T < 2 ^ 64) :
    calibrated_loops T = if 12 ≤ T then some ((25000000000 / T : ℕ) : ℤ) else none := by
  obtain ⟨t, y, ht, ht0, hy, h1, h2⟩ :=
    fl_div_floor 25000000000 T (by norm_num) (by norm_num) hT1 hT
  have hT' : of_int (T : ℤ) = some t := by simpa [of_int] using ht
  have htr := trunc_of_floor y _ h1 h2
  unfold calibrated_loops
  rw [dividend_eq, hT']
  simp only [ddiv, to_integer, Option.some_bind, if_neg ht0]
  have hy' : fl ((25000000000 : ℚ) / t) = some y := by simpa using hy
  rw [hy', Option.some_bind, htr]
  have hdiv : 25000000000 / T < 2 ^ 31 ↔ 12 ≤ T := by
    rw [Nat.div_lt_iff_lt_mul (by omega)]
    omega
  generalize 25000000000 / T = k at hdiv
  by_cases h12 : 12 ≤ T
  · have := hdiv.mpr h12
    rw [if_pos h12, if_pos]
    constructor <;> omega
  · have := mt hdiv.mp h12
    rw [if_neg h12, if_neg]
    rintro ⟨-, h⟩
    omega


/-! ## Loops, words and painted surfaces -/

theorem for_lt_ind {σ : Type} (P : Nat → σ → Prop) (n : Nat) (body : Nat → σ → σ) (s : σ)
    (h0 : P 0 s) (hstep : ∀ i, i < n → ∀ t, P i t → P (i + 1) (body i t)) :
    P n (for_lt n body s) := by
  induction n with
  | zero => exact h0
  | succ k ih =>
    exact hstep k (Nat.lt_succ_self k) _ (ih (fun i hi t ht => hstep i (Nat.lt_succ_of_lt hi) t ht))

theorem while_dec_inv {σ : Type} (P : σ → Prop) (l : Nat) (body : Nat → σ → σ) (s : σ)
    (h0 : P s) (hstep : ∀ k t, k < l → P t → P (body k t)) : P (while_dec l body s) := by
  induction l generalizing s with
  | zero => exact h0
  | succ k ih =>
    exact ih (body k s) (hstep k s (Nat.lt_succ_self k) h0)
      (fun j t hj ht => hstep j t (Nat.lt_succ_of_lt hj) ht)

theorem while_dec_last {σ : Type} (l : Nat) (body : Nat → σ → σ) (s : σ) :
    while_dec (l + 1) body s = body 0 (while_dec l (fun k => body (k + 1)) s) := by
  induction l generalizing s with
  | zero => rfl
  | succ k ih =>
    show while_dec (k + 1) body (body (k + 1) s) = _
    rw [ih]
    rfl

theorem store32_apply (m : Mem) (a v b : Nat) :
    store32 m a v b = if a ≤ b ∧ b < a + 4 then byte_of v (b - a) else m b := by
  unfold store32 byte_of
  by_cases h0 : b = a
  · subst h0; simp
  by_cases h1 : b = a + 1
  · subst h1; simp
  by_cases h2 : b = a + 2
  · subst h2; simp
  by_cases h3 : b = a + 3
  · subst h3; simp
  rw [if_neg h0, if_neg h1, if_neg h2, if_neg h3, if_neg (by omega)]

theorem load32_of_bytes (m : Mem) (a v : Nat)
    (h : ∀ i, i < 4 → m (a + i) = byte_of v i) : load32 m a = v % 2 ^ 32 := by
  have h0 := h 0 (by norm_num)
  have h1 := h 1 (by norm_num)
  have h2 := h 2 (by norm_num)
  have h3 := h 3 (by norm_num)
  unfold byte_of at h0 h1 h2 h3
  simp only [Nat.add_zero, pow_zero, Nat.div_one, pow_one] at h0 h1 h2 h3
  norm_num at h2 h3
  unfold load32
  rw [h0, h1, h2, h3]
  omega

theorem painted_mono {addr v : Nat → Nat → Nat} {R C C' : Nat → Nat → Prop} {m0 m : Mem}
    (h : painted addr v R C m0 m) (hC : ∀ x y, C' x y → C x y) : painted addr v R C' m0 m :=
  ⟨fun x y hxy => h.1 x y (hC x y hxy), h.2⟩

theorem painted_init (addr v : Nat → Nat → Nat) (R C : Nat → Nat → Prop) (m : Mem)
    (hC : ∀ x y, ¬ C x y) : painted addr v R C m m :=
  ⟨fun x y hxy => absurd hxy (hC x y), fun _ _ => rfl⟩

/-- One more word stored: the pixel joins the painted ones. -/
theorem painted_store {addr v : Nat → Nat → Nat} {R C : Nat → Nat → Prop} {m0 m : Mem}
    (h : painted addr v R C m0 m) (hCR : ∀ x y, C x y → R x y) (hd : disjoint_words addr R)
    (x0 y0 : Nat) (hR : R x0 y0) :
    painted addr v R (fun x y => C x y ∨ (x = x0 ∧ y = y0)) m0
      (store32 m (addr x0 y0) (v x0 y0)) := by
  constructor
  · intro x y hxy i hi
    rw [store32_apply]
    by_cases hin : addr x0 y0 ≤ addr x y + i ∧ addr x y + i < addr x0 y0 + 4
    · rw [if_pos hin]
      have hRxy : R x y := by
        rcases hxy with hc | ⟨rfl, rfl⟩
        · exact hCR x y hc
        · exact hR
      obtain ⟨rfl, rfl, hi'⟩ := hd x y x0 y0 i (addr x y + i - addr x0 y0) hRxy hR hi
        (by omega) (by omega)
      rw [← hi']
    · rw [if_neg hin]
      rcases hxy with hc | ⟨rfl, rfl⟩
      · exact h.1 x y hc i hi
      · exact absurd ⟨Nat.le_add_right _ _, by omega⟩ hin
  · intro a ha
    rw [store32_apply, if_neg, h.2 a ha]
    rintro ⟨h1, h2⟩
    exact ha x0 y0 hR (a - addr x0 y0) (by omega) (by omega)

/-- Two surfaces painted with the same values over the same pixels from the
same start are the same surface. -/
theorem painted_unique {addr v : Nat → Nat → Nat} {R : Nat → Nat → Prop} {m0 m m' : Mem}
    (h : painted addr v R R m0 m) (h' : painted addr v R R m0 m') : m' = m := by
  funext a
  by_cases hin : ∃ x y i, R x y ∧ i < 4 ∧ a = addr x y + i
  · obtain ⟨x, y, i, hR, hi, rfl⟩ := hin
    rw [h.1 x y hR i hi, h'.1 x y hR i hi]
  · have : ∀ x y, R x y → ∀ i, i < 4 → a ≠ addr x y + i :=
      fun x y hR i hi he => hin ⟨x, y, i, hR, hi, he⟩
    rw [h.2 a this, h'.2 a this]

/-- Painting over a painted surface: only the last values show. -/
theorem painted_trans {addr v' : Nat → Nat → Nat} {R C : Nat → Nat → Prop} {m0 m m' : Mem}
    (hframe : ∀ a, (∀ x y, R x y → ∀ i, i < 4 → a ≠ addr x y + i) → m a = m0 a)
    (h' : painted addr v' R C m m') : painted addr v' R C m0 m' :=
  ⟨h'.1, fun a ha => by rw [h'.2 a ha, hframe a ha]⟩

/-! ## The pixel count -/

theorem pixels_out_eq (g : Geometry) (loops : Nat) :
    pixels_out g loops = (g.xres_virtual * g.yres_virtual * loops) % 2 ^ 32 := by
  unfold pixels_out u32
  exact Nat.mod_mul_mod

/-- C1: the count each of the eight patterns stores through `pixels` is
`xres * yres * loops` reduced modulo `2 ^ 32`, because the product is an
`unsigned` one; for 800 x 480 and 12500 loops `sequential_horiz_singlepixel_read`
reports 505032704, which is not `800 * 480 * 12500 = 4800000000`. -/
theorem pixels_wrap_at_scenario :
    (∀ g loops fb lb,
      (sequential_horiz_singlepixel_read g loops fb lb).pixels =
        (g.xres_virtual * g.yres_virtual * loops) % 2 ^ 32 ∧
      (sequential_horiz_singlepixel_write g loops fb lb).pixels =
        (g.xres_virtual * g.yres_virtual * loops) % 2 ^ 32 ∧
      (sequential_vert_singlepixel_read g loops fb lb).pixels =
        (g.xres_virtual * g.yres_virtual * loops) % 2 ^ 32 ∧
      (sequential_vert_singlepixel_write g loops fb lb).pixels =
        (g.xres_virtual * g.yres_virtual * loops) % 2 ^ 32 ∧
      (sequential_line_read g loops fb lb).pixels =
        (g.xres_virtual * g.yres_virtual * loops) % 2 ^ 32 ∧
      (sequential_line_write g loops fb lb).pixels =
        (g.xres_virtual * g.yres_virtual * loops) % 2 ^ 32 ∧
      (∀ r, nonsequential_singlepixel_write g loops fb lb = some r →
        r.pixels = (g.xres_virtual * g.yres_virtual * loops) % 2 ^ 32) ∧
      (∀ r, nonsequential_singlepixel_read g loops fb lb = some r →
        r.pixels = (g.xres_virtual * g.yres_virtual * loops) % 2 ^ 32)) ∧
    (∀ fb lb,
      (sequential_horiz_singlepixel_read scenario 12500 fb lb).pixels = 505032704) ∧
    (∀ fb lb,
      (sequential_horiz_singlepixel_read scenario 12500 fb lb).pixels
        ≠ 800 * 480 * 12500) := by
  refine ⟨fun g loops fb lb => ?_, fun _ _ => ?_, fun _ _ => ?_⟩
  · have h := pixels_out_eq g loops
    refine ⟨h, h, h, h, h, h, fun r hr => ?_, fun r hr => ?_⟩
    · simp only [nonsequential_singlepixel_write, Option.map_eq_some'] at hr
      obtain ⟨t, _, rfl⟩ := hr
      exact h
    · simp only [nonsequential_singlepixel_read, Option.map_eq_some'] at hr
      obtain ⟨t, _, rfl⟩ := hr
      exact h
  · show pixels_out scenario 12500 = 505032704
    rw [pixels_out_eq]
    decide
  · show pixels_out scenario 12500 ≠ 800 * 480 * 12500
    rw [pixels_out_eq]
    decide

/-! ## The tiled traversal -/

/-- C2: when the surface has fewer than `2 ^ 32` pixels and the tile grid of
`nonsequential_singlepixel_write` (4 x 4) or of `nonsequential_singlepixel_read`
(16 rows of tiles, 8 columns) divides it, the counter loop runs over
`0 .. width * height - 1` and the coordinates computed in its body visit every
pixel of the surface exactly once. -/
theorem tiled_bijection (yparts xparts width height : Nat)
    (hgrid : (yparts = 4 ∧ xparts = 4) ∨ (yparts = 16 ∧ xparts = 8))
    (hsize : width * height < 2 ^ 32) (hx : xparts ∣ width) (hy : yparts ∣ height) :
    u32 (height * width) = width * height ∧
      visits_each_pixel_once (tile_xy yparts xparts width height) width height := by
  have hyp : 0 < yparts := by rcases hgrid with ⟨h, _⟩ | ⟨h, _⟩ <;> omega
  have hxp : 0 < xparts := by rcases hgrid with ⟨_, h⟩ | ⟨_, h⟩ <;> omega
  refine ⟨by rw [Nat.mul_comm]; exact u32_of_lt hsize, ?_⟩
  rcases Nat.eq_zero_or_pos width with hW0 | hWpos
  · subst hW0
    exact ⟨fun i hi => by simp at hi, fun x y hx0 _ => absurd hx0 (Nat.not_lt_zero _)⟩
  rcases Nat.eq_zero_or_pos height with hH0 | hHpos
  · subst hH0
    exact ⟨fun i hi => by simp at hi, fun x y _ hy0 => absurd hy0 (Nat.not_lt_zero _)⟩
  have hW : width ≤ 2 ^ 32 :=
    le_trans (Nat.le_mul_of_pos_right width hHpos) hsize.le
  have hH : height ≤ 2 ^ 32 :=
    le_trans (Nat.le_mul_of_pos_left height hWpos) hsize.le
  exact tile_xy_bijection yparts xparts width height hyp hxp hW hH hx hy

/-- The grid of the read pattern on a surface of 8 x 16 pixels. -/
theorem tiled_bijection_witness :
    (8 : Nat) * 16 < 2 ^ 32 ∧ 8 ∣ 8 ∧ 16 ∣ 16 ∧ u32 (16 * 8) = 8 * 16 ∧
      visits_each_pixel_once (tile_xy 16 8 8 16) 8 16 :=
  ⟨by decide, by decide, by decide,
    tiled_bijection 16 8 8 16 (Or.inr ⟨rfl, rfl⟩) (by decide) (by decide) (by decide)⟩

/-! ## Calibration -/

/-- C3, as stated, fails: with a calibration time of 10 ns the quotient
`2500000000` does not fit `int`, so no loop count is defined and `run` has no
defined outcome. -/
theorem calibration_overflow_at_10ns :
    calibrated_loops 10 = none ∧ run (constant_cost 2 scenario) () = none := by
  have h : calibrated_loops 10 = none := by
    rw [calibrated_loops_eq 10 (by norm_num) (by norm_num)]
    rfl
  refine ⟨h, ?_⟩
  show (calibrated_loops (2 * 5)).bind _ = none
  rw [show (2 * 5 : Nat) = 10 from rfl, h]
  rfl

/-- C3, amended: when the calibration call returns a time `T_c` with
`12 <= T_c < 2 ^ 64`, the loop count is `25000000000 / T_c` truncated, the
production call is made with it on the state the calibration call left, and the
pixels and nanoseconds printed are those of the production call; a calibration
time of 2000000 ns gives 12500 loops. -/
theorem run_production_call {W : Type} (func : Nat → W → Measurement × W) (w : W)
    (hlo : 12 ≤ (func calib_loops w).1.usecs) (hhi : (func calib_loops w).1.usecs < 2 ^ 64) :
    calibrated_loops (func calib_loops w).1.usecs =
        some ((25000000000 / (func calib_loops w).1.usecs : Nat) : ℤ) ∧
      run func w =
        (throughput (func (25000000000 / (func calib_loops w).1.usecs)
            (func calib_loops w).2).1).map
          (fun pps =>
            ({ pixels := (func (25000000000 / (func calib_loops w).1.usecs)
                  (func calib_loops w).2).1.pixels,
               usecs := (func (25000000000 / (func calib_loops w).1.usecs)
                  (func calib_loops w).2).1.usecs,
               pix_per_sec := pps },
             (func (25000000000 / (func calib_loops w).1.usecs) (func calib_loops w).2).2)) ∧
      calibrated_loops 2000000 = some 12500 := by
  have h := calibrated_loops_eq _ (by omega) hhi
  rw [if_pos hlo] at h
  have hk : 25000000000 / (func calib_loops w).1.usecs < 2 ^ 32 := by
    rw [Nat.div_lt_iff_lt_mul (by omega)]
    omega
  refine ⟨h, ?_, ?_⟩
  · unfold run
    simp only [h, Option.some_bind]
    have e : int_to_unsigned ((25000000000 / (func calib_loops w).1.usecs : Nat) : ℤ)
        = 25000000000 / (func calib_loops w).1.usecs := by
      unfold int_to_unsigned
      generalize 25000000000 / (func calib_loops w).1.usecs = k at hk
      omega
    rw [e]
  · rw [calibrated_loops_eq 2000000 (by norm_num) (by norm_num)]
    rfl

/-- A pattern that costs 400000 ns per loop: the calibration call measures 2000000 ns. -/
theorem run_production_call_witness :
    12 ≤ (constant_cost 400000 scenario calib_loops ()).1.usecs ∧
      (constant_cost 400000 scenario calib_loops ()).1.usecs < 2 ^ 64 ∧
      calibrated_loops (constant_cost 400000 scenario calib_loops ()).1.usecs =
        some ((25000000000 / (constant_cost 400000 scenario calib_loops ()).1.usecs : Nat) : ℤ) :=
  ⟨by decide, by decide,
    (run_production_call (constant_cost 400000 scenario) () (by decide) (by decide)).1⟩

/-- C4, as stated, fails: a calibration time of 0 ns is neither clamped nor
rejected; the quotient has a zero divisor, its conversion to `int` is
undefined, and `run` has no defined outcome. -/
theorem calibration_undefined_at_zero :
    calibrated_loops 0 = none ∧ run (constant_cost 0 scenario) () = none := by
  refine ⟨calibrated_loops_zero, ?_⟩
  show (calibrated_loops (0 * 5)).bind _ = none
  rw [show (0 * 5 : Nat) = 0 from rfl, calibrated_loops_zero]
  rfl

/-- C4, amended: `run` neither clamps nor rejects a degenerate calibration
time; for every `T_c <= 11` the conversion of the quotient to `int` is
undefined, and so is the production call that `run` goes on to make. -/
theorem degenerate_calibration_undefined {W : Type} (func : Nat → W → Measurement × W) (w : W)
    (h : (func calib_loops w).1.usecs ≤ 11) :
    calibrated_loops (func calib_loops w).1.usecs = none ∧ run func w = none := by
  have hn : calibrated_loops (func calib_loops w).1.usecs = none := by
    rcases Nat.eq_zero_or_pos (func calib_loops w).1.usecs with h0 | hpos
    · rw [h0]; exact calibrated_loops_zero
    · rw [calibrated_loops_eq _ hpos (lt_of_le_of_lt h (by norm_num)), if_neg (by omega)]
  refine ⟨hn, ?_⟩
  unfold run
  simp only [hn, Option.none_bind]

/-- A pattern that costs 1 ns per loop: the calibration call measures 5 ns. -/
theorem degenerate_calibration_undefined_witness :
    (constant_cost 1 scenario calib_loops ()).1.usecs ≤ 11 ∧
      calibrated_loops (constant_cost 1 scenario calib_loops ()).1.usecs = none ∧
      run (constant_cost 1 scenario) () = none :=
  ⟨by decide, degenerate_calibration_undefined (constant_cost 1 scenario) () (by decide)⟩

/-- C5: for a pattern that costs `c` nanoseconds per loop on the simulated
clock, with `c >= 3` so that the loop count fits `int`, the calibration call
measures `5 * c` (an `unsigned long long`), the loop count `L` is defined, and
the production call lasts
`L * c` nanoseconds with `5 * 10 ^ 9 - c < L * c <= 5 * 10 ^ 9`. -/
theorem constant_cost_hits_target (c : Nat) (g : Geometry) (hfit : 3 ≤ c)
    (hu64 : c * 5 < 2 ^ 64) :
    ∃ L : Nat,
      calibrated_loops (constant_cost c g calib_loops ()).1.usecs = some (L : ℤ) ∧
      (constant_cost c g (int_to_unsigned (L : ℤ)) ()).1.usecs = L * c ∧
      (5000000000 : ℤ) - c < L * c ∧ L * c ≤ 5000000000 := by
  have hT : (constant_cost c g calib_loops ()).1.usecs = c * 5 := rfl
  have hL : 25000000000 / (c * 5) = 5000000000 / c := by
    rw [Nat.mul_comm, ← Nat.div_div_eq_div_mul]
  have hcpos : 0 < c := by omega
  have hle : 5000000000 / c * c ≤ 5000000000 := Nat.div_mul_le_self _ _
  have hlt : 5000000000 < (5000000000 / c + 1) * c := by
    rw [Nat.mul_comm]; exact Nat.lt_mul_div_succ _ hcpos
  have hsmall : 5000000000 / c < 2 ^ 32 := by
    rw [Nat.div_lt_iff_lt_mul hcpos]; omega
  refine ⟨5000000000 / c, ?_, ?_, ?_, ?_⟩
  · rw [hT, calibrated_loops_eq _ (by omega) hu64, if_pos (by omega), hL]
  · show c * int_to_unsigned ((5000000000 / c : Nat) : ℤ) = 5000000000 / c * c
    have : int_to_unsigned ((5000000000 / c : Nat) : ℤ) = 5000000000 / c := by
      unfold int_to_unsigned
      generalize 5000000000 / c = k at hsmall
      omega
    rw [this, Nat.mul_comm]
  · have : (5000000000 : ℤ) < ((5000000000 / c : Nat) + 1) * c := by exact_mod_cast hlt
    linarith
  · exact hle

/-- A pattern that costs 400000 ns per loop on the scenario geometry. -/
theorem constant_cost_hits_target_witness :
    ∃ L : Nat,
      calibrated_loops (constant_cost 400000 scenario calib_loops ()).1.usecs = some (L : ℤ) ∧
      (constant_cost 400000 scenario (int_to_unsigned (L : ℤ)) ()).1.usecs = L * 400000 ∧
      (5000000000 : ℤ) - (400000 : Nat) < L * (400000 : Nat) ∧ L * 400000 ≤ 5000000000 :=
  constant_cost_hits_target 400000 scenario (by decide) (by decide)

/-! ## The store patterns -/

theorem seq_addr_disjoint (g : Geometry)
    (h : 4 * g.xres_virtual ≤ 4 * (g.line_length / 4)) :
    disjoint_words (seq_addr g) (in_surface g) := by
  intro x y x' y' i i' hR hR' hi hi' he
  unfold seq_addr at he
  obtain ⟨hx, _⟩ := hR
  obtain ⟨hx', _⟩ := hR'
  generalize 4 * (g.line_length / 4) = S at h he
  have hS : 0 < S := by omega
  have e1 : (4 * x + i + y * S) / S = y := by
    rw [Nat.add_mul_div_right _ _ hS, Nat.div_eq_of_lt (by omega), Nat.zero_add]
  have e2 : (4 * x' + i' + y' * S) / S = y' := by
    rw [Nat.add_mul_div_right _ _ hS, Nat.div_eq_of_lt (by omega), Nat.zero_add]
  have e3 : 4 * x + i + y * S = 4 * x' + i' + y' * S := by omega
  have hy : y = y' := by rw [← e1, ← e2, e3]
  subst hy
  omega

/-- One pass of the row-major store loop paints every pixel of the surface. -/
theorem horiz_write_pass_painted (g : Geometry) (loops l : Nat) (s : State)
    (h : 4 * g.xres_virtual ≤ 4 * (g.line_length / 4)) :
    painted (seq_addr g) (pixel_value loops l) (in_surface g) (in_surface g) s.mem
      (horiz_write_pass g loops l s).mem := by
  have hd := seq_addr_disjoint g h
  have key := for_lt_ind
    (fun k (ps : Nat × State) => ps.1 = k * (4 * (g.line_length / 4)) ∧
      painted (seq_addr g) (pixel_value loops l) (in_surface g)
        (fun x y => x < g.xres_virtual ∧ y < k) s.mem ps.2.mem)
    g.yres_virtual (horiz_write_row g loops l) (0, s)
    ⟨by simp, painted_init _ _ _ _ _ (fun x y hc => by omega)⟩ ?_
  · exact painted_mono key.2 (fun x y hxy => hxy)
  · rintro k hk ⟨p, t⟩ ⟨hp, hpt⟩
    simp only at hp hpt
    subst hp
    refine ⟨by simp only [horiz_write_row, next_row]; ring, ?_⟩
    have inner := for_lt_ind
      (fun n (t' : State) => painted (seq_addr g) (pixel_value loops l) (in_surface g)
        (fun x y => (x < g.xres_virtual ∧ y < k) ∨ (y = k ∧ x < n)) s.mem t'.mem)
      g.xres_virtual
      (fun x s => write_word (k * (4 * (g.line_length / 4)) + 4 * x) (pixel_value loops l x k) x k s)
      t (painted_mono hpt (fun x y hxy => by omega)) ?_
    · exact painted_mono inner (fun x y hxy => by omega)
    · intro n hn t' ht'
      have := painted_store ht' (fun x y hxy => by unfold in_surface; omega) hd n k ⟨hn, hk⟩
      exact painted_mono this (fun x y hxy => by omega)

/-- One pass of the column-major store loop paints every pixel of the surface. -/
theorem vert_write_pass_painted (g : Geometry) (loops l : Nat) (s : State)
    (h : 4 * g.xres_virtual ≤ 4 * (g.line_length / 4)) :
    painted (seq_addr g) (pixel_value loops l) (in_surface g) (in_surface g) s.mem
      (vert_write_pass g loops l s).mem := by
  have hd := seq_addr_disjoint g h
  have key := for_lt_ind
    (fun k (t : State) => painted (seq_addr g) (pixel_value loops l) (in_surface g)
        (fun x y => x < k ∧ y < g.yres_virtual) s.mem t.mem)
    g.xres_virtual (vert_write_col g loops l) s
    (painted_init _ _ _ _ _ (fun x y hc => by omega)) ?_
  · exact painted_mono key (fun x y hxy => hxy)
  · intro k hk t hpt
    have inner := for_lt_ind
      (fun n (ps : Nat × State) => ps.1 = 4 * k + n * (4 * (g.line_length / 4)) ∧
        painted (seq_addr g) (pixel_value loops l) (in_surface g)
          (fun x y => (x < k ∧ y < g.yres_virtual) ∨ (x = k ∧ y < n)) s.mem ps.2.mem)
      g.yres_virtual (vert_write_cell g loops l k) (4 * k, t)
      ⟨by simp, painted_mono hpt (fun x y hxy => by omega)⟩ ?_
    · exact painted_mono inner.2 (fun x y hxy => by omega)
    · rintro n hn ⟨p, t'⟩ ⟨hp, ht'⟩
      simp only at hp ht'
      subst hp
      refine ⟨by simp only [vert_write_cell, next_row]; ring, ?_⟩
      have := painted_store ht' (fun x y hxy => by unfold in_surface; omega) hd k n ⟨hk, hn⟩
      have e : seq_addr g k n = 4 * k + n * (4 * (g.line_length / 4)) := by
        unfold seq_addr; ring
      rw [e] at this
      exact painted_mono this (fun x y hxy => by omega)

theorem pixel_value_pass (loops p x y : Nat) (hp : p ≤ loops) :
    pixel_value loops (loops - p) x y = (x * y * p) % 2 ^ 32 := by
  unfold pixel_value u32
  rw [show loops - (loops - p) = p by omega]
  exact (Nat.mul_mod _ _ _).symm

theorem pixel_value_lt (loops l x y : Nat) : pixel_value loops l x y < 2 ^ 32 :=
  u32_lt _

/-- A loop of passes that each paint the surface leaves the surface painted with
the values of the last pass, the one with `l = 0`. -/
theorem while_dec_painted {addr : Nat → Nat → Nat} {R : Nat → Nat → Prop}
    (v : Nat → Nat → Nat → Nat) (pass : Nat → State → State)
    (hpass : ∀ l s, painted addr (v l) R R s.mem (pass l s).mem)
    (loops : Nat) (hloops : 1 ≤ loops) (s : State) :
    painted addr (v 0) R R s.mem (while_dec loops pass s).mem := by
  obtain ⟨n, rfl⟩ : ∃ n, loops = n + 1 := ⟨loops - 1, by omega⟩
  rw [while_dec_last]
  refine painted_trans ?_ (hpass 0 _)
  exact while_dec_inv
    (fun t => ∀ a, (∀ x y, R x y → ∀ i, i < 4 → a ≠ addr x y + i) → t.mem a = s.mem a)
    n _ s (fun _ _ => rfl)
    (fun k t _ ht a ha => by rw [(hpass (k + 1) t).2 a ha, ht a ha])

theorem seq_addr_aligned (g : Geometry) (h : g.line_length % 4 = 0) (x y : Nat) :
    seq_addr g x y = y * g.line_length + x * 4 := by
  unfold seq_addr
  rw [Nat.mul_div_cancel' (Nat.dvd_of_mod_eq_zero h), Nat.mul_comm 4 x]

theorem rows_apart (g : Geometry) (hrow : 4 * g.xres_virtual ≤ g.line_length) :
    4 * g.xres_virtual ≤ 4 * (g.line_length / 4) := by
  omega

/-- The word of a painted pixel reads back as the value painted. -/
theorem painted_load {addr v : Nat → Nat → Nat} {R : Nat → Nat → Prop} {m0 m : Mem}
    (h : painted addr v R R m0 m) (x y : Nat) (hR : R x y) :
    load32 m (addr x y) = v x y % 2 ^ 32 :=
  load32_of_bytes m _ _ (h.1 x y hR)

/-- C8: in `sequential_horiz_singlepixel_write` and
`sequential_vert_singlepixel_write` the value stored at pixel `(x, y)` on pass
`p` of `loops` is `(x * y * p) mod 2 ^ 32`, and the surface holds it after that
pass whatever it held before; for `loops >= 1` and a stride that is a multiple
of 4 and at least `4 * width`, every pixel holds `(x * y * loops) mod 2 ^ 32`
after the run whatever the surface held before, and a second run with the same
`loops` leaves the surface as the first one left it. -/
theorem write_value_determinism (g : Geometry) (loops : Nat) (fb : Mem) (lb lb' : Nat → Nat)
    (hloops : 1 ≤ loops) (hstride : g.line_length % 4 = 0)
    (hrow : 4 * g.xres_virtual ≤ g.line_length) :
    (∀ p x y, 1 ≤ p → p ≤ loops →
      pixel_value loops (loops - p) x y = (x * y * p) % 2 ^ 32) ∧
    (∀ s p x y, 1 ≤ p → p ≤ loops → x < g.xres_virtual → y < g.yres_virtual →
      load32 (horiz_write_pass g loops (loops - p) s).mem (y * g.line_length + x * 4)
          = (x * y * p) % 2 ^ 32 ∧
        load32 (vert_write_pass g loops (loops - p) s).mem (y * g.line_length + x * 4)
          = (x * y * p) % 2 ^ 32) ∧
    (∀ x y, x < g.xres_virtual → y < g.yres_virtual →
      load32 (sequential_horiz_singlepixel_write g loops fb lb).st.mem
          (y * g.line_length + x * 4) = (x * y * loops) % 2 ^ 32 ∧
        load32 (sequential_vert_singlepixel_write g loops fb lb).st.mem
          (y * g.line_length + x * 4) = (x * y * loops) % 2 ^ 32) ∧
    (sequential_horiz_singlepixel_write g loops
        (sequential_horiz_singlepixel_write g loops fb lb).st.mem lb').st.mem
      = (sequential_horiz_singlepixel_write g loops fb lb).st.mem ∧
    (sequential_vert_singlepixel_write g loops
        (sequential_vert_singlepixel_write g loops fb lb).st.mem lb').st.mem
      = (sequential_vert_singlepixel_write g loops fb lb).st.mem := by
  have h4 := rows_apart g hrow
  have hval : ∀ l x y, pixel_value loops l x y % 2 ^ 32 = pixel_value loops l x y :=
    fun l x y => Nat.mod_eq_of_lt (pixel_value_lt loops l x y)
  have hH : ∀ s, painted (seq_addr g) (pixel_value loops 0) (in_surface g) (in_surface g) s.mem
      (while_dec loops (fun l s => horiz_write_pass g loops l s) s).mem :=
    fun s => while_dec_painted (pixel_value loops) _
      (fun l s => horiz_write_pass_painted g loops l s h4) loops hloops s
  have hV : ∀ s, painted (seq_addr g) (pixel_value loops 0) (in_surface g) (in_surface g) s.mem
      (while_dec loops (fun l s => vert_write_pass g loops l s) s).mem :=
    fun s => while_dec_painted (pixel_value loops) _
      (fun l s => vert_write_pass_painted g loops l s h4) loops hloops s
  have hlast : ∀ x y, pixel_value loops 0 x y = (x * y * loops) % 2 ^ 32 := fun x y => by
    have := pixel_value_pass loops loops x y le_rfl
    rwa [Nat.sub_self] at this
  refine ⟨fun p x y _ hp => pixel_value_pass loops p x y hp, ?_, ?_, ?_, ?_⟩
  · intro s p x y _ hp hx hy
    rw [← seq_addr_aligned g hstride, ← pixel_value_pass loops p x y hp]
    exact ⟨by rw [painted_load (horiz_write_pass_painted g loops _ s h4) x y ⟨hx, hy⟩, hval],
      by rw [painted_load (vert_write_pass_painted g loops _ s h4) x y ⟨hx, hy⟩, hval]⟩
  · intro x y hx hy
    rw [← seq_addr_aligned g hstride, ← hlast]
    exact ⟨by
        show load32 (while_dec loops _ (init fb lb)).mem _ = _
        rw [painted_load (hH (init fb lb)) x y ⟨hx, hy⟩, hval],
      by
        show load32 (while_dec loops _ (init fb lb)).mem _ = _
        rw [painted_load (hV (init fb lb)) x y ⟨hx, hy⟩, hval]⟩
  · have h1 := hH (init fb lb)
    have h2 := hH (init (while_dec loops (fun l s => horiz_write_pass g loops l s)
      (init fb lb)).mem lb')
    exact painted_unique h1 (painted_trans h1.2 h2)
  · have h1 := hV (init fb lb)
    have h2 := hV (init (while_dec loops (fun l s => vert_write_pass g loops l s)
      (init fb lb)).mem lb')
    exact painted_unique h1 (painted_trans h1.2 h2)

/-- Three passes over a surface of 2 x 2 pixels with a stride of 8 bytes. -/
theorem write_value_determinism_witness :
    (sequential_horiz_singlepixel_write ⟨2, 2, 8, 4⟩ 3
        (sequential_horiz_singlepixel_write ⟨2, 2, 8, 4⟩ 3 (fun _ => 7) (fun _ => 0)).st.mem
        (fun _ => 1)).st.mem
      = (sequential_horiz_singlepixel_write ⟨2, 2, 8, 4⟩ 3 (fun _ => 7) (fun _ => 0)).st.mem :=
  (write_value_determinism ⟨2, 2, 8, 4⟩ 3 (fun _ => 7) (fun _ => 0) (fun _ => 1)
    (by decide) (by decide) (by decide)).2.2.2.1

/-! ## Coordinates of the accesses -/

theorem log_read_word (g : Geometry) (off x y : Nat) (s : State)
    (h : log_in_surface g s) (hx : x < g.xres_virtual) (hy : y < g.yres_virtual) :
    log_in_surface g (read_word off x y s) := by
  intro a ha
  simp only [read_word, List.mem_append, List.mem_singleton] at ha
  rcases ha with ha | rfl
  · exact h a ha
  · exact ⟨hx, hy⟩

theorem log_write_word (g : Geometry) (off v x y : Nat) (s : State)
    (h : log_in_surface g s) (hx : x < g.xres_virtual) (hy : y < g.yres_virtual) :
    log_in_surface g (write_word off v x y s) := by
  intro a ha
  simp only [write_word, List.mem_append, List.mem_singleton] at ha
  rcases ha with ha | rfl
  · exact h a ha
  · exact ⟨hx, hy⟩

theorem log_init (g : Geometry) (fb : Mem) (lb : Nat → Nat) : log_in_surface g (init fb lb) :=
  fun a ha => by simp [init] at ha

theorem log_horiz_read_pass (g : Geometry) (s : State) (h : log_in_surface g s) :
    log_in_surface g (horiz_read_pass g s) :=
  for_lt_ind (fun _ (ps : Nat × State) => log_in_surface g ps.2) _ (horiz_read_row g) (0, s) h
    (fun y hy ps hps =>
      for_lt_ind (fun _ t => log_in_surface g t) _ _ ps.2 hps
        (fun x hx t ht => log_read_word g _ x y t ht hx hy))

theorem log_horiz_write_pass (g : Geometry) (loops l : Nat) (s : State)
    (h : log_in_surface g s) : log_in_surface g (horiz_write_pass g loops l s) :=
  for_lt_ind (fun _ (ps : Nat × State) => log_in_surface g ps.2) _ (horiz_write_row g loops l)
    (0, s) h
    (fun y hy ps hps =>
      for_lt_ind (fun _ t => log_in_surface g t) _ _ ps.2 hps
        (fun x hx t ht => log_write_word g _ _ x y t ht hx hy))

theorem log_vert_read_pass (g : Geometry) (s : State) (h : log_in_surface g s) :
    log_in_surface g (vert_read_pass g s) :=
  for_lt_ind (fun _ t => log_in_surface g t) _ (vert_read_col g) s h
    (fun x hx t ht =>
      for_lt_ind (fun _ (ps : Nat × State) => log_in_surface g ps.2) _ (vert_read_cell g x)
        (4 * x, t) ht
        (fun y hy ps hps => log_read_word g _ x y ps.2 hps hx hy))

theorem log_vert_write_pass (g : Geometry) (loops l : Nat) (s : State)
    (h : log_in_surface g s) : log_in_surface g (vert_write_pass g loops l s) :=
  for_lt_ind (fun _ t => log_in_surface g t) _ (vert_write_col g loops l) s h
    (fun x hx t ht =>
      for_lt_ind (fun _ (ps : Nat × State) => log_in_surface g ps.2) _
        (vert_write_cell g loops l x) (4 * x, t) ht
        (fun y hy ps hps => log_write_word g _ _ x y ps.2 hps hx hy))

theorem for_lt_opt_ind {σ : Type} (P : Nat → σ → Prop) (n : Nat) (body : Nat → σ → Option σ)
    (s : σ) (h0 : P 0 s)
    (hstep : ∀ i, i < n → ∀ t, P i t → ∃ t', body i t = some t' ∧ P (i + 1) t') :
    ∃ t, for_lt_opt n body s = some t ∧ P n t := by
  induction n with
  | zero => exact ⟨s, rfl, h0⟩
  | succ k ih =>
    obtain ⟨t, ht, hPt⟩ := ih (fun i hi t ht => hstep i (Nat.lt_succ_of_lt hi) t ht)
    obtain ⟨t', ht', hPt'⟩ := hstep k (Nat.lt_succ_self k) t hPt
    exact ⟨t', by simp only [for_lt_opt, ht, Option.some_bind, ht'], hPt'⟩

theorem while_dec_opt_inv {σ : Type} (P : σ → Prop) (l : Nat) (body : Nat → σ → Option σ)
    (s : σ) (h0 : P s) (hstep : ∀ k t, k < l → P t → ∃ t', body k t = some t' ∧ P t') :
    ∃ t, while_dec_opt l body s = some t ∧ P t := by
  induction l generalizing s with
  | zero => exact ⟨s, rfl, h0⟩
  | succ k ih =>
    obtain ⟨t, ht, hPt⟩ := hstep k s (Nat.lt_succ_self k) h0
    obtain ⟨t', ht', hPt'⟩ := ih t hPt (fun j u hj hu => hstep j u (Nat.lt_succ_of_lt hj) hu)
    exact ⟨t', by simp only [while_dec_opt, ht, Option.some_bind, ht'], hPt'⟩

/-- With tiles of at least one pixel each way the body divides by nothing that
is zero and its coordinates are inside the surface, whatever the counter and
whether or not the grid divides the surface. -/
theorem tile_xy_in_surface (yparts xparts W H i : Nat) (hy : 0 < H / yparts)
    (hx : 0 < W / xparts) :
    ∃ x y, tile_xy yparts xparts W H i = some (x, y) ∧ x < W ∧ y < H := by
  have hyp : 0 < yparts := by
    rcases Nat.eq_zero_or_pos yparts with h | h
    · rw [h, Nat.div_zero] at hy; exact absurd hy (lt_irrefl _)
    · exact h
  have hxp : 0 < xparts := by
    rcases Nat.eq_zero_or_pos xparts with h | h
    · rw [h, Nat.div_zero] at hx; exact absurd hx (lt_irrefl _)
    · exact h
  have by1 : tile_coord yparts (H / yparts) i < H :=
    lt_of_lt_of_le (tile_coord_lt _ _ i hyp hy) (Nat.mul_div_le H yparts)
  have bx1 : tile_coord xparts (W / xparts) (i / H) < W :=
    lt_of_lt_of_le (tile_coord_lt _ _ _ hxp hx) (Nat.mul_div_le W xparts)
  unfold tile_coord at by1 bx1
  unfold tile_xy
  rw [if_neg (by omega)]
  refine ⟨_, _, rfl, ?_, ?_⟩
  · have a1 := u32_le (i / H % xparts * (W / xparts))
    have a2 := u32_le (u32 (i / H % xparts * (W / xparts)) + i / H / xparts % (W / xparts))
    omega
  · have a1 := u32_le (i % yparts * (H / yparts))
    have a2 := u32_le (u32 (i % yparts * (H / yparts)) + i / yparts % (H / yparts))
    omega
theorem log_nonseq_write_pass (g : Geometry) (loops l : Nat) (s : State)
    (hx : 4 ≤ g.xres_virtual) (hy : 4 ≤ g.yres_virtual) (h : log_in_surface g s) :
    ∃ t, nonseq_write_pass g loops l s = some t ∧ log_in_surface g t :=
  for_lt_opt_ind (fun _ t => log_in_surface g t) _ (nonseq_write_body g loops l) s h
    (fun i _ t ht => by
      obtain ⟨x, y, hxy, hxW, hyH⟩ := tile_xy_in_surface 4 4 g.xres_virtual g.yres_virtual i
        (Nat.div_pos hy (by norm_num)) (Nat.div_pos hx (by norm_num))
      exact ⟨write_word (tile_off g x y) (pixel_value loops l x y) x y t,
        by simp only [nonseq_write_body, hxy, Option.map_some'],
        log_write_word g _ _ x y t ht hxW hyH⟩)

theorem log_nonseq_read_pass (g : Geometry) (s : State)
    (hx : 8 ≤ g.xres_virtual) (hy : 16 ≤ g.yres_virtual) (h : log_in_surface g s) :
    ∃ t, nonseq_read_pass g s = some t ∧ log_in_surface g t :=
  for_lt_opt_ind (fun _ t => log_in_surface g t) _ (nonseq_read_body g) s h
    (fun i _ t ht => by
      obtain ⟨x, y, hxy, hxW, hyH⟩ := tile_xy_in_surface 16 8 g.xres_virtual g.yres_virtual i
        (Nat.div_pos hy (by norm_num)) (Nat.div_pos hx (by norm_num))
      exact ⟨read_word (tile_off g x y) x y t,
        by simp only [nonseq_read_body, hxy, Option.map_some'],
        log_read_word g _ x y t ht hxW hyH⟩)

/-- C6, as stated, fails: on a 4 x 3 surface with a stride of 16 bytes the tile
height `yres / yparts` of `nonsequential_singlepixel_write` is zero, so the
first iteration already takes a remainder modulo zero. -/
theorem tiny_surface_modulo_by_zero :
    tile_xy 4 4 4 3 0 = none ∧
      nonsequential_singlepixel_write ⟨4, 3, 16, 4⟩ 1 (fun _ => 0) (fun _ => 0) = none := by
  constructor <;> rfl

/-- C6, amended: every access of the four sequential per-pixel patterns is made
for coordinates inside the surface; so is every access of
`nonsequential_singlepixel_write` on a surface of at least 4 x 4 pixels and of
`nonsequential_singlepixel_read` on a surface of at least 8 x 16 pixels, where
the body takes no remainder modulo zero and its coordinates are in range for
every counter, whether or not the tile grid divides the surface. -/
theorem accesses_in_surface (g : Geometry) (loops : Nat) (fb : Mem) (lb : Nat → Nat) :
    (∀ a ∈ (sequential_horiz_singlepixel_read g loops fb lb).st.log,
      a.x < g.xres_virtual ∧ a.y < g.yres_virtual) ∧
    (∀ a ∈ (sequential_horiz_singlepixel_write g loops fb lb).st.log,
      a.x < g.xres_virtual ∧ a.y < g.yres_virtual) ∧
    (∀ a ∈ (sequential_vert_singlepixel_read g loops fb lb).st.log,
      a.x < g.xres_virtual ∧ a.y < g.yres_virtual) ∧
    (∀ a ∈ (sequential_vert_singlepixel_write g loops fb lb).st.log,
      a.x < g.xres_virtual ∧ a.y < g.yres_virtual) ∧
    (4 ≤ g.xres_virtual → 4 ≤ g.yres_virtual →
      (∀ i, ∃ x y, tile_xy 4 4 g.xres_virtual g.yres_virtual i = some (x, y) ∧
        x < g.xres_virtual ∧ y < g.yres_virtual) ∧
      ∃ r, nonsequential_singlepixel_write g loops fb lb = some r ∧
        ∀ a ∈ r.st.log, a.x < g.xres_virtual ∧ a.y < g.yres_virtual) ∧
    (8 ≤ g.xres_virtual → 16 ≤ g.yres_virtual →
      (∀ i, ∃ x y, tile_xy 16 8 g.xres_virtual g.yres_virtual i = some (x, y) ∧
        x < g.xres_virtual ∧ y < g.yres_virtual) ∧
      ∃ r, nonsequential_singlepixel_read g loops fb lb = some r ∧
        ∀ a ∈ r.st.log, a.x < g.xres_virtual ∧ a.y < g.yres_virtual) := by
  refine ⟨?_, ?_, ?_, ?_, ?_, ?_⟩
  · exact while_dec_inv (log_in_surface g) loops _ _ (log_init g fb lb)
      (fun _ t _ ht => log_horiz_read_pass g t ht)
  · exact while_dec_inv (log_in_surface g) loops _ _ (log_init g fb lb)
      (fun k t _ ht => log_horiz_write_pass g loops k t ht)
  · exact while_dec_inv (log_in_surface g) loops _ _ (log_init g fb lb)
      (fun _ t _ ht => log_vert_read_pass g t ht)
  · exact while_dec_inv (log_in_surface g) loops _ _ (log_init g fb lb)
      (fun k t _ ht => log_vert_write_pass g loops k t ht)
  · intro hx hy
    refine ⟨fun i => tile_xy_in_surface 4 4 _ _ i (Nat.div_pos hy (by norm_num))
      (Nat.div_pos hx (by norm_num)), ?_⟩
    obtain ⟨t, ht, hlog⟩ := while_dec_opt_inv (log_in_surface g) loops
      (nonseq_write_pass g loops) (init fb lb) (log_init g fb lb)
      (fun k t _ ht => log_nonseq_write_pass g loops k t hx hy ht)
    exact ⟨{ st := t, pixels := pixels_out g loops, fault := false },
      by simp only [nonsequential_singlepixel_write, ht, Option.map_some'], hlog⟩
  · intro hx hy
    refine ⟨fun i => tile_xy_in_surface 16 8 _ _ i (Nat.div_pos hy (by norm_num))
      (Nat.div_pos hx (by norm_num)), ?_⟩
    obtain ⟨t, ht, hlog⟩ := while_dec_opt_inv (log_in_surface g) loops
      (fun _ s => nonseq_read_pass g s) (init fb lb) (log_init g fb lb)
      (fun _ t _ ht => log_nonseq_read_pass g t hx hy ht)
    exact ⟨{ st := t, pixels := pixels_out g loops, fault := bad_luck t },
      by simp only [nonsequential_singlepixel_read, ht, Option.map_some'], hlog⟩

/-- The read pattern on a surface of 8 x 16 pixels, the size of its tile grid. -/
theorem accesses_in_surface_witness :
    ∃ r, nonsequential_singlepixel_read ⟨8, 16, 32, 4⟩ 1 (fun _ => 0) (fun _ => 0) = some r ∧
      ∀ a ∈ r.st.log, a.x < 8 ∧ a.y < 16 :=
  ((accesses_in_surface ⟨8, 16, 32, 4⟩ 1 (fun _ => 0) (fun _ => 0)).2.2.2.2.2
    (by decide) (by decide)).2

theorem at_read_word (addr : Nat → Nat → Nat) (off x y : Nat) (s : State)
    (h : log_at addr s) (hoff : off = addr x y) : log_at addr (read_word off x y s) := by
  intro a ha
  simp only [read_word, List.mem_append, List.mem_singleton] at ha
  rcases ha with ha | rfl
  · exact h a ha
  · exact hoff

theorem at_write_word (addr : Nat → Nat → Nat) (off v x y : Nat) (s : State)
    (h : log_at addr s) (hoff : off = addr x y) : log_at addr (write_word off v x y s) := by
  intro a ha
  simp only [write_word, List.mem_append, List.mem_singleton] at ha
  rcases ha with ha | rfl
  · exact h a ha
  · exact hoff

theorem at_init (addr : Nat → Nat → Nat) (fb : Mem) (lb : Nat → Nat) :
    log_at addr (init fb lb) :=
  fun a ha => by simp [init] at ha

theorem at_horiz_read_pass (g : Geometry) (s : State) (h : log_at (seq_addr g) s) :
    log_at (seq_addr g) (horiz_read_pass g s) := by
  have key := for_lt_ind
    (fun k (ps : Nat × State) => ps.1 = k * (4 * (g.line_length / 4)) ∧
      log_at (seq_addr g) ps.2)
    g.yres_virtual (horiz_read_row g) (0, s) ⟨by simp, h⟩ ?_
  · exact key.2
  · rintro k _ ⟨p, t⟩ ⟨hp, ht⟩
    simp only at hp ht
    subst hp
    refine ⟨by simp only [horiz_read_row, next_row]; ring, ?_⟩
    exact for_lt_ind (fun _ t' => log_at (seq_addr g) t') g.xres_virtual
      (fun x s => read_word (k * (4 * (g.line_length / 4)) + 4 * x) x k s) t ht
      (fun x _ t' ht' => at_read_word _ _ x k t' ht' rfl)

theorem at_horiz_write_pass (g : Geometry) (loops l : Nat) (s : State)
    (h : log_at (seq_addr g) s) : log_at (seq_addr g) (horiz_write_pass g loops l s) := by
  have key := for_lt_ind
    (fun k (ps : Nat × State) => ps.1 = k * (4 * (g.line_length / 4)) ∧
      log_at (seq_addr g) ps.2)
    g.yres_virtual (horiz_write_row g loops l) (0, s) ⟨by simp, h⟩ ?_
  · exact key.2
  · rintro k _ ⟨p, t⟩ ⟨hp, ht⟩
    simp only at hp ht
    subst hp
    refine ⟨by simp only [horiz_write_row, next_row]; ring, ?_⟩
    exact for_lt_ind (fun _ t' => log_at (seq_addr g) t') g.xres_virtual
      (fun x s => write_word (k * (4 * (g.line_length / 4)) + 4 * x)
        (pixel_value loops l x k) x k s) t ht
      (fun x _ t' ht' => at_write_word _ _ _ x k t' ht' rfl)

theorem at_vert_read_pass (g : Geometry) (s : State) (h : log_at (seq_addr g) s) :
    log_at (seq_addr g) (vert_read_pass g s) := by
  refine for_lt_ind (fun _ t => log_at (seq_addr g) t) g.xres_virtual (vert_read_col g) s h ?_
  intro x _ t ht
  have inner := for_lt_ind
    (fun n (ps : Nat × State) => ps.1 = 4 * x + n * (4 * (g.line_length / 4)) ∧
      log_at (seq_addr g) ps.2)
    g.yres_virtual (vert_read_cell g x) (4 * x, t) ⟨by simp, ht⟩ ?_
  · exact inner.2
  · rintro n _ ⟨p, t'⟩ ⟨hp, ht'⟩
    simp only at hp ht'
    subst hp
    exact ⟨by simp only [vert_read_cell, next_row]; ring,
      at_read_word _ _ x n t' ht' (by unfold seq_addr; ring)⟩

theorem at_vert_write_pass (g : Geometry) (loops l : Nat) (s : State)
    (h : log_at (seq_addr g) s) : log_at (seq_addr g) (vert_write_pass g loops l s) := by
  refine for_lt_ind (fun _ t => log_at (seq_addr g) t) g.xres_virtual
    (vert_write_col g loops l) s h ?_
  intro x _ t ht
  have inner := for_lt_ind
    (fun n (ps : Nat × State) => ps.1 = 4 * x + n * (4 * (g.line_length / 4)) ∧
      log_at (seq_addr g) ps.2)
    g.yres_virtual (vert_write_cell g loops l x) (4 * x, t) ⟨by simp, ht⟩ ?_
  · exact inner.2
  · rintro n _ ⟨p, t'⟩ ⟨hp, ht'⟩
    simp only at hp ht'
    subst hp
    exact ⟨by simp only [vert_write_cell, next_row]; ring,
      at_write_word _ _ _ x n t' ht' (by unfold seq_addr; ring)⟩

/-- C7: every access of the four sequential per-pixel patterns to pixel `(x, y)`
is at byte offset `y * (4 * (stride / 4)) + 4 * x`, because the row pointer
advances by `stride / 4` words.  With one column, two rows and a stride of 6
bytes, `sequential_horiz_singlepixel_write` and
`sequential_vert_singlepixel_read` access pixel `(0, 1)` at byte offset 4, while
`y * stride + x * 4` is 6.  The tiled patterns compute `fb + y * fix.line_length`
in bytes and get 18 for row 1 of a stride of 18. -/
theorem sequential_row_offset_truncated :
    (∀ g loops fb lb,
      (∀ a ∈ (sequential_horiz_singlepixel_read g loops fb lb).st.log,
        a.off = a.y * (4 * (g.line_length / 4)) + 4 * a.x) ∧
      (∀ a ∈ (sequential_horiz_singlepixel_write g loops fb lb).st.log,
        a.off = a.y * (4 * (g.line_length / 4)) + 4 * a.x) ∧
      (∀ a ∈ (sequential_vert_singlepixel_read g loops fb lb).st.log,
        a.off = a.y * (4 * (g.line_length / 4)) + 4 * a.x) ∧
      (∀ a ∈ (sequential_vert_singlepixel_write g loops fb lb).st.log,
        a.off = a.y * (4 * (g.line_length / 4)) + 4 * a.x)) ∧
    (∀ fb lb, (sequential_horiz_singlepixel_write ⟨1, 2, 6, 4⟩ 1 fb lb).st.log =
      [⟨true, 0, 0, 0, 4⟩, ⟨true, 0, 1, 4, 4⟩]) ∧
    (∀ fb lb, (sequential_vert_singlepixel_read ⟨1, 2, 6, 4⟩ 1 fb lb).st.log =
      [⟨false, 0, 0, 0, 4⟩, ⟨false, 0, 1, 4, 4⟩]) ∧
    (4 : Nat) ≠ 1 * 6 + 0 * 4 ∧
    tile_off ⟨4, 4, 18, 4⟩ 0 1 = 1 * 18 + 0 * 4 := by
  refine ⟨fun g loops fb lb => ⟨?_, ?_, ?_, ?_⟩, fun _ _ => rfl, fun _ _ => rfl,
    by decide, by decide⟩
  · exact while_dec_inv (log_at (seq_addr g)) loops _ _ (at_init _ fb lb)
      (fun _ t _ ht => at_horiz_read_pass g t ht)
  · exact while_dec_inv (log_at (seq_addr g)) loops _ _ (at_init _ fb lb)
      (fun k t _ ht => at_horiz_write_pass g loops k t ht)
  · exact while_dec_inv (log_at (seq_addr g)) loops _ _ (at_init _ fb lb)
      (fun _ t _ ht => at_vert_read_pass g t ht)
  · exact while_dec_inv (log_at (seq_addr g)) loops _ _ (at_init _ fb lb)
      (fun k t _ ht => at_vert_write_pass g loops k t ht)

/-! ## The bulk-copy patterns -/

theorem fill_ramp_spec (n : Nat) (s : State) :
    (fill_ramp n s).mem = s.mem ∧ (fill_ramp n s).log = s.log ∧
      ∀ j, j < n → (fill_ramp n s).linebuf j = u8 j := by
  refine for_lt_ind
    (fun k t => t.mem = s.mem ∧ t.log = s.log ∧ ∀ j, j < k → t.linebuf j = u8 j)
    n fill_byte s ⟨rfl, rfl, fun j hj => absurd hj (Nat.not_lt_zero j)⟩ ?_
  rintro k _ t ⟨hm, hl, hb⟩
  refine ⟨hm, hl, fun j hj => ?_⟩
  show (if j = k then u8 k else t.linebuf j) = u8 j
  by_cases hjk : j = k
  · rw [if_pos hjk, hjk]
  · rw [if_neg hjk]; exact hb j (by omega)

theorem row_below (stride n y k j : Nat) (hn : n ≤ stride) (hy : y < k) (hj : j < n) :
    y * stride + j < k * stride := by
  have h1 : (y + 1) * stride ≤ k * stride := Nat.mul_le_mul_right stride hy
  rw [Nat.succ_mul] at h1
  omega

/-- One pass of the row copy loop leaves the scratch line in every row. -/
theorem line_write_pass_spec (g : Geometry) (s : State) (hn : line_bytes g ≤ g.line_length) :
    (line_write_pass g s).linebuf = s.linebuf ∧
      ∀ y, y < g.yres_virtual → ∀ j, j < line_bytes g →
        (line_write_pass g s).mem (y * g.line_length + j) = s.linebuf j := by
  have key := for_lt_ind
    (fun k (ps : Nat × State) => ps.1 = k * g.line_length ∧ ps.2.linebuf = s.linebuf ∧
      ∀ y, y < k → ∀ j, j < line_bytes g → ps.2.mem (y * g.line_length + j) = s.linebuf j)
    g.yres_virtual (line_write_row g) (0, s)
    ⟨by simp, rfl, fun y hy => absurd hy (Nat.not_lt_zero y)⟩ ?_
  · exact ⟨key.2.1, key.2.2⟩
  · rintro k _ ⟨p, t⟩ ⟨hp, hlb, hrows⟩
    simp only at hp hlb hrows
    subst hp
    refine ⟨by simp only [line_write_row]; ring, hlb, fun y hy j hj => ?_⟩
    show (if k * g.line_length ≤ y * g.line_length + j ∧
        y * g.line_length + j < k * g.line_length + line_bytes g
      then t.linebuf (y * g.line_length + j - k * g.line_length)
      else t.mem (y * g.line_length + j)) = s.linebuf j
    rcases Nat.lt_succ_iff_lt_or_eq.mp hy with hlt | rfl
    · have := row_below g.line_length (line_bytes g) y k j hn hlt hj
      rw [if_neg (by omega)]
      exact hrows y hlt j hj
    · rw [if_pos ⟨Nat.le_add_right _ _, by omega⟩, Nat.add_sub_cancel_left, hlb]

/-- The row copy loop of the read pattern, stopped after `k` rows: the surface
is as it was and the scratch line is the last row copied. -/
theorem line_read_rows_spec (g : Geometry) (s : State) (k : Nat) :
    (for_lt k (line_read_row g) (0, s)).2.mem = s.mem ∧
      ∀ y, k = y + 1 → ∀ j, j < line_bytes g →
        (for_lt k (line_read_row g) (0, s)).2.linebuf j = s.mem (y * g.line_length + j) := by
  have key := for_lt_ind
    (fun k (ps : Nat × State) => ps.1 = k * g.line_length ∧ ps.2.mem = s.mem ∧
      ∀ y, k = y + 1 → ∀ j, j < line_bytes g → ps.2.linebuf j = s.mem (y * g.line_length + j))
    k (line_read_row g) (0, s)
    ⟨by simp, rfl, fun y hy => absurd hy (by omega)⟩ ?_
  · exact ⟨key.2.1, key.2.2⟩
  · rintro i _ ⟨p, t⟩ ⟨hp, hmem, _⟩
    simp only at hp hmem
    subst hp
    refine ⟨by simp only [line_read_row]; ring, hmem, fun y hy j hj => ?_⟩
    have hiy : i = y := by omega
    subst hiy
    show (if j < line_bytes g then t.mem (i * g.line_length + j) else t.linebuf j) = _
    rw [if_pos hj, hmem]

/-- C9: with `stride >= width * bytespp`, the stride a `__u32`, and `loops >= 1`, after
`sequential_line_write` every row `y < height` holds the byte ramp: the byte at
offset `y * stride + j` is `j mod 256` for every `j < width * bytespp`; and the
scratch line of `sequential_line_read` run on that surface is the ramp, byte for
byte, after the copy out of any row and at the end of the run. -/
theorem line_round_trip (g : Geometry) (loops loops' : Nat) (fb : Mem) (lb lb' : Nat → Nat)
    (hrow : g.xres_virtual * g.bytespp ≤ g.line_length) (hu32 : g.line_length < 2 ^ 32)
    (hloops : 1 ≤ loops) :
    (∀ y, y < g.yres_virtual → ∀ j, j < g.xres_virtual * g.bytespp →
      (sequential_line_write g loops fb lb).st.mem (y * g.line_length + j) = j % 256) ∧
    (∀ s : State, s.mem = (sequential_line_write g loops fb lb).st.mem →
      ∀ y, y < g.yres_virtual → ∀ j, j < g.xres_virtual * g.bytespp →
        (for_lt (y + 1) (line_read_row g) (0, s)).2.linebuf j = j % 256) ∧
    (1 ≤ loops' → 1 ≤ g.yres_virtual → ∀ j, j < g.xres_virtual * g.bytespp →
      (sequential_line_read g loops' (sequential_line_write g loops fb lb).st.mem lb').st.linebuf j
        = j % 256) := by
  have hn : line_bytes g = g.xres_virtual * g.bytespp := u32_of_lt (by omega)
  have hle : line_bytes g ≤ g.line_length := by omega
  have hwrite : ∀ y, y < g.yres_virtual → ∀ j, j < g.xres_virtual * g.bytespp →
      (sequential_line_write g loops fb lb).st.mem (y * g.line_length + j) = j % 256 := by
    intro y hy j hj
    obtain ⟨n, rfl⟩ : ∃ n, loops = n + 1 := ⟨loops - 1, by omega⟩
    show (while_dec (n + 1) (fun _ s => line_write_pass g s) _).mem _ = _
    rw [while_dec_last]
    have hprev := while_dec_inv (fun t : State => ∀ j, j < line_bytes g → t.linebuf j = u8 j)
      n (fun _ s => line_write_pass g s) (fill_ramp (line_bytes g) (init fb lb))
      (fill_ramp_spec _ _).2.2
      (fun _ t _ ht j hj => by rw [(line_write_pass_spec g t hle).1]; exact ht j hj)
    rw [(line_write_pass_spec g _ hle).2 y hy j (by omega), hprev j (by omega)]
    rfl
  refine ⟨hwrite, ?_, ?_⟩
  · intro s hs y hy j hj
    rw [(line_read_rows_spec g s (y + 1)).2 y rfl j (by omega), hs]
    exact hwrite y hy j hj
  · intro hl hH j hj
    obtain ⟨n, rfl⟩ : ∃ n, loops' = n + 1 := ⟨loops' - 1, by omega⟩
    obtain ⟨h, hh⟩ : ∃ h, g.yres_virtual = h + 1 := ⟨g.yres_virtual - 1, by omega⟩
    show (while_dec (n + 1) (fun _ s => line_read_pass g s) _).linebuf j = _
    rw [while_dec_last]
    have hprev := while_dec_inv
      (fun t : State => t.mem = (sequential_line_write g loops fb lb).st.mem)
      n (fun _ s => line_read_pass g s)
      (init (sequential_line_write g loops fb lb).st.mem lb') rfl
      (fun _ t _ ht => by
        show (for_lt g.yres_virtual (line_read_row g) (0, t)).2.mem = _
        rw [(line_read_rows_spec g t _).1]; exact ht)
    show (for_lt g.yres_virtual (line_read_row g) (0, _)).2.linebuf j = _
    rw [(line_read_rows_spec g _ g.yres_virtual).2 h hh j (by omega), hprev]
    exact hwrite h (by omega) j hj

/-- One pass over two rows of three 2-byte pixels with a stride of 8 bytes. -/
theorem line_round_trip_witness :
    (sequential_line_write ⟨3, 2, 8, 2⟩ 1 (fun _ => 99) (fun _ => 55)).st.mem (1 * 8 + 5)
        = 5 % 256 ∧
      (sequential_line_read ⟨3, 2, 8, 2⟩ 1
        (sequential_line_write ⟨3, 2, 8, 2⟩ 1 (fun _ => 99) (fun _ => 55)).st.mem
        (fun _ => 44)).st.linebuf 5 = 5 % 256 :=
  ⟨(line_round_trip ⟨3, 2, 8, 2⟩ 1 1 (fun _ => 99) (fun _ => 55) (fun _ => 44)
      (by decide) (by decide) (by decide)).1 1 (by decide) 5 (by decide),
    (line_round_trip ⟨3, 2, 8, 2⟩ 1 1 (fun _ => 99) (fun _ => 55) (fun _ => 44)
      (by decide) (by decide) (by decide)).2.2 (by decide) (by decide) 5 (by decide)⟩

/-! ## Zero loops -/

theorem pixels_out_zero (g : Geometry) : pixels_out g 0 = 0 := by
  simp [pixels_out, u32]

/-- C10: called with `loops = 0`, each of the eight patterns reports zero
pixels, leaves the surface as it found it, makes no access to it, and does not
reach the null write; the two tiled patterns compute no coordinate, so they
divide by nothing. -/
theorem zero_loops_untouched (g : Geometry) (fb : Mem) (lb : Nat → Nat) :
    untouched fb (sequential_horiz_singlepixel_read g 0 fb lb) ∧
    untouched fb (sequential_horiz_singlepixel_write g 0 fb lb) ∧
    untouched fb (sequential_vert_singlepixel_read g 0 fb lb) ∧
    untouched fb (sequential_vert_singlepixel_write g 0 fb lb) ∧
    untouched fb (sequential_line_read g 0 fb lb) ∧
    untouched fb (sequential_line_write g 0 fb lb) ∧
    (∃ r, nonsequential_singlepixel_write g 0 fb lb = some r ∧ untouched fb r) ∧
    (∃ r, nonsequential_singlepixel_read g 0 fb lb = some r ∧ untouched fb r) := by
  have h0 := pixels_out_zero g
  refine ⟨⟨h0, rfl, rfl, rfl⟩, ⟨h0, rfl, rfl, rfl⟩, ⟨h0, rfl, rfl, rfl⟩, ⟨h0, rfl, rfl, rfl⟩,
    ⟨h0, rfl, rfl, rfl⟩, ⟨h0, ?_, ?_, rfl⟩, ⟨_, rfl, h0, rfl, rfl, rfl⟩,
    ⟨_, rfl, h0, rfl, rfl, rfl⟩⟩
  · exact (fill_ramp_spec (line_bytes g) (init fb lb)).1
  · exact (fill_ramp_spec (line_bytes g) (init fb lb)).2.1

/-! ## Random rectangles -/

theorem to_short_of_range (z : ℤ) (h1 : -2 ^ 15 ≤ z) (h2 : z < 2 ^ 15) : to_short z = z := by
  unfold to_short
  omega

/-- One coordinate and its extent: the draw for the position, then the draw for
the size, stay between the minimum size and the end of the screen. -/
theorem c_mod_draw (a b : ℤ) (ha : 0 ≤ a) (hb : 0 < b) :
    ∃ v, c_mod a b = some v ∧ 0 ≤ v ∧ v < b := by
  refine ⟨Int.tmod a b, ?_, Int.tmod_nonneg b ha, Int.tmod_lt_of_pos a hb⟩
  unfold c_mod
  rw [if_neg (by omega)]

/-- The position drawn along one axis: zero when the minimum size fills the
axis, and otherwise below `max - min`. -/
theorem rand_position (rand : Nat → ℤ) (hrand : ∀ i, 0 ≤ rand i) (n : Nat) (lo hi : ℤ)
    (h0 : 0 ≤ lo) (h1 : lo ≤ hi) (h2 : hi ≤ 32766) :
    ∃ p k, (if lo = hi then some ((0 : ℤ), n)
        else (c_mod (rand n) (hi - lo)).map fun v => (to_short v, n + 1)) = some (p, k) ∧
      0 ≤ p ∧ p + lo ≤ hi := by
  by_cases h : lo = hi
  · exact ⟨0, n, by rw [if_pos h], le_rfl, by omega⟩
  · obtain ⟨v, hv, hv0, hvb⟩ := c_mod_draw (rand n) (hi - lo) (hrand n) (by omega)
    refine ⟨v, n + 1, ?_, hv0, by omega⟩
    rw [if_neg h, hv, Option.map_some', to_short_of_range v (by omega) (by omega)]

/-- The size drawn along one axis once the position `p` is known. -/
theorem rand_extent (rand : Nat → ℤ) (hrand : ∀ i, 0 ≤ rand i) (k : Nat) (p lo hi cap : ℤ)
    (h0 : 0 ≤ lo) (hp0 : 0 ≤ p) (hp : p + lo ≤ hi) (h2 : hi ≤ 32766) (hcap : 0 ≤ cap) :
    ∃ d, c_mod (rand k) (MIN (to_short (MIN cap hi + 1)) (1 + hi - p - lo)) = some d ∧
      lo ≤ to_short (lo + d) ∧ p + to_short (lo + d) ≤ hi := by
  have hmin : 0 ≤ MIN cap hi ∧ MIN cap hi ≤ hi := by
    unfold MIN; split_ifs <;> omega
  have hw : to_short (MIN cap hi + 1) = MIN cap hi + 1 :=
    to_short_of_range _ (by omega) (by omega)
  have hm : 0 < MIN (to_short (MIN cap hi + 1)) (1 + hi - p - lo) ∧
      MIN (to_short (MIN cap hi + 1)) (1 + hi - p - lo) ≤ 1 + hi - p - lo := by
    rw [hw]
    generalize MIN cap hi = c at hmin
    unfold MIN; split_ifs <;> omega
  obtain ⟨d, hd, hd0, hdb⟩ := c_mod_draw (rand k) _ (hrand k) hm.1
  refine ⟨d, hd, ?_⟩
  rw [to_short_of_range (lo + d) (by omega) (by omega)]
  omega

/-- C17: in `rect.c`, whatever the calls of `rand()` return, for `short`
arguments with `0 <= min_w <= max_x <= 32766`, `0 <= min_h <= max_y <= 32766`,
`max_w >= 0` and `max_h >= 0`, `get_rand_rect` takes no remainder modulo zero
and returns a rectangle with `x >= 0`, `y >= 0`, `w >= min_w`, `h >= min_h`,
`x + w <= max_x` and `y + h <= max_y`. -/
theorem get_rand_rect_inside (rand : Nat → ℤ) (n : Nat)
    (max_x max_y min_w min_h max_w max_h : ℤ) (hrand : ∀ i, 0 ≤ rand i)
    (hw0 : 0 ≤ min_w) (hw1 : min_w ≤ max_x) (hh0 : 0 ≤ min_h) (hh1 : min_h ≤ max_y)
    (hmw : 0 ≤ max_w) (hmh : 0 ≤ max_h) (hx : max_x ≤ 32766) (hy : max_y ≤ 32766) :
    ∃ r k, get_rand_rect rand n max_x max_y min_w min_h max_w max_h = some (r, k) ∧
      0 ≤ r.x ∧ 0 ≤ r.y ∧ min_w ≤ r.w ∧ min_h ≤ r.h ∧
      r.x + r.w ≤ max_x ∧ r.y + r.h ≤ max_y := by
  obtain ⟨x, k1, hxe, hx0, hxb⟩ := rand_position rand hrand n min_w max_x hw0 hw1 hx
  obtain ⟨y, k2, hye, hy0, hyb⟩ := rand_position rand hrand k1 min_h max_y hh0 hh1 hy
  obtain ⟨dw, hdw, hdw0, hdwb⟩ :=
    rand_extent rand hrand k2 x min_w max_x max_w hw0 hx0 hxb hx hmw
  obtain ⟨dh, hdh, hdh0, hdhb⟩ :=
    rand_extent rand hrand (k2 + 1) y min_h max_y max_h hh0 hy0 hyb hy hmh
  refine ⟨{ x := x, y := y, w := to_short (min_w + dw), h := to_short (min_h + dh) }, k2 + 2,
    ?_, hx0, hy0, hdw0, hdh0, hdwb, hdhb⟩
  unfold get_rand_rect
  simp only [hxe, Option.some_bind, hye, hdw, hdh]

/-- The call `main` makes on a screen of 800 x 480: `min_w = 2`, `min_h = 0`. -/
theorem get_rand_rect_inside_witness :
    ∃ r k, get_rand_rect (fun _ => 12345) 0 800 480 2 0 800 480 = some (r, k) ∧
      0 ≤ r.x ∧ 0 ≤ r.y ∧ 2 ≤ r.w ∧ 0 ≤ r.h ∧ r.x + r.w ≤ 800 ∧ r.y + r.h ≤ 480 :=
  get_rand_rect_inside (fun _ => 12345) 0 800 480 2 0 800 480
    (fun _ => show (0 : ℤ) ≤ 12345 by decide) (by decide) (by decide) (by decide) (by decide)
    (by decide) (by decide) (by decide) (by decide)

/-! ## Setup failures in `main` -/

/-- C14: when the device cannot be opened (`open` returns `-1`, everything else
would succeed), `main` does not stop at once: it goes on to the first geometry
query with the invalid descriptor and returns `-1` only when that fails.  What
holds for every failing setup step is that `main` returns `-1` and runs no
pattern. -/
theorem open_failure_reaches_ioctl :
    main 3 device_missing = (-1, [Event.open_device, Event.get_vscreeninfo]) ∧
    (∀ env, setup_fails env →
      (main 3 env).1 = -1 ∧ ∀ name, Event.run_pattern name ∉ (main 3 env).2) := by
  refine ⟨by decide, fun env h => ?_⟩
  unfold setup_fails at h
  unfold main ioctl
  split_ifs <;> simp_all

/-! ## The accumulator of the read patterns -/

theorem acc_init (fb : Mem) (lb : Nat → Nat) : accumulates fb (init fb lb) :=
  ⟨rfl, rfl⟩

theorem acc_read_word (fb : Mem) (off x y : Nat) (s : State) (h : accumulates fb s) :
    accumulates fb (read_word off x y s) := by
  obtain ⟨hm, hs⟩ := h
  refine ⟨hm, ?_⟩
  show u32 (s.sum + load32 s.mem off) = u32 (read_sum fb (s.log ++ [⟨false, x, y, off, 4⟩]))
  rw [hs, hm]
  unfold read_sum u32
  simp only [List.map_append, List.sum_append, List.map_cons, List.map_nil, List.sum_cons,
    List.sum_nil, Nat.add_zero]
  omega

theorem acc_horiz_read_pass (g : Geometry) (fb : Mem) (s : State) (h : accumulates fb s) :
    accumulates fb (horiz_read_pass g s) :=
  for_lt_ind (fun _ (ps : Nat × State) => accumulates fb ps.2) _ (horiz_read_row g) (0, s) h
    (fun y _ ps hps =>
      for_lt_ind (fun _ t => accumulates fb t) _ _ ps.2 hps
        (fun x _ t ht => acc_read_word fb _ x y t ht))

theorem acc_vert_read_pass (g : Geometry) (fb : Mem) (s : State) (h : accumulates fb s) :
    accumulates fb (vert_read_pass g s) :=
  for_lt_ind (fun _ t => accumulates fb t) _ (vert_read_col g) s h
    (fun x _ t ht =>
      for_lt_ind (fun _ (ps : Nat × State) => accumulates fb ps.2) _ (vert_read_cell g x)
        (4 * x, t) ht
        (fun y _ ps hps => acc_read_word fb _ x y ps.2 hps))

theorem for_lt_opt_some {σ : Type} (P : σ → Prop) (n : Nat) (body : Nat → σ → Option σ)
    (hstep : ∀ i t t', body i t = some t' → P t → P t') (s t : σ)
    (h : for_lt_opt n body s = some t) (h0 : P s) : P t := by
  induction n generalizing t with
  | zero =>
    simp only [for_lt_opt, Option.some.injEq] at h
    exact h ▸ h0
  | succ k ih =>
    simp only [for_lt_opt, Option.bind_eq_some] at h
    obtain ⟨u, hu, hb⟩ := h
    exact hstep k u t hb (ih u hu)

theorem while_dec_opt_some {σ : Type} (P : σ → Prop) (l : Nat) (body : Nat → σ → Option σ)
    (hstep : ∀ k t t', body k t = some t' → P t → P t') (s t : σ)
    (h : while_dec_opt l body s = some t) (h0 : P s) : P t := by
  induction l generalizing s with
  | zero =>
    simp only [while_dec_opt, Option.some.injEq] at h
    exact h ▸ h0
  | succ k ih =>
    simp only [while_dec_opt, Option.bind_eq_some] at h
    obtain ⟨u, hu, hb⟩ := h
    exact ih u hb (hstep k s u hu h0)

theorem acc_nonseq_read_pass (g : Geometry) (fb : Mem) (s t : State)
    (h : nonseq_read_pass g s = some t) (hs : accumulates fb s) : accumulates fb t :=
  for_lt_opt_some (accumulates fb) _ (nonseq_read_body g)
    (fun i u u' hb hu => by
      simp only [nonseq_read_body, Option.map_eq_some'] at hb
      obtain ⟨c, _, rfl⟩ := hb
      exact acc_read_word fb _ _ _ u hu)
    s t h hs

/-- The scratch-line copy touches neither the surface nor `sum`. -/
theorem line_read_sum (g : Geometry) (loops : Nat) (fb : Mem) (lb : Nat → Nat) :
    (sequential_line_read g loops fb lb).st.sum = 0 :=
  while_dec_inv (fun t : State => t.sum = 0) loops _ (init fb lb) rfl
    (fun _ t _ ht =>
      for_lt_ind (fun _ (ps : Nat × State) => ps.2.sum = 0) _ (line_read_row g) (0, t) ht
        (fun _ _ _ hps => hps))

theorem bad_luck_iff (s : State) : bad_luck s = true ↔ s.sum = 0xffffffff := by
  unfold bad_luck
  exact decide_eq_true_iff

/-- C12, as stated, fails: on a surface of one pixel whose word is `0xFFFFFFFF`
`sequential_horiz_singlepixel_read` reaches the null write, and
`sequential_line_read`, which reads the same four bytes, keeps no sum and does
not. -/
theorem line_read_has_no_canary :
    load32 (fun _ => 255) 0 = 0xffffffff ∧
    (sequential_horiz_singlepixel_read ⟨1, 1, 4, 4⟩ 1 (fun _ => 255) (fun _ => 0)).fault = true ∧
    (sequential_line_read ⟨1, 1, 4, 4⟩ 1 (fun _ => 255) (fun _ => 0)).st.sum = 0 ∧
    (sequential_line_read ⟨1, 1, 4, 4⟩ 1 (fun _ => 255) (fun _ => 0)).fault = false := by
  refine ⟨by decide, by decide, by decide, rfl⟩

/-- C12, amended: the three per-pixel read patterns,
`sequential_horiz_singlepixel_read`, `sequential_vert_singlepixel_read` and
`nonsequential_singlepixel_read`, leave in `sum` the values they read added up
modulo `2 ^ 32`, and reach the null write exactly when that sum is
`0xFFFFFFFF`; `sequential_line_read` copies rows with `memcpy`, keeps no sum
and never reaches a null write. -/
theorem read_patterns_canary (g : Geometry) (loops : Nat) (fb : Mem) (lb : Nat → Nat) :
    ((sequential_horiz_singlepixel_read g loops fb lb).st.sum =
        read_sum fb (sequential_horiz_singlepixel_read g loops fb lb).st.log % 2 ^ 32 ∧
      ((sequential_horiz_singlepixel_read g loops fb lb).fault = true ↔
        (sequential_horiz_singlepixel_read g loops fb lb).st.sum = 0xffffffff)) ∧
    ((sequential_vert_singlepixel_read g loops fb lb).st.sum =
        read_sum fb (sequential_vert_singlepixel_read g loops fb lb).st.log % 2 ^ 32 ∧
      ((sequential_vert_singlepixel_read g loops fb lb).fault = true ↔
        (sequential_vert_singlepixel_read g loops fb lb).st.sum = 0xffffffff)) ∧
    (∀ r, nonsequential_singlepixel_read g loops fb lb = some r →
      r.st.sum = read_sum fb r.st.log % 2 ^ 32 ∧
        (r.fault = true ↔ r.st.sum = 0xffffffff)) ∧
    ((sequential_line_read g loops fb lb).st.sum = 0 ∧
      (sequential_line_read g loops fb lb).fault = false) := by
  refine ⟨⟨?_, bad_luck_iff _⟩, ⟨?_, bad_luck_iff _⟩, ?_, line_read_sum g loops fb lb, rfl⟩
  · exact (while_dec_inv (accumulates fb) loops _ _ (acc_init fb lb)
      (fun _ t _ ht => acc_horiz_read_pass g fb t ht)).2
  · exact (while_dec_inv (accumulates fb) loops _ _ (acc_init fb lb)
      (fun _ t _ ht => acc_vert_read_pass g fb t ht)).2
  · intro r hr
    simp only [nonsequential_singlepixel_read, Option.map_eq_some'] at hr
    obtain ⟨t, ht, rfl⟩ := hr
    exact ⟨(while_dec_opt_some (accumulates fb) loops _
      (fun _ u u' hb hu => acc_nonseq_read_pass g fb u u' hb hu) _ t ht (acc_init fb lb)).2,
      bad_luck_iff _⟩

/-! ## More facts about binary64 rounding -/

theorem dadd_some (x y : ℚ) : dadd (some x) (some y) = fl (x + y) := rfl

/-- The exponent of the unit in the last place, from the binade of `x`. -/
theorem ulp_exp_eq (x : ℚ) (e : ℤ) (he : -1074 ≤ e) (h1 : (2 : ℚ) ^ (e + 52) ≤ |x|)
    (h2 : |x| < (2 : ℚ) ^ (e + 53)) : ulp_exp x = e := by
  have hpos : 0 < |x| := lt_of_lt_of_le (by positivity) h1
  have hlo : e + 52 ≤ Int.log 2 |x| :=
    (Int.zpow_le_iff_le_log (b := 2) (by norm_num) hpos).mp (by exact_mod_cast h1)
  have hhi : Int.log 2 |x| < e + 53 :=
    (Int.lt_zpow_iff_log_lt (b := 2) (by norm_num) hpos).mp (by exact_mod_cast h2)
  unfold ulp_exp
  rw [max_eq_left (by omega)]
  omega

theorem ulp_exp_le (x : ℚ) (k : ℤ) (hlow : (2 : ℚ) ^ (-1022 : ℤ) ≤ |x|)
    (hx : |x| < (2 : ℚ) ^ (k + 53)) : ulp_exp x ≤ k := by
  have h1 := (ulp_exp_spec x hlow).1
  have e : (2 : ℚ) ^ ulp_exp x * 2 ^ 52 = (2 : ℚ) ^ (ulp_exp x + 52) := by
    rw [← zpow_natCast, ← zpow_add₀ (by norm_num : (2 : ℚ) ≠ 0)]; rfl
  rw [e] at h1
  have h3 : (2 : ℚ) ^ (ulp_exp x + 52) < (2 : ℚ) ^ (k + 53) := lt_of_le_of_lt h1 hx
  have := (zpow_lt_zpow_iff_right₀ (by norm_num : (1 : ℚ) < 2)).mp h3
  omega

/-- An integer of up to 53 bits times a power of two is a binary64 value. -/
theorem fl_scaled_int (n : ℤ) (k : ℕ) (hn : |(n : ℚ)| < 2 ^ 53) (hk : k ≤ 900) :
    fl ((n : ℚ) * 2 ^ k) = some ((n : ℚ) * 2 ^ k) := by
  rcases eq_or_ne n 0 with h0 | h0
  · subst h0
    have := fl_intCast 0 (by simp)
    simpa using this
  have hpk : (0 : ℚ) < 2 ^ k := by positivity
  have habs : |(n : ℚ) * 2 ^ k| = |(n : ℚ)| * 2 ^ k := by
    rw [abs_mul, abs_of_pos hpk]
  have h1 : (1 : ℚ) ≤ |(n : ℚ)| := by
    have : (1 : ℤ) ≤ |n| := Int.one_le_abs h0
    exact_mod_cast this
  have hk1 : (1 : ℚ) ≤ 2 ^ k := one_le_pow₀ (by norm_num)
  have hlow : (2 : ℚ) ^ (-1022 : ℤ) ≤ |(n : ℚ) * 2 ^ k| := by
    rw [habs]
    calc (2 : ℚ) ^ (-1022 : ℤ) ≤ 1 := zpow_le_one_of_nonpos₀ (by norm_num) (by norm_num)
      _ = 1 * 1 := by ring
      _ ≤ |(n : ℚ)| * 2 ^ k := mul_le_mul h1 hk1 (by norm_num) (abs_nonneg _)
  have hlt : |(n : ℚ) * 2 ^ k| < (2 : ℚ) ^ ((k : ℤ) + 53) := by
    rw [habs, zpow_add₀ (by norm_num : (2 : ℚ) ≠ 0), zpow_natCast, mul_comm ((2 : ℚ) ^ k)]
    exact mul_lt_mul_of_pos_right (by exact_mod_cast hn) hpk
  have he := ulp_exp_le _ (k : ℤ) hlow hlt
  obtain ⟨j, hj⟩ : ∃ j : ℕ, (k : ℤ) - ulp_exp ((n : ℚ) * 2 ^ k) = j :=
    ⟨((k : ℤ) - ulp_exp ((n : ℚ) * 2 ^ k)).toNat, by omega⟩
  refine fl_exact _ (n * 2 ^ j) ?_ ?_
  · push_cast
    rw [mul_assoc, ← zpow_natCast (2 : ℚ) j, ← zpow_add₀ (by norm_num : (2 : ℚ) ≠ 0), ← hj]
    rw [show (k : ℤ) - ulp_exp ((n : ℚ) * 2 ^ k) + ulp_exp ((n : ℚ) * 2 ^ k) = (k : ℤ) by ring,
      zpow_natCast]
  · refine lt_of_lt_of_le hlt ?_
    rw [show ((2 : ℚ) ^ 1024) = (2 : ℚ) ^ ((1024 : ℕ) : ℤ) by rw [zpow_natCast]]
    exact zpow_le_zpow_right₀ (by norm_num) (by push_cast; omega)

/-- A value within half a unit of an integer rounds to that integer. -/
theorem rne_near (x : ℚ) (n : ℤ) (h : |x - (n : ℚ)| < 1 / 2) : rne x = n := by
  obtain ⟨h1, h2⟩ := abs_lt.mp h
  apply le_antisymm
  · by_contra hc
    push_neg at hc
    have e1 := rne_err x
    have : ((n : ℤ) : ℚ) + 1 ≤ (rne x : ℚ) := by exact_mod_cast hc
    obtain ⟨e2, e3⟩ := abs_le.mp e1
    linarith
  · by_contra hc
    push_neg at hc
    have e1 := rne_err x
    have : (rne x : ℚ) + 1 ≤ ((n : ℤ) : ℚ) := by exact_mod_cast hc
    obtain ⟨e2, e3⟩ := abs_le.mp e1
    linarith

/-- Half way between two integers the even one is taken. -/
theorem rne_tie_even (n : ℤ) (h : n % 2 = 0) : rne ((n : ℚ) + 1 / 2) = n := by
  have hf : ⌊(n : ℚ) + 1 / 2⌋ = n := by
    rw [Int.floor_eq_iff]; constructor <;> linarith
  have hfr : Int.fract ((n : ℚ) + 1 / 2) = 1 / 2 := by
    rw [Int.fract, hf]; ring
  unfold rne
  rw [hfr, hf, if_neg (by norm_num), if_neg (by norm_num), h, add_zero]

/-- Rounding, given the exponent of the unit in the last place. -/
theorem fl_of_ulp (x : ℚ) (e m : ℤ) (he : ulp_exp x = e) (hm : rne (x / 2 ^ e) = m)
    (hfin : |(m : ℚ) * 2 ^ e| < 2 ^ 1024) : fl x = some ((m : ℚ) * 2 ^ e) := by
  unfold fl
  rw [he, hm, if_pos hfin]

/-! ## The value of `stop_timing` -/

theorem trunc_intCast (z : ℤ) : trunc (z : ℚ) = z := by
  unfold trunc
  split_ifs <;> simp

/-- The sum of `stop_timing` when the seconds count times `1e9` is a binary64
value. -/
theorem stop_timing_steps (s e : timespec) (hn : |((e.tv_nsec - s.tv_nsec : ℤ) : ℚ)| < 2 ^ 53)
    (hs : |((e.tv_sec - s.tv_sec : ℤ) : ℚ)| < 2 ^ 53)
    (hp : |(((e.tv_sec - s.tv_sec) * 1953125 : ℤ) : ℚ)| < 2 ^ 53) :
    dadd (of_int (e.tv_nsec - s.tv_nsec)) (dmul (of_int (e.tv_sec - s.tv_sec)) (fl 1e9)) =
      fl ((elapsed s e : ℤ) : ℚ) := by
  have h1 : of_int (e.tv_nsec - s.tv_nsec) = some ((e.tv_nsec - s.tv_nsec : ℤ) : ℚ) :=
    fl_intCast _ hn
  have h2 : of_int (e.tv_sec - s.tv_sec) = some ((e.tv_sec - s.tv_sec : ℤ) : ℚ) :=
    fl_intCast _ hs
  have h3 : fl (((e.tv_sec - s.tv_sec : ℤ) : ℚ) * 1000000000) =
      some (((e.tv_sec - s.tv_sec : ℤ) : ℚ) * 1000000000) := by
    have := fl_scaled_int ((e.tv_sec - s.tv_sec) * 1953125) 9 hp (by norm_num)
    have e9 : ((((e.tv_sec - s.tv_sec) * 1953125 : ℤ) : ℚ)) * 2 ^ 9 =
        ((e.tv_sec - s.tv_sec : ℤ) : ℚ) * 1000000000 := by
      push_cast; ring
    rwa [e9] at this
  rw [h1, h2, fl_1e9, dmul_some, h3, dadd_some]
  congr 1
  unfold elapsed
  push_cast
  ring

/-- C11, as stated, fails: from `0 s, 0 ns` to `9007200 s, 1 ns` the true
elapsed time is `9007200000000001 ns`, which has 54 bits; the `double` sum
rounds it to even and `stop_timing` returns `9007200000000000`. -/
theorem stop_timing_rounds_after_104_days :
    stop_timing ⟨0, 0⟩ ⟨9007200, 1⟩ = some 9007200000000000 ∧
      elapsed ⟨0, 0⟩ ⟨9007200, 1⟩ = 9007200000000001 := by
  refine ⟨?_, by decide⟩
  have hsteps := stop_timing_steps ⟨0, 0⟩ ⟨9007200, 1⟩ (by norm_num) (by norm_num) (by norm_num)
  have hel : elapsed ⟨0, 0⟩ ⟨9007200, 1⟩ = 9007200000000001 := by decide
  rw [hel] at hsteps
  have hu : ulp_exp (((9007200000000001 : ℤ) : ℚ)) = 1 :=
    ulp_exp_eq _ 1 (by norm_num) (by norm_num) (by norm_num)
  have hr : rne ((((9007200000000001 : ℤ) : ℚ)) / 2 ^ (1 : ℤ)) = 4503600000000000 := by
    have := rne_tie_even 4503600000000000 (by decide)
    rw [← this]
    congr 1
    norm_num
  have hfl := fl_of_ulp _ 1 4503600000000000 hu hr (by norm_num)
  have hv : ((4503600000000000 : ℤ) : ℚ) * 2 ^ (1 : ℤ) = ((9007200000000000 : ℤ) : ℚ) := by
    norm_num
  rw [hv] at hfl
  unfold stop_timing
  rw [hsteps, hfl]
  simp only [to_integer, Option.some_bind, trunc_intCast]
  rfl

/-- C11, amended: for timestamps `start <= end` with nanosecond fields in
`[0, 10 ^ 9)` and a true elapsed time below `2 ^ 53` ns (about 104 days),
`stop_timing` returns exactly
`(end.sec - start.sec) * 10 ^ 9 + (end.nsec - start.nsec)`, also when
`end.nsec < start.nsec`. -/
theorem stop_timing_exact (s e : timespec)
    (hs0 : 0 ≤ s.tv_nsec) (hs1 : s.tv_nsec < 10 ^ 9) (he0 : 0 ≤ e.tv_nsec)
    (he1 : e.tv_nsec < 10 ^ 9)
    (hle : s.tv_sec < e.tv_sec ∨ (s.tv_sec = e.tv_sec ∧ s.tv_nsec ≤ e.tv_nsec))
    (hE : elapsed s e < 2 ^ 53) :
    stop_timing s e = some (elapsed s e).toNat := by
  unfold elapsed at hE
  have hE0 : 0 ≤ elapsed s e := by unfold elapsed; omega
  have hD0 : 0 ≤ e.tv_sec - s.tv_sec := by omega
  have hD1 : e.tv_sec - s.tv_sec < 9007201 := by omega
  have hsteps := stop_timing_steps s e
    (by
      rw [abs_lt]
      constructor
      · have : (-(2 : ℤ) ^ 53) < e.tv_nsec - s.tv_nsec := by omega
        exact_mod_cast this
      · have : e.tv_nsec - s.tv_nsec < (2 : ℤ) ^ 53 := by omega
        exact_mod_cast this)
    (by
      rw [abs_lt]
      constructor
      · have : (-(2 : ℤ) ^ 53) < e.tv_sec - s.tv_sec := by omega
        exact_mod_cast this
      · have : e.tv_sec - s.tv_sec < (2 : ℤ) ^ 53 := by omega
        exact_mod_cast this)
    (by
      rw [abs_lt]
      constructor
      · have : (-(2 : ℤ) ^ 53) < (e.tv_sec - s.tv_sec) * 1953125 := by omega
        exact_mod_cast this
      · have : (e.tv_sec - s.tv_sec) * 1953125 < (2 : ℤ) ^ 53 := by omega
        exact_mod_cast this)
  have hfl : fl ((elapsed s e : ℤ) : ℚ) = some ((elapsed s e : ℤ) : ℚ) :=
    fl_intCast _ (by
      rw [abs_lt]
      constructor
      · have : (-(2 : ℤ) ^ 53) < elapsed s e := by omega
        exact_mod_cast this
      · have : elapsed s e < (2 : ℤ) ^ 53 := by unfold elapsed; omega
        exact_mod_cast this)
  unfold stop_timing
  rw [hsteps, hfl]
  simp only [to_integer, Option.some_bind, trunc_intCast]
  rw [if_pos ⟨hE0, by unfold elapsed; omega⟩]
  rfl

/-- A measurement of 5 s that starts at `100 s, 999999999 ns`: the nanosecond
difference is negative. -/
theorem stop_timing_exact_witness :
    stop_timing ⟨100, 999999999⟩ ⟨106, 1⟩ = some (elapsed ⟨100, 999999999⟩ ⟨106, 1⟩).toNat ∧
      elapsed ⟨100, 999999999⟩ ⟨106, 1⟩ = 5000000002 :=
  ⟨stop_timing_exact ⟨100, 999999999⟩ ⟨106, 1⟩ (by decide) (by decide) (by decide) (by decide)
    (Or.inl (by decide)) (by decide), by decide⟩

/-! ## Throughput -/

/-- An `unsigned long long` of 54 bits or more converts to a `double` that is
still at least `2 ^ 53`. -/
theorem fl_nat_big (T : ℕ) (hb : 2 ^ 53 ≤ T) (hT : T < 2 ^ 64) :
    ∃ t, fl (T : ℚ) = some t ∧ (2 : ℚ) ^ 53 ≤ t ∧ t ≤ 2 ^ 65 := by
  have hbq : (2 : ℚ) ^ 53 ≤ T := by exact_mod_cast hb
  have hTq2 : (T : ℚ) < 2 ^ 64 := by exact_mod_cast hT
  have hTabs : |(T : ℚ)| = T := abs_of_nonneg (by linarith [show (0 : ℚ) ≤ 2 ^ 53 by positivity])
  have hlow : (2 : ℚ) ^ (-1022 : ℤ) ≤ |(T : ℚ)| :=
    tiny_le _ (by rw [hTabs]; linarith [show (1 : ℚ) / 2 ^ 70 ≤ 2 ^ 53 by norm_num])
  obtain ⟨t, ht, herr⟩ := fl_err (T : ℚ) hlow
    (by rw [hTabs]; linarith [show (2 : ℚ) ^ 64 < 2 ^ 1023 by norm_num])
  rw [hTabs] at herr
  have hd : |t - (T : ℚ)| ≤ 2 ^ 11 := by
    by_contra hc
    push_neg at hc
    have := mul_lt_mul_of_pos_right hc (show (0 : ℚ) < 2 ^ 53 by positivity)
    rw [show (2 : ℚ) ^ 11 * 2 ^ 53 = 2 ^ 64 by norm_num] at this
    linarith
  obtain ⟨-, hd2⟩ := abs_le.mp hd
  refine ⟨t, ht, ?_, by linarith [show (2 : ℚ) ^ 64 + 2 ^ 11 ≤ 2 ^ 65 by norm_num]⟩
  have hspec := ulp_exp_spec (T : ℚ) hlow
  rw [hTabs] at hspec
  have hu : (0 : ℚ) < 2 ^ ulp_exp (T : ℚ) := by positivity
  have he11 : ulp_exp (T : ℚ) ≤ 11 :=
    ulp_exp_le _ 11 hlow (by rw [hTabs]; exact lt_of_lt_of_le hTq2 (by norm_num))
  obtain ⟨j, hj⟩ : ∃ j : ℕ, (53 : ℤ) - ulp_exp (T : ℚ) = j :=
    ⟨((53 : ℤ) - ulp_exp (T : ℚ)).toNat, by omega⟩
  have hprod : (2 : ℚ) ^ j * 2 ^ ulp_exp (T : ℚ) = 2 ^ 53 := by
    rw [← zpow_natCast (2 : ℚ) j, ← zpow_add₀ (by norm_num : (2 : ℚ) ≠ 0), ← hj]
    rw [show (53 : ℤ) - ulp_exp (T : ℚ) + ulp_exp (T : ℚ) = ((53 : ℕ) : ℤ) by push_cast; ring,
      zpow_natCast]
  have hle : (((2 : ℤ) ^ j : ℤ) : ℚ) ≤ (T : ℚ) / 2 ^ ulp_exp (T : ℚ) := by
    rw [le_div_iff₀ hu]; push_cast; rw [hprod]; exact hbq
  have h2 : (((2 : ℤ) ^ j : ℤ) : ℚ) ≤ (rne ((T : ℚ) / 2 ^ ulp_exp (T : ℚ)) : ℚ) := by
    exact_mod_cast le_rne _ _ hle
  have h3 := mul_le_mul_of_nonneg_right h2 hu.le
  rw [← fl_value _ t ht] at h3
  push_cast at h3
  rwa [hprod] at h3

/-- The binary64 quotient of a natural number below `2 ^ 53` by an
`unsigned long long` has the integer part of the exact quotient. -/
theorem fl_div_floor53 (N T : ℕ) (hN1 : 1 ≤ N) (hN : N < 2 ^ 53) (hT1 : 1 ≤ T)
    (hT : T < 2 ^ 64) :
    ∃ t y, fl (T : ℚ) = some t ∧ t ≠ 0 ∧ fl ((N : ℚ) / t) = some y ∧
      ((N / T : ℕ) : ℚ) ≤ y ∧ y < ((N / T : ℕ) : ℚ) + 1 := by
  have hNq : (1 : ℚ) ≤ N := by exact_mod_cast hN1
  have hNq2 : (N : ℚ) + 1 ≤ 2 ^ 53 := by exact_mod_cast hN
  have hTq : (1 : ℚ) ≤ T := by exact_mod_cast hT1
  rcases lt_or_le T (2 ^ 53) with hs | hb
  · have hTpos : (0 : ℚ) < T := by linarith
    have hsq : (T : ℚ) < 2 ^ 53 := by exact_mod_cast hs
    have hlt : N < (N / T + 1) * T := by
      rw [Nat.mul_comm]; exact Nat.lt_mul_div_succ N (by omega)
    have hltq : (N : ℚ) + 1 ≤ ((N / T : ℕ) + 1) * T := by exact_mod_cast hlt
    have hq1 : (N : ℚ) / T ≤ N := div_le_self (by linarith) hTq
    have hq0 : (N : ℚ) / 2 ^ 53 ≤ (N : ℚ) / T :=
      div_le_div_of_nonneg_left (by linarith) hTpos hsq.le
    obtain ⟨y, hy, h1, h2⟩ := fl_floor ((N : ℚ) / T) ((N / T : ℕ) : ℤ)
      (tiny_le _ (le_trans (by rw [div_le_div_iff₀ (by positivity) (by positivity)]; nlinarith) hq0))
      (by linarith)
      (by rw [Int.cast_natCast]; exact Nat.cast_div_le)
      (by
        rw [Int.cast_natCast]
        have e : ((N / T : ℕ) : ℚ) + 1 - N / T = (((N / T : ℕ) + 1) * T - N) / T := by
          field_simp
        rw [e, div_mul_eq_mul_div, div_lt_div_iff_of_pos_right hTpos]
        have : (1 : ℚ) ≤ ((N / T : ℕ) + 1) * T - N := by linarith
        nlinarith)
    rw [Int.cast_natCast] at h1 h2
    exact ⟨T, y, fl_natCast T hs, by positivity, hy, h1, h2⟩
  · obtain ⟨t, ht, ht53, ht65⟩ := fl_nat_big T hb hT
    have htpos : 0 < t := lt_of_lt_of_le (by positivity) ht53
    have hk : N / T = 0 := Nat.div_eq_of_lt (by omega)
    have hx1 : (N : ℚ) / t ≤ 1 - 1 / 2 ^ 53 := by
      rw [div_le_iff₀ htpos]
      have : (1 - 1 / 2 ^ 53 : ℚ) * 2 ^ 53 ≤ (1 - 1 / 2 ^ 53) * t :=
        mul_le_mul_of_nonneg_left ht53 (by norm_num)
      have e : (1 - 1 / 2 ^ 53 : ℚ) * 2 ^ 53 = 2 ^ 53 - 1 := by norm_num
      linarith
    have hxlow : (1 : ℚ) / 2 ^ 65 ≤ (N : ℚ) / t :=
      div_le_div₀ (by linarith) hNq htpos ht65
    obtain ⟨y, hy, h1, h2⟩ := fl_floor ((N : ℚ) / t) 0
      (tiny_le _ (le_trans (by norm_num) hxlow))
      (lt_of_le_of_lt hx1 (by norm_num))
      (by simp only [Int.cast_zero]; positivity)
      (by
        simp only [Int.cast_zero, zero_add]
        have h53 : (1 : ℚ) / 2 ^ 53 * 2 ^ 53 = 1 := by norm_num
        nlinarith)
    rw [hk]
    simp only [Int.cast_zero, zero_add, Nat.cast_zero] at h1 h2 ⊢
    exact ⟨t, y, ht, ne_of_gt htpos, hy, h1, h2⟩

theorem of_int_natCast (n : ℕ) (hn : n < 2 ^ 53) : of_int (n : ℤ) = some (n : ℚ) := by
  have := fl_natCast n hn
  simpa [of_int] using this

theorem fl_zero : fl 0 = some 0 := by
  have := fl_natCast 0 (by norm_num)
  simpa using this

/-- The product `pixels * 1e9` is a binary64 value for every pixel count a
pattern can report. -/
theorem fl_pixels_1e9 (p : ℕ) (hp : p < 2 ^ 32) :
    fl ((p : ℚ) * 1000000000) = some ((p : ℚ) * 1000000000) := by
  have hlt : (p : ℤ) * 1953125 < 2 ^ 53 := by omega
  have := fl_scaled_int ((p : ℤ) * 1953125) 9 (by
    rw [abs_of_nonneg (by positivity)]
    exact_mod_cast hlt) (by norm_num)
  have e9 : ((((p : ℤ) * 1953125 : ℤ)) : ℚ) * 2 ^ 9 = (p : ℚ) * 1000000000 := by
    push_cast; ring
  rwa [e9] at this

/-- The throughput is the truncated exact quotient when `pixels * 10 ^ 9` has at
most 53 bits. -/
theorem throughput_exact (m : Measurement) (hT0 : 0 < m.usecs) (hT : m.usecs < 2 ^ 64)
    (hP : m.pixels * 10 ^ 9 < 2 ^ 53) :
    throughput m = some (m.pixels * 10 ^ 9 / m.usecs) := by
  have hp32 : m.pixels < 2 ^ 32 := by omega
  have hprod : (m.pixels : ℚ) * 1000000000 = ((m.pixels * 10 ^ 9 : ℕ) : ℚ) := by
    push_cast; norm_num
  unfold throughput
  rw [of_int_natCast m.pixels (by omega), fl_1e9, dmul_some, fl_pixels_1e9 m.pixels hp32, hprod]
  rcases Nat.eq_zero_or_pos (m.pixels * 10 ^ 9) with h0 | hpos
  · obtain ⟨t, ht, htne⟩ : ∃ t, of_int (m.usecs : ℤ) = some t ∧ t ≠ 0 := by
      obtain ⟨t, y, ht, htne, -⟩ := fl_div_floor53 1 m.usecs le_rfl (by norm_num) hT0 hT
      exact ⟨t, by simpa [of_int] using ht, htne⟩
    rw [h0, ht, ddiv_some, if_neg htne]
    simp only [Nat.cast_zero, zero_div, fl_zero, to_integer, Option.some_bind, Nat.zero_div]
    rfl
  · obtain ⟨t, y, ht, htne, hy, h1, h2⟩ :=
      fl_div_floor53 (m.pixels * 10 ^ 9) m.usecs hpos hP hT0 hT
    have ht' : of_int (m.usecs : ℤ) = some t := by simpa [of_int] using ht
    have htr := trunc_of_floor y _ h1 h2
    rw [ht', ddiv_some, if_neg htne, hy]
    simp only [to_integer, Option.some_bind, htr]
    have hq : m.pixels * 10 ^ 9 / m.usecs < 2 ^ 53 :=
      lt_of_le_of_lt (Nat.div_le_self _ _) hP
    generalize m.pixels * 10 ^ 9 / m.usecs = k at hq
    rw [if_pos ⟨by omega, by omega⟩]
    rfl

/-- What `run` prints once the loop count is defined. -/
theorem run_of_calibrated {W : Type} (func : Nat → W → Measurement × W) (w : W)
    (hlo : 12 ≤ (func calib_loops w).1.usecs) (hhi : (func calib_loops w).1.usecs < 2 ^ 64) :
    run func w =
      (throughput (func (25000000000 / (func calib_loops w).1.usecs)
          (func calib_loops w).2).1).map
        (fun pps =>
          ({ pixels := (func (25000000000 / (func calib_loops w).1.usecs)
                (func calib_loops w).2).1.pixels,
             usecs := (func (25000000000 / (func calib_loops w).1.usecs)
                (func calib_loops w).2).1.usecs,
             pix_per_sec := pps },
           (func (25000000000 / (func calib_loops w).1.usecs) (func calib_loops w).2).2)) := by
  have h := calibrated_loops_eq _ (by omega) hhi
  rw [if_pos hlo] at h
  have hk : 25000000000 / (func calib_loops w).1.usecs < 2 ^ 32 := by
    rw [Nat.div_lt_iff_lt_mul (by omega)]
    omega
  unfold run
  simp only [h, Option.some_bind]
  have e : int_to_unsigned ((25000000000 / (func calib_loops w).1.usecs : Nat) : ℤ)
      = 25000000000 / (func calib_loops w).1.usecs := by
    unfold int_to_unsigned
    generalize 25000000000 / (func calib_loops w).1.usecs = k at hk
    omega
  rw [e]

/-- C13, as stated, fails: for 3333333337 pixels in 5000000003 ns the exact
quotient is `666666667 - 1 / 5000000003`, which truncates to 666666666; the
`double` quotient rounds up to 666666667 before it is truncated. -/
theorem throughput_rounds_up :
    throughput { usecs := 5000000003, pixels := 3333333337 } = some 666666667 ∧
      3333333337 * 10 ^ 9 / 5000000003 = 666666666 := by
  refine ⟨?_, by norm_num⟩
  have hT : of_int ((5000000003 : ℕ) : ℤ) = some ((5000000003 : ℕ) : ℚ) :=
    of_int_natCast _ (by norm_num)
  have hp : of_int ((3333333337 : ℕ) : ℤ) = some ((3333333337 : ℕ) : ℚ) :=
    of_int_natCast _ (by norm_num)
  have hP := fl_pixels_1e9 3333333337 (by norm_num)
  have hu : ulp_exp (((3333333337 : ℕ) : ℚ) * 1000000000 / ((5000000003 : ℕ) : ℚ)) = -23 :=
    ulp_exp_eq _ (-23) (by norm_num)
      (by rw [abs_of_nonneg (by positivity)]; norm_num)
      (by rw [abs_of_nonneg (by positivity)]; norm_num)
  have hr : rne (((3333333337 : ℕ) : ℚ) * 1000000000 / ((5000000003 : ℕ) : ℚ)
      / 2 ^ (-23 : ℤ)) = 5592405336129536 := by
    apply rne_near
    rw [abs_lt]
    constructor <;> norm_num
  have hfl := fl_of_ulp _ (-23) 5592405336129536 hu hr (by norm_num)
  have hv : ((5592405336129536 : ℤ) : ℚ) * 2 ^ (-23 : ℤ) = ((666666667 : ℤ) : ℚ) := by
    norm_num
  rw [hv] at hfl
  unfold throughput
  show (to_integer 0 (2 ^ 64 - 1)
    (ddiv (dmul (of_int ((3333333337 : ℕ) : ℤ)) (fl 1e9))
      (of_int ((5000000003 : ℕ) : ℤ)))).map Int.toNat = _
  rw [hT, hp, fl_1e9, dmul_some, hP, ddiv_some, if_neg (by norm_num), hfl]
  simp only [to_integer, Option.some_bind, trunc_intCast]
  rfl

/-- C13, amended: when the loop count is defined and the production measurement
has `0 < nanoseconds < 2 ^ 64` and `pixels * 10 ^ 9 < 2 ^ 53`, the throughput
`run` reports is `pixels * 10 ^ 9 / nanoseconds` truncated, and the pixels and
nanoseconds it reports are those of the measurement, unchanged. -/
theorem run_reports_throughput {W : Type} (func : Nat → W → Measurement × W) (w : W)
    (hlo : 12 ≤ (func calib_loops w).1.usecs) (hhi : (func calib_loops w).1.usecs < 2 ^ 64)
    (hT0 : 0 < (func (25000000000 / (func calib_loops w).1.usecs)
      (func calib_loops w).2).1.usecs)
    (hT : (func (25000000000 / (func calib_loops w).1.usecs)
      (func calib_loops w).2).1.usecs < 2 ^ 64)
    (hP : (func (25000000000 / (func calib_loops w).1.usecs)
      (func calib_loops w).2).1.pixels * 10 ^ 9 < 2 ^ 53) :
    throughput (func (25000000000 / (func calib_loops w).1.usecs) (func calib_loops w).2).1 =
        some ((func (25000000000 / (func calib_loops w).1.usecs)
            (func calib_loops w).2).1.pixels * 10 ^ 9 /
          (func (25000000000 / (func calib_loops w).1.usecs) (func calib_loops w).2).1.usecs) ∧
      run func w =
        some ({ pixels := (func (25000000000 / (func calib_loops w).1.usecs)
                  (func calib_loops w).2).1.pixels,
                usecs := (func (25000000000 / (func calib_loops w).1.usecs)
                  (func calib_loops w).2).1.usecs,
                pix_per_sec :=
                  (func (25000000000 / (func calib_loops w).1.usecs)
                      (func calib_loops w).2).1.pixels * 10 ^ 9 /
                    (func (25000000000 / (func calib_loops w).1.usecs)
                      (func calib_loops w).2).1.usecs },
          (func (25000000000 / (func calib_loops w).1.usecs) (func calib_loops w).2).2) := by
  have hthr := throughput_exact _ hT0 hT hP
  refine ⟨hthr, ?_⟩
  rw [run_of_calibrated func w hlo hhi, hthr]
  rfl

/-- A pattern that costs 400000 ns per loop on a surface of 8 x 16 pixels:
12500 loops, 1600000 pixels in 5 s, 320000 pixels per second. -/
theorem run_reports_throughput_witness :
    run (constant_cost 400000 ⟨8, 16, 32, 4⟩) () =
      some ({ pixels := 1600000, usecs := 5000000000, pix_per_sec := 320000 }, ()) :=
  (run_reports_throughput (constant_cost 400000 ⟨8, 16, 32, 4⟩) () (by decide) (by decide)
    (by decide) (by decide) (by decide)).2

/-! ## The three store patterns leave the same surface -/

theorem while_dec_opt_last {σ : Type} (l : Nat) (body : Nat → σ → Option σ) (s : σ) :
    while_dec_opt (l + 1) body s =
      (while_dec_opt l (fun k => body (k + 1)) s).bind (body 0) := by
  induction l generalizing s with
  | zero =>
    show (body 0 s).bind (while_dec_opt 0 body) = body 0 s
    cases body 0 s <;> rfl
  | succ k ih =>
    show (body (k + 1) s).bind (while_dec_opt (k + 1) body) =
      ((body (k + 1) s).bind (while_dec_opt k fun j => body (j + 1))).bind (body 0)
    cases h : body (k + 1) s with
    | none => rfl
    | some t => simp only [Option.some_bind, ih]

/-- On a surface of less than `2 ^ 32` bytes with a stride that is a multiple
of 4, the tiled patterns and the sequential ones address a pixel alike. -/
theorem tile_off_eq (g : Geometry) (hstride : g.line_length % 4 = 0)
    (hmap : g.yres_virtual * g.line_length < 2 ^ 32) (x y : Nat) (hy : y < g.yres_virtual) :
    tile_off g x y = seq_addr g x y := by
  have h1 : y * g.line_length ≤ g.yres_virtual * g.line_length :=
    Nat.mul_le_mul_right _ hy.le
  unfold tile_off seq_addr
  rw [u32_of_lt (lt_of_le_of_lt h1 hmap), Nat.mul_div_cancel' (Nat.dvd_of_mod_eq_zero hstride)]

/-- One pass of the tiled store loop paints every pixel of the surface, when
its counter visits every pixel. -/
theorem nonseq_write_pass_painted (g : Geometry) (loops l : Nat) (s : State)
    (hstride : g.line_length % 4 = 0) (hrow : 4 * g.xres_virtual ≤ g.line_length)
    (hmap : g.yres_virtual * g.line_length < 2 ^ 32)
    (hsize : g.xres_virtual * g.yres_virtual < 2 ^ 32)
    (hvis : visits_each_pixel_once (tile_xy 4 4 g.xres_virtual g.yres_virtual)
      g.xres_virtual g.yres_virtual) :
    ∃ t, nonseq_write_pass g loops l s = some t ∧
      painted (seq_addr g) (pixel_value loops l) (in_surface g) (in_surface g) s.mem t.mem := by
  have hd := seq_addr_disjoint g (rows_apart g hrow)
  have hN : u32 (g.yres_virtual * g.xres_virtual) = g.xres_virtual * g.yres_virtual := by
    rw [Nat.mul_comm]; exact u32_of_lt hsize
  obtain ⟨t, ht, hp⟩ := for_lt_opt_ind
    (fun k (t : State) => painted (seq_addr g) (pixel_value loops l) (in_surface g)
      (fun x y => ∃ i, i < k ∧ tile_xy 4 4 g.xres_virtual g.yres_virtual i = some (x, y))
      s.mem t.mem)
    (u32 (g.yres_virtual * g.xres_virtual)) (nonseq_write_body g loops l) s
    (painted_init _ _ _ _ _ (fun x y hc => by obtain ⟨i, hi, _⟩ := hc; omega))
    (fun i hi t hpt => by
      rw [hN] at hi
      obtain ⟨x, y, hxy, hxW, hyH⟩ := hvis.1 i hi
      refine ⟨write_word (tile_off g x y) (pixel_value loops l x y) x y t,
        by simp only [nonseq_write_body, hxy, Option.map_some'], ?_⟩
      have hst := painted_store hpt
        (fun x' y' hc => by
          obtain ⟨i', hi', he'⟩ := hc
          obtain ⟨x'', y'', hxy'', hx'', hy''⟩ := hvis.1 i' (by omega)
          rw [he'] at hxy''
          simp only [Option.some.injEq, Prod.mk.injEq] at hxy''
          exact ⟨hxy''.1 ▸ hx'', hxy''.2 ▸ hy''⟩)
        hd x y ⟨hxW, hyH⟩
      rw [← tile_off_eq g hstride hmap x y hyH] at hst
      refine painted_mono hst (fun x' y' hc => ?_)
      obtain ⟨i', hi', he'⟩ := hc
      rcases Nat.lt_succ_iff_lt_or_eq.mp hi' with hlt | rfl
      · exact Or.inl ⟨i', hlt, he'⟩
      · rw [hxy] at he'
        simp only [Option.some.injEq, Prod.mk.injEq] at he'
        exact Or.inr ⟨he'.1.symm, he'.2.symm⟩)
  refine ⟨t, ht, painted_mono hp (fun x y hxy => ?_)⟩
  obtain ⟨i, ⟨hi, he⟩, -⟩ := hvis.2 x y hxy.1 hxy.2
  exact ⟨i, by rw [hN]; exact hi, he⟩

/-- The decomposition is a bijection for every tile grid that divides a surface
of fewer than `2 ^ 32` pixels. -/
theorem tile_xy_bijection_of_size (yparts xparts W H : Nat) (hyp : 0 < yparts)
    (hxp : 0 < xparts) (hsize : W * H < 2 ^ 32) (hx : xparts ∣ W) (hy : yparts ∣ H) :
    visits_each_pixel_once (tile_xy yparts xparts W H) W H := by
  rcases Nat.eq_zero_or_pos W with hW0 | hWpos
  · subst hW0
    exact ⟨fun i hi => by simp at hi, fun x y hx0 _ => absurd hx0 (Nat.not_lt_zero _)⟩
  rcases Nat.eq_zero_or_pos H with hH0 | hHpos
  · subst hH0
    exact ⟨fun i hi => by simp at hi, fun x y _ hy0 => absurd hy0 (Nat.not_lt_zero _)⟩
  exact tile_xy_bijection yparts xparts W H hyp hxp
    (le_trans (Nat.le_mul_of_pos_right W hHpos) hsize.le)
    (le_trans (Nat.le_mul_of_pos_left H hWpos) hsize.le) hx hy

/-- The tiled store pattern leaves the surface painted with the values of its
last pass. -/
theorem nonseq_write_painted (g : Geometry) (loops : Nat) (fb : Mem) (lb : Nat → Nat)
    (hloops : 1 ≤ loops)
    (hstride : g.line_length % 4 = 0) (hrow : 4 * g.xres_virtual ≤ g.line_length)
    (hmap : g.yres_virtual * g.line_length < 2 ^ 32)
    (hsize : g.xres_virtual * g.yres_virtual < 2 ^ 32)
    (hvis : visits_each_pixel_once (tile_xy 4 4 g.xres_virtual g.yres_virtual)
      g.xres_virtual g.yres_virtual) :
    ∃ r, nonsequential_singlepixel_write g loops fb lb = some r ∧
      painted (seq_addr g) (pixel_value loops 0) (in_surface g) (in_surface g) fb r.st.mem := by
  obtain ⟨n, rfl⟩ : ∃ n, loops = n + 1 := ⟨loops - 1, by omega⟩
  obtain ⟨sp, hsp, hframe⟩ := while_dec_opt_inv
    (fun t : State => ∀ a, (∀ x y, in_surface g x y → ∀ i, i < 4 → a ≠ seq_addr g x y + i) →
      t.mem a = fb a)
    n (fun k => nonseq_write_pass g (n + 1) (k + 1)) (init fb lb) (fun _ _ => rfl)
    (fun k t _ ht => by
      obtain ⟨t', ht', hp⟩ :=
        nonseq_write_pass_painted g (n + 1) (k + 1) t hstride hrow hmap hsize hvis
      exact ⟨t', ht', fun a ha => by rw [hp.2 a ha, ht a ha]⟩)
  obtain ⟨t, ht, hp⟩ := nonseq_write_pass_painted g (n + 1) 0 sp hstride hrow hmap hsize hvis
  refine ⟨{ st := t, pixels := pixels_out g (n + 1), fault := false }, ?_,
    painted_trans hframe hp⟩
  unfold nonsequential_singlepixel_write
  rw [while_dec_opt_last, hsp, Option.some_bind, ht, Option.map_some']

/-- A byte of row padding belongs to the word of no pixel. -/
theorem padding_outside (g : Geometry) (hstride : g.line_length % 4 = 0) (y j : Nat)
    (hj1 : 4 * g.xres_virtual ≤ j) (hj2 : j < g.line_length) :
    ∀ x' y', in_surface g x' y' → ∀ i, i < 4 →
      y * g.line_length + j ≠ seq_addr g x' y' + i := by
  intro x' y' hR i hi he
  rw [seq_addr_aligned g hstride] at he
  obtain ⟨hx', _⟩ := hR
  have hS : 0 < g.line_length := by omega
  have e1 : (j + y * g.line_length) / g.line_length = y := by
    rw [Nat.add_mul_div_right _ _ hS, Nat.div_eq_of_lt hj2, Nat.zero_add]
  have e2 : (x' * 4 + i + y' * g.line_length) / g.line_length = y' := by
    rw [Nat.add_mul_div_right _ _ hS, Nat.div_eq_of_lt (by omega), Nat.zero_add]
  have e3 : j + y * g.line_length = x' * 4 + i + y' * g.line_length := by omega
  have hy : y = y' := by rw [← e1, ← e2, e3]
  subst hy
  omega

/-- C15, as stated, fails: on a surface of 4 x 4 pixels with a stride of
`2 ^ 31` bytes the product `y * fix.line_length` of the tiled pattern wraps for
rows 2 and 3; `sequential_horiz_singlepixel_write` stores pixel `(1, 2)` at
byte offset `2 ^ 32 + 4`, `nonsequential_singlepixel_write` never touches that
byte. -/
theorem tiled_row_offset_wraps :
    (2147483648 % 4 = 0 ∧ 4 * 4 ≤ 2147483648 ∧ 4 * 4 < 2 ^ 32 ∧ 4 ∣ 4) ∧
    (sequential_horiz_singlepixel_write ⟨4, 4, 2147483648, 4⟩ 1 (fun _ => 0)
      (fun _ => 0)).st.mem 4294967300 = 2 ∧
    (nonsequential_singlepixel_write ⟨4, 4, 2147483648, 4⟩ 1 (fun _ => 0)
      (fun _ => 0)).map (fun r => r.st.mem 4294967300) = some 0 := by
  refine ⟨by decide, by decide, by decide⟩

/-- C15, amended: for every `loops` and every geometry with a stride that is a
multiple of 4 and at least `4 * width` and with `width * height < 2 ^ 32`,
starting from the same surface, `sequential_vert_singlepixel_write` leaves
exactly the surface `sequential_horiz_singlepixel_write` leaves; so does
`nonsequential_singlepixel_write` when 4 divides width and height and the
surface has fewer than `2 ^ 32` bytes (`height * stride < 2 ^ 32`); the bytes
of row padding are as they were. -/
theorem same_final_surface (g : Geometry) (loops : Nat) (fb : Mem) (lb : Nat → Nat)
    (hstride : g.line_length % 4 = 0) (hrow : 4 * g.xres_virtual ≤ g.line_length)
    (hsize : g.xres_virtual * g.yres_virtual < 2 ^ 32) :
    (sequential_vert_singlepixel_write g loops fb lb).st.mem =
      (sequential_horiz_singlepixel_write g loops fb lb).st.mem ∧
    (g.yres_virtual * g.line_length < 2 ^ 32 → 4 ∣ g.xres_virtual → 4 ∣ g.yres_virtual →
      ∃ r, nonsequential_singlepixel_write g loops fb lb = some r ∧
        r.st.mem = (sequential_horiz_singlepixel_write g loops fb lb).st.mem ∧
        ∀ y j, y < g.yres_virtual → 4 * g.xres_virtual ≤ j → j < g.line_length →
          r.st.mem (y * g.line_length + j) = fb (y * g.line_length + j)) ∧
    (∀ y j, y < g.yres_virtual → 4 * g.xres_virtual ≤ j → j < g.line_length →
      (sequential_horiz_singlepixel_write g loops fb lb).st.mem (y * g.line_length + j) =
          fb (y * g.line_length + j) ∧
        (sequential_vert_singlepixel_write g loops fb lb).st.mem (y * g.line_length + j) =
          fb (y * g.line_length + j)) := by
  have h4 := rows_apart g hrow
  have hH : ∀ n, painted (seq_addr g) (pixel_value (n + 1) 0) (in_surface g) (in_surface g) fb
      (sequential_horiz_singlepixel_write g (n + 1) fb lb).st.mem :=
    fun n => while_dec_painted (pixel_value (n + 1)) _
      (fun l s => horiz_write_pass_painted g (n + 1) l s h4) (n + 1) (by omega) (init fb lb)
  have hV : ∀ n, painted (seq_addr g) (pixel_value (n + 1) 0) (in_surface g) (in_surface g) fb
      (sequential_vert_singlepixel_write g (n + 1) fb lb).st.mem :=
    fun n => while_dec_painted (pixel_value (n + 1)) _
      (fun l s => vert_write_pass_painted g (n + 1) l s h4) (n + 1) (by omega) (init fb lb)
  have hVH : (sequential_vert_singlepixel_write g loops fb lb).st.mem =
      (sequential_horiz_singlepixel_write g loops fb lb).st.mem := by
    rcases loops with _ | n
    · rfl
    · exact painted_unique (hH n) (hV n)
  have hpad : ∀ y j, y < g.yres_virtual → 4 * g.xres_virtual ≤ j → j < g.line_length →
      (sequential_horiz_singlepixel_write g loops fb lb).st.mem (y * g.line_length + j) =
        fb (y * g.line_length + j) := by
    intro y j _ hj1 hj2
    have hout := padding_outside g hstride y j hj1 hj2
    exact while_dec_inv
      (fun t : State => ∀ a, (∀ x y, in_surface g x y → ∀ i, i < 4 → a ≠ seq_addr g x y + i) →
        t.mem a = fb a)
      loops (fun l s => horiz_write_pass g loops l s) (init fb lb) (fun _ _ => rfl)
      (fun k t _ ht a ha => by
        rw [(horiz_write_pass_painted g loops k t h4).2 a ha, ht a ha])
      _ hout
  refine ⟨hVH, ?_, fun y j hy hj1 hj2 => ⟨hpad y j hy hj1 hj2, by
    rw [hVH]; exact hpad y j hy hj1 hj2⟩⟩
  intro hmap hx hy
  have key : ∃ r, nonsequential_singlepixel_write g loops fb lb = some r ∧
      r.st.mem = (sequential_horiz_singlepixel_write g loops fb lb).st.mem := by
    rcases loops with _ | n
    · exact ⟨_, rfl, rfl⟩
    · have hvis := tile_xy_bijection_of_size 4 4 g.xres_virtual g.yres_virtual (by norm_num)
        (by norm_num) hsize hx hy
      obtain ⟨r, hr, hp⟩ :=
        nonseq_write_painted g (n + 1) fb lb (by omega) hstride hrow hmap hsize hvis
      exact ⟨r, hr, painted_unique (hH n) hp⟩
  obtain ⟨r, hr, hmem⟩ := key
  exact ⟨r, hr, hmem, fun y j hy hj1 hj2 => by rw [hmem]; exact hpad y j hy hj1 hj2⟩

/-- Two passes over a surface of 4 x 4 pixels with two bytes of padding per row. -/
theorem same_final_surface_witness :
    (sequential_vert_singlepixel_write ⟨4, 4, 20, 4⟩ 2 (fun _ => 7) (fun _ => 0)).st.mem =
      (sequential_horiz_singlepixel_write ⟨4, 4, 20, 4⟩ 2 (fun _ => 7) (fun _ => 0)).st.mem ∧
    ∃ r, nonsequential_singlepixel_write ⟨4, 4, 20, 4⟩ 2 (fun _ => 7) (fun _ => 0) = some r ∧
      r.st.mem =
        (sequential_horiz_singlepixel_write ⟨4, 4, 20, 4⟩ 2 (fun _ => 7) (fun _ => 0)).st.mem :=
  ⟨(same_final_surface ⟨4, 4, 20, 4⟩ 2 (fun _ => 7) (fun _ => 0) (by decide) (by decide)
      (by decide)).1,
    (let ⟨r, hr, hm, _⟩ := (same_final_surface ⟨4, 4, 20, 4⟩ 2 (fun _ => 7) (fun _ => 0)
      (by decide) (by decide) (by decide)).2.1 (by decide) (by decide) (by decide)
     ⟨r, hr, hm⟩)⟩

/-! ## The accumulators of the read patterns agree -/

theorem while_dec_count {σ : Type} (P : Nat → σ → Prop) (body : Nat → σ → σ)
    (hstep : ∀ k j t, P j t → P (j + 1) (body k t)) (l j : Nat) (s : σ) (h0 : P j s) :
    P (j + l) (while_dec l body s) := by
  induction l generalizing j s with
  | zero => exact h0
  | succ k ih =>
    have := ih (j + 1) (body k s) (hstep k j s h0)
    rwa [Nat.add_assoc, Nat.add_comm 1 k] at this

theorem while_dec_opt_count {σ : Type} (P : Nat → σ → Prop) (body : Nat → σ → Option σ)
    (hstep : ∀ k j t, P j t → ∃ t', body k t = some t' ∧ P (j + 1) t') (l j : Nat) (s : σ)
    (h0 : P j s) : ∃ t, while_dec_opt l body s = some t ∧ P (j + l) t := by
  induction l generalizing j s with
  | zero => exact ⟨s, rfl, h0⟩
  | succ k ih =>
    obtain ⟨u, hu, hPu⟩ := hstep k j s h0
    obtain ⟨t, ht, hPt⟩ := ih (j + 1) u hPu
    refine ⟨t, by simp only [while_dec_opt, hu, Option.some_bind, ht], ?_⟩
    rwa [Nat.add_assoc, Nat.add_comm 1 k] at hPt

theorem u32_add_u32 (a b : Nat) : u32 (u32 a + b) = u32 (a + b) := by
  unfold u32; omega

/-- One more word read: the surface stays, `sum` grows by the word. -/
theorem read_word_sum (fb : Mem) (off x y base acc : Nat) (s : State) (hm : s.mem = fb)
    (hs : s.sum = u32 (base + acc)) :
    (read_word off x y s).mem = fb ∧
      (read_word off x y s).sum = u32 (base + (acc + load32 fb off)) := by
  refine ⟨hm, ?_⟩
  show u32 (s.sum + load32 s.mem off) = _
  rw [hs, hm, u32_add_u32, Nat.add_assoc]

/-- One pass of the row-major read loop adds every pixel word once. -/
theorem horiz_read_pass_sum (g : Geometry) (fb : Mem) (s : State) (base : Nat)
    (hstride : g.line_length % 4 = 0) (hm : s.mem = fb) (hs : s.sum = u32 base) :
    (horiz_read_pass g s).mem = fb ∧
      (horiz_read_pass g s).sum = u32 (base + surface_sum g fb) := by
  have key := for_lt_ind
    (fun k (ps : Nat × State) => ps.1 = k * (4 * (g.line_length / 4)) ∧ ps.2.mem = fb ∧
      ps.2.sum = u32 (base + Finset.sum (Finset.range k) fun y =>
        Finset.sum (Finset.range g.xres_virtual) fun x =>
          load32 fb (y * g.line_length + x * 4)))
    g.yres_virtual (horiz_read_row g) (0, s) ⟨by simp, hm, by simpa using hs⟩ ?_
  · exact ⟨key.2.1, key.2.2⟩
  · rintro k _ ⟨p, t⟩ ⟨hp, htm, hts⟩
    simp only at hp htm hts
    subst hp
    refine ⟨by simp only [horiz_read_row, next_row]; ring, ?_⟩
    have inner := for_lt_ind
      (fun n (t' : State) => t'.mem = fb ∧
        t'.sum = u32 (base + ((Finset.sum (Finset.range k) fun y =>
          Finset.sum (Finset.range g.xres_virtual) fun x =>
            load32 fb (y * g.line_length + x * 4)) +
          Finset.sum (Finset.range n) fun x => load32 fb (k * g.line_length + x * 4))))
      g.xres_virtual
      (fun x s => read_word (k * (4 * (g.line_length / 4)) + 4 * x) x k s) t
      ⟨htm, by simpa using hts⟩ ?_
    · refine ⟨inner.1, ?_⟩
      rw [Finset.sum_range_succ]
      exact inner.2
    · rintro n _ t' ⟨htm', hts'⟩
      have := read_word_sum fb (k * (4 * (g.line_length / 4)) + 4 * n) n k base _ t' htm' hts'
      refine ⟨this.1, ?_⟩
      rw [this.2, Finset.sum_range_succ, Nat.add_assoc]
      have e := seq_addr_aligned g hstride n k
      unfold seq_addr at e
      rw [e]

/-- One pass of the column-major read loop adds every pixel word once. -/
theorem vert_read_pass_sum (g : Geometry) (fb : Mem) (s : State) (base : Nat)
    (hstride : g.line_length % 4 = 0) (hm : s.mem = fb) (hs : s.sum = u32 base) :
    (vert_read_pass g s).mem = fb ∧
      (vert_read_pass g s).sum = u32 (base + surface_sum g fb) := by
  have key := for_lt_ind
    (fun k (t : State) => t.mem = fb ∧
      t.sum = u32 (base + Finset.sum (Finset.range k) fun x =>
        Finset.sum (Finset.range g.yres_virtual) fun y =>
          load32 fb (y * g.line_length + x * 4)))
    g.xres_virtual (vert_read_col g) s ⟨hm, by simpa using hs⟩ ?_
  · refine ⟨key.1, ?_⟩
    have k2 := key.2
    rw [surface_sum, Finset.sum_comm]
    exact k2
  · rintro k _ t ⟨htm, hts⟩
    have inner := for_lt_ind
      (fun n (ps : Nat × State) => ps.1 = 4 * k + n * (4 * (g.line_length / 4)) ∧
        ps.2.mem = fb ∧
        ps.2.sum = u32 (base + ((Finset.sum (Finset.range k) fun x =>
          Finset.sum (Finset.range g.yres_virtual) fun y =>
            load32 fb (y * g.line_length + x * 4)) +
          Finset.sum (Finset.range n) fun y => load32 fb (y * g.line_length + k * 4))))
      g.yres_virtual (vert_read_cell g k) (4 * k, t) ⟨by simp, htm, by simpa using hts⟩ ?_
    · refine ⟨inner.2.1, ?_⟩
      rw [Finset.sum_range_succ]
      exact inner.2.2
    · rintro n _ ⟨p, t'⟩ ⟨hp, htm', hts'⟩
      simp only at hp htm' hts'
      subst hp
      refine ⟨by simp only [vert_read_cell, next_row]; ring, ?_⟩
      have := read_word_sum fb (4 * k + n * (4 * (g.line_length / 4))) k n base _ t' htm' hts'
      refine ⟨this.1, ?_⟩
      show (read_word (4 * k + n * (4 * (g.line_length / 4))) k n t').sum = _
      rw [this.2, Finset.sum_range_succ, Nat.add_assoc]
      have e := seq_addr_aligned g hstride k n
      unfold seq_addr at e
      rw [Nat.add_comm (4 * k), e]

/-- A sum over the counter of a tiled pass that visits every pixel once is the
sum over the pixels. -/
theorem tiled_sum_eq (yparts xparts W H : Nat)
    (hvis : visits_each_pixel_once (tile_xy yparts xparts W H) W H) (F : Nat → Nat → Nat) :
    (Finset.sum (Finset.range (W * H)) fun i =>
      F ((tile_xy yparts xparts W H i).getD (0, 0)).1
        ((tile_xy yparts xparts W H i).getD (0, 0)).2) =
      Finset.sum (Finset.range H) fun y => Finset.sum (Finset.range W) fun x => F x y := by
  rw [Finset.sum_comm, ← Finset.sum_product']
  refine Finset.sum_bij (fun i _ => (tile_xy yparts xparts W H i).getD (0, 0)) ?_ ?_ ?_ ?_
  · intro i hi
    obtain ⟨x, y, hxy, hx, hy⟩ := hvis.1 i (Finset.mem_range.mp hi)
    dsimp only
    rw [hxy]
    exact Finset.mem_product.mpr ⟨Finset.mem_range.mpr hx, Finset.mem_range.mpr hy⟩
  · intro i hi j hj hij
    obtain ⟨x, y, hxy, hx, hy⟩ := hvis.1 i (Finset.mem_range.mp hi)
    obtain ⟨x', y', hxy', -, -⟩ := hvis.1 j (Finset.mem_range.mp hj)
    dsimp only at hij
    rw [hxy, hxy'] at hij
    simp only [Option.getD_some] at hij
    rw [← hij] at hxy'
    exact (hvis.2 x y hx hy).unique ⟨Finset.mem_range.mp hi, hxy⟩ ⟨Finset.mem_range.mp hj, hxy'⟩
  · intro c hc
    obtain ⟨hx, hy⟩ := Finset.mem_product.mp hc
    obtain ⟨i, ⟨hi, he⟩, -⟩ := hvis.2 c.1 c.2 (Finset.mem_range.mp hx) (Finset.mem_range.mp hy)
    exact ⟨i, Finset.mem_range.mpr hi, by dsimp only; rw [he]; rfl⟩
  · intro i _
    rfl

/-- One pass of the tiled read loop adds every pixel word once, when its
counter visits every pixel. -/
theorem nonseq_read_pass_sum (g : Geometry) (fb : Mem) (s : State) (base : Nat)
    (hstride : g.line_length % 4 = 0) (hmap : g.yres_virtual * g.line_length < 2 ^ 32)
    (hsize : g.xres_virtual * g.yres_virtual < 2 ^ 32)
    (hvis : visits_each_pixel_once (tile_xy 16 8 g.xres_virtual g.yres_virtual)
      g.xres_virtual g.yres_virtual)
    (hm : s.mem = fb) (hs : s.sum = u32 base) :
    ∃ t, nonseq_read_pass g s = some t ∧ t.mem = fb ∧
      t.sum = u32 (base + surface_sum g fb) := by
  have hN : u32 (g.yres_virtual * g.xres_virtual) = g.xres_virtual * g.yres_virtual := by
    rw [Nat.mul_comm]; exact u32_of_lt hsize
  obtain ⟨t, ht, htm, hts⟩ := for_lt_opt_ind
    (fun k (t : State) => t.mem = fb ∧
      t.sum = u32 (base + Finset.sum (Finset.range k) fun i =>
        load32 fb
          (((tile_xy 16 8 g.xres_virtual g.yres_virtual i).getD (0, 0)).2 * g.line_length +
            ((tile_xy 16 8 g.xres_virtual g.yres_virtual i).getD (0, 0)).1 * 4)))
    (u32 (g.yres_virtual * g.xres_virtual)) (nonseq_read_body g) s
    ⟨hm, by simpa using hs⟩
    (fun i hi t ⟨htm, hts⟩ => by
      rw [hN] at hi
      obtain ⟨x, y, hxy, hxW, hyH⟩ := hvis.1 i hi
      refine ⟨read_word (tile_off g x y) x y t,
        by simp only [nonseq_read_body, hxy, Option.map_some'], ?_⟩
      have := read_word_sum fb (tile_off g x y) x y base _ t htm hts
      refine ⟨this.1, ?_⟩
      rw [this.2, Finset.sum_range_succ, hxy, tile_off_eq g hstride hmap x y hyH,
        seq_addr_aligned g hstride]
      rfl)
  refine ⟨t, ht, htm, ?_⟩
  rw [hts, hN, surface_sum]
  exact congrArg (fun v => u32 (base + v))
    (tiled_sum_eq 16 8 g.xres_virtual g.yres_virtual hvis
      (fun x y => load32 fb (y * g.line_length + x * 4)))

set_option maxRecDepth 20000 in
/-- C16, as stated, fails: on a surface of 8 x 16 pixels with a stride of
`2 ^ 31` bytes the product `y * fix.line_length` of the tiled pattern wraps from
row 2 on; with a 1 in the word of pixel `(0, 2)`, at byte offset `2 ^ 32`, and
0 elsewhere, `sequential_horiz_singlepixel_read` ends with `sum = 1` and
`nonsequential_singlepixel_read` with `sum = 0`. -/
theorem tiled_read_offset_wraps :
    (2147483648 % 4 = 0 ∧ 4 * 8 ≤ 2147483648 ∧ 8 ∣ 8 ∧ 16 ∣ 16) ∧
    (sequential_horiz_singlepixel_read ⟨8, 16, 2147483648, 4⟩ 1
      (fun a => if a = 4294967296 then 1 else 0) (fun _ => 0)).st.sum = 1 ∧
    (nonsequential_singlepixel_read ⟨8, 16, 2147483648, 4⟩ 1
      (fun a => if a = 4294967296 then 1 else 0) (fun _ => 0)).map (fun r => r.st.sum)
        = some 0 :=
  ⟨by decide, rfl, rfl⟩

/-- C16, amended: for every surface, `loops` and geometry with a stride that is
a multiple of 4 and at least `4 * width`, `sequential_horiz_singlepixel_read`
and `sequential_vert_singlepixel_read` leave the surface unchanged, end with
the same accumulator, `(loops * sum of all pixel words) mod 2 ^ 32`, and reach
the null write exactly when that final value is `0xFFFFFFFF`;
`nonsequential_singlepixel_read` does the same when 8 divides width, 16 divides
height and the surface has fewer than `2 ^ 32` bytes
(`height * stride < 2 ^ 32`). -/
theorem read_accumulators_agree (g : Geometry) (loops : Nat) (fb : Mem) (lb : Nat → Nat)
    (hstride : g.line_length % 4 = 0) (hrow : 4 * g.xres_virtual ≤ g.line_length) :
    ((sequential_horiz_singlepixel_read g loops fb lb).st.mem = fb ∧
      (sequential_horiz_singlepixel_read g loops fb lb).st.sum =
        (loops * surface_sum g fb) % 2 ^ 32 ∧
      ((sequential_horiz_singlepixel_read g loops fb lb).fault = true ↔
        (loops * surface_sum g fb) % 2 ^ 32 = 0xffffffff)) ∧
    ((sequential_vert_singlepixel_read g loops fb lb).st.mem = fb ∧
      (sequential_vert_singlepixel_read g loops fb lb).st.sum =
        (loops * surface_sum g fb) % 2 ^ 32 ∧
      ((sequential_vert_singlepixel_read g loops fb lb).fault = true ↔
        (loops * surface_sum g fb) % 2 ^ 32 = 0xffffffff)) ∧
    (g.yres_virtual * g.line_length < 2 ^ 32 → 8 ∣ g.xres_virtual → 16 ∣ g.yres_virtual →
      ∃ r, nonsequential_singlepixel_read g loops fb lb = some r ∧ r.st.mem = fb ∧
        r.st.sum = (loops * surface_sum g fb) % 2 ^ 32 ∧
        (r.fault = true ↔ (loops * surface_sum g fb) % 2 ^ 32 = 0xffffffff)) := by
  have hinit : (init fb lb).mem = fb ∧ (init fb lb).sum = u32 (0 * surface_sum g fb) :=
    ⟨rfl, by simp [init, u32]⟩
  have hH := while_dec_count
    (fun j (t : State) => t.mem = fb ∧ t.sum = u32 (j * surface_sum g fb))
    (fun _ s => horiz_read_pass g s)
    (fun _ j t ht => by
      have := horiz_read_pass_sum g fb t _ hstride ht.1 ht.2
      rwa [← Nat.succ_mul] at this)
    loops 0 (init fb lb) hinit
  have hV := while_dec_count
    (fun j (t : State) => t.mem = fb ∧ t.sum = u32 (j * surface_sum g fb))
    (fun _ s => vert_read_pass g s)
    (fun _ j t ht => by
      have := vert_read_pass_sum g fb t _ hstride ht.1 ht.2
      rwa [← Nat.succ_mul] at this)
    loops 0 (init fb lb) hinit
  rw [Nat.zero_add] at hH hV
  refine ⟨⟨hH.1, hH.2, ?_⟩, ⟨hV.1, hV.2, ?_⟩, ?_⟩
  · rw [← show (sequential_horiz_singlepixel_read g loops fb lb).st.sum =
      (loops * surface_sum g fb) % 2 ^ 32 from hH.2]
    exact bad_luck_iff _
  · rw [← show (sequential_vert_singlepixel_read g loops fb lb).st.sum =
      (loops * surface_sum g fb) % 2 ^ 32 from hV.2]
    exact bad_luck_iff _
  · intro hmap hx hy
    have hsize : g.xres_virtual * g.yres_virtual < 2 ^ 32 := by
      have h1 : 4 * g.xres_virtual * g.yres_virtual ≤ g.line_length * g.yres_virtual :=
        Nat.mul_le_mul_right _ hrow
      rw [Nat.mul_comm g.line_length] at h1
      rw [Nat.mul_assoc] at h1
      omega
    have hvis := tile_xy_bijection_of_size 16 8 g.xres_virtual g.yres_virtual (by norm_num)
      (by norm_num) hsize hx hy
    obtain ⟨t, ht, htm, hts⟩ := while_dec_opt_count
      (fun j (t : State) => t.mem = fb ∧ t.sum = u32 (j * surface_sum g fb))
      (fun _ s => nonseq_read_pass g s)
      (fun _ j t ht => by
        obtain ⟨t', ht', hm', hs'⟩ :=
          nonseq_read_pass_sum g fb t _ hstride hmap hsize hvis ht.1 ht.2
        rw [← Nat.succ_mul] at hs'
        exact ⟨t', ht', hm', hs'⟩)
      loops 0 (init fb lb) hinit
    rw [Nat.zero_add] at hts
    refine ⟨{ st := t, pixels := pixels_out g loops, fault := bad_luck t },
      by simp only [nonsequential_singlepixel_read, ht, Option.map_some'], htm, hts, ?_⟩
    rw [← show t.sum = (loops * surface_sum g fb) % 2 ^ 32 from hts]
    exact bad_luck_iff _

/-- Two passes over a surface of 8 x 16 pixels without padding. -/
theorem read_accumulators_agree_witness :
    (sequential_vert_singlepixel_read ⟨8, 16, 32, 4⟩ 2 (fun a => a % 256) (fun _ => 0)).st.sum =
      (sequential_horiz_singlepixel_read ⟨8, 16, 32, 4⟩ 2 (fun a => a % 256) (fun _ => 0)).st.sum ∧
    ∃ r, nonsequential_singlepixel_read ⟨8, 16, 32, 4⟩ 2 (fun a => a % 256) (fun _ => 0) = some r ∧
      r.st.sum =
        (sequential_horiz_singlepixel_read ⟨8, 16, 32, 4⟩ 2 (fun a => a % 256) (fun _ => 0)).st.sum :=
  have h := read_accumulators_agree ⟨8, 16, 32, 4⟩ 2 (fun a => a % 256) (fun _ => 0)
    (by decide) (by decide)
  ⟨h.2.1.2.1.trans h.1.2.1.symm,
    let ⟨r, hr, _, hs, _⟩ := h.2.2 (by decide) (by decide) (by decide)
    ⟨r, hr, hs.trans h.1.2.1.symm⟩⟩

end Perf
